import Mathlib

/-!
Verification of the field-reflection serialization core of lazy-cpp.

The development shallowly embeds the value dispatcher
(include/lazy/serialization/serializable.h), the binary adapter
(BinaryContext), the text adapter (TextAdapter, include/lazy/serialization/text.h),
the lazy JSON adapter (LazyJson, include/lazy/serialization/json_lazy.h), the
runtime type-dispatch registry (multi_serializable.h) and the one-time field
registration gate, and proves or refutes the specification claims about them.

Modelling conventions:
- C++ char values and wire bytes are natural numbers 0..255 (`Nat`); strings,
  keys and paths are `List Nat`.
- machine integers are `Nat`/`Int` with explicit reduction modulo 2^32 where
  the code casts (`static_cast<uint32_t>`, `static_cast<int32_t>`).
- fallible operations (std::stoll / std::stoul throwing, stream exhaustion)
  are `Option`: `none` models a raised exception or a failed read.
- deserializers and parsers take an explicit fuel argument so that they are
  structurally recursive; the C++ loops always terminate, and every theorem
  either quantifies over sufficient fuel or fixes an adequate amount.
-/

set_option linter.unusedVariables false

namespace LazyCpp

/-! Nat-string basics -/

abbrev Bytes := List Nat

/-- Decimal digit test, models isdigit on a byte. -/
def isDigitB (b : Nat) : Bool := 48 ≤ b && b ≤ 57

/-- Whitespace test, models isspace on the bytes the parsers feed it. -/
def isSpaceB (b : Nat) : Bool := b == 32 || (9 ≤ b && b ≤ 13)

/-- Helper for decimal printing: digits of n, most significant first. -/
def natToDecAux : Nat → Nat → Bytes
  | 0, _ => []
  | fuel + 1, n => if n < 10 then [48 + n] else natToDecAux fuel (n / 10) ++ [48 + n % 10]

/-- Decimal representation of a natural number, models std::to_string on an
unsigned value. -/
def natToDec (n : Nat) : Bytes := natToDecAux (n + 1) n

/-- Decimal representation of an int, models std::to_string on a signed value. -/
def intToDec (i : Int) : Bytes := if i < 0 then 45 :: natToDec i.natAbs else natToDec i.toNat

/-- Value of a most-significant-first digit string. -/
def decToNat (ds : Bytes) : Nat := ds.foldl (fun a d => 10 * a + (d - 48)) 0

/-- Shared core of the stoll and stoull models: take the maximal digit run
and fail (throw) if it is empty. -/
def digitsVal (s : Bytes) : Option Nat :=
  let ds := s.takeWhile isDigitB
  if ds = [] then none else some (decToNat ds)

/-- Model of std::stoull on a byte string: skip leading whitespace, optional
plus sign, then at least one decimal digit; no conversion raises (none).
Out-of-range overflow is not modelled; every call site proved about stays in
range. -/
def stoullOpt (s : Bytes) : Option Nat :=
  if (s.dropWhile isSpaceB).head? = some 43 then digitsVal (s.dropWhile isSpaceB).tail
  else digitsVal (s.dropWhile isSpaceB)

/-- Model of std::stoll on a byte string: like stoullOpt but with an optional
minus sign. -/
def stollOpt (s : Bytes) : Option Int :=
  if (s.dropWhile isSpaceB).head? = some 45 then
    (digitsVal (s.dropWhile isSpaceB).tail).map (fun n => -(n : Int))
  else if (s.dropWhile isSpaceB).head? = some 43 then
    (digitsVal (s.dropWhile isSpaceB).tail).map (fun n => (n : Int))
  else (digitsVal (s.dropWhile isSpaceB)).map (fun n => (n : Int))

/-- Interpretation of a uint32 bit pattern as int32, models static_cast
to int32_t. -/
def toInt32 (u : Nat) : Int :=
  if u % 4294967296 < 2147483648 then ((u % 4294967296 : Nat) : Int)
  else ((u % 4294967296 : Nat) : Int) - 4294967296

/-- Truncation of a signed value to a uint32 bit pattern, models static_cast
to uint32_t. -/
def u32ofInt (i : Int) : Nat := (i % 4294967296).toNat

/-- Result of static_cast from long long to int, models the conversion in
the text adapter getValue for integers. -/
def llToInt (i : Int) : Int := toInt32 (u32ofInt i)

theorem natToDecAux_digits (fuel n : Nat) :
    ∀ b ∈ natToDecAux fuel n, 48 ≤ b ∧ b ≤ 57 := by
  induction fuel generalizing n with
  | zero => simp [natToDecAux]
  | succ fuel ih =>
    intro b hb
    simp only [natToDecAux] at hb
    split at hb
    · simp only [List.mem_singleton] at hb
      omega
    · rcases List.mem_append.mp hb with h | h
      · exact ih _ _ h
      · simp only [List.mem_singleton] at h
        have := Nat.mod_lt n (by omega : 0 < 10)
        omega

theorem natToDec_digits (n : Nat) : ∀ b ∈ natToDec n, 48 ≤ b ∧ b ≤ 57 :=
  natToDecAux_digits _ n

theorem natToDecAux_ne_nil (fuel n : Nat) (h : n < fuel) : natToDecAux fuel n ≠ [] := by
  cases fuel with
  | zero => omega
  | succ fuel =>
    simp only [natToDecAux]
    split
    · simp
    · simp

theorem natToDec_ne_nil (n : Nat) : natToDec n ≠ [] :=
  natToDecAux_ne_nil _ n (by omega)

theorem decToNat_append_digit (ds : Bytes) (d : Nat) :
    decToNat (ds ++ [d]) = 10 * decToNat ds + (d - 48) := by
  simp [decToNat, List.foldl_append]

theorem decToNat_natToDecAux (fuel n : Nat) (h : n < fuel) :
    decToNat (natToDecAux fuel n) = n := by
  induction fuel using Nat.strong_induction_on generalizing n with
  | _ fuel ih =>
    cases fuel with
    | zero => omega
    | succ fuel =>
      simp only [natToDecAux]
      split
      · simp [decToNat]
      · rename_i hn
        rw [decToNat_append_digit]
        have hdiv : n / 10 < fuel := by omega
        rw [ih fuel (by omega) _ hdiv]
        omega

theorem decToNat_natToDec (n : Nat) : decToNat (natToDec n) = n :=
  decToNat_natToDecAux _ n (by omega)

theorem natToDec_injective {m n : Nat} (h : natToDec m = natToDec n) : m = n := by
  have := decToNat_natToDec m
  rw [h, decToNat_natToDec] at this
  omega

theorem isDigitB_true (b : Nat) (h1 : 48 ≤ b) (h2 : b ≤ 57) : isDigitB b = true := by
  unfold isDigitB
  rw [Bool.and_eq_true]
  exact ⟨decide_eq_true h1, decide_eq_true h2⟩

theorem isSpaceB_false (b : Nat) (h1 : b ≠ 32) (h2 : ¬(9 ≤ b ∧ b ≤ 13)) :
    isSpaceB b = false := by
  unfold isSpaceB
  rw [Bool.or_eq_false_iff]
  refine ⟨?_, ?_⟩
  · rw [beq_eq_false_iff_ne]
    exact h1
  · rw [Bool.and_eq_false_iff]
    by_cases h9 : 9 ≤ b
    · right
      exact decide_eq_false (fun hc => h2 ⟨h9, hc⟩)
    · left
      exact decide_eq_false h9

theorem natToDec_all_digits (n : Nat) : (natToDec n).all isDigitB := by
  rw [List.all_eq_true]
  intro b hb
  have h := natToDec_digits n b hb
  exact isDigitB_true b h.1 h.2

theorem takeWhile_all_eq {p : Nat → Bool} {l : Bytes} (h : l.all p = true) :
    l.takeWhile p = l := by
  induction l with
  | nil => rfl
  | cons a l ih =>
    simp only [List.all_cons, Bool.and_eq_true] at h
    simp [List.takeWhile_cons, h.1, ih h.2]

theorem digitsVal_natToDec (n : Nat) : digitsVal (natToDec n) = some n := by
  unfold digitsVal
  rw [takeWhile_all_eq (natToDec_all_digits n)]
  simp [natToDec_ne_nil n, decToNat_natToDec]

theorem dropWhile_isSpaceB_natToDec (n : Nat) :
    (natToDec n).dropWhile isSpaceB = natToDec n := by
  cases h : natToDec n with
  | nil => rfl
  | cons a l =>
    have ha := natToDec_digits n a (by rw [h]; exact List.mem_cons_self a l)
    rw [List.dropWhile_cons]
    have h1 : a ≠ 32 := by omega
    have h2 : ¬(9 ≤ a ∧ a ≤ 13) := by omega
    have hs : isSpaceB a = false := isSpaceB_false a h1 h2
    simp [hs]

theorem natToDec_head_digit (n : Nat) : ∀ a ∈ (natToDec n).head?, 48 ≤ a ∧ a ≤ 57 := by
  cases h : natToDec n with
  | nil => simp
  | cons a l =>
    intro b hb
    simp only [List.head?_cons, Option.mem_def, Option.some.injEq] at hb
    have hba : b = a := by omega
    subst hba
    exact natToDec_digits n b (by rw [h]; exact List.mem_cons_self b l)

theorem stoullOpt_natToDec (n : Nat) : stoullOpt (natToDec n) = some n := by
  unfold stoullOpt
  rw [dropWhile_isSpaceB_natToDec]
  have hh : (natToDec n).head? ≠ some 43 := by
    intro hc
    have := natToDec_head_digit n 43 (by rw [hc]; rfl)
    omega
  rw [if_neg hh]
  exact digitsVal_natToDec n

theorem stollOpt_intToDec (i : Int) : stollOpt (intToDec i) = some i := by
  unfold stollOpt intToDec
  by_cases hneg : i < 0
  · rw [if_pos hneg]
    have hdrop : (45 :: natToDec i.natAbs).dropWhile isSpaceB = 45 :: natToDec i.natAbs := by
      rw [List.dropWhile_cons]
      have h1 : (45 : Nat) ≠ 32 := by decide
      have h2 : ¬(9 ≤ (45 : Nat) ∧ (45 : Nat) ≤ 13) := by decide
      have hs : isSpaceB 45 = false := isSpaceB_false 45 h1 h2
      simp [hs]
    rw [hdrop]
    rw [if_pos (show (45 :: natToDec i.natAbs).head? = some 45 from rfl)]
    show (digitsVal (natToDec i.natAbs)).map (fun n => -(n : Int)) = some i
    rw [digitsVal_natToDec]
    show some (-(i.natAbs : Int)) = some i
    rw [Option.some.injEq]
    omega
  · rw [if_neg hneg]
    rw [dropWhile_isSpaceB_natToDec]
    have h45 : (natToDec i.toNat).head? ≠ some 45 := by
      intro hc
      have := natToDec_head_digit i.toNat 45 (by rw [hc]; rfl)
      omega
    have h43 : (natToDec i.toNat).head? ≠ some 43 := by
      intro hc
      have := natToDec_head_digit i.toNat 43 (by rw [hc]; rfl)
      omega
    rw [if_neg h45, if_neg h43, digitsVal_natToDec]
    show some ((i.toNat : Int)) = some i
    rw [Option.some.injEq]
    omega

theorem llToInt_of_range {i : Int} (h1 : -2147483648 ≤ i) (h2 : i < 2147483648) :
    llToInt i = i := by
  unfold llToInt toInt32 u32ofInt
  split <;> omega

/-! Data model of serializable values.

A serializable C++ type is described by a `Ty`: a scalar (int, bool,
std::string), a nested aggregate / externally registered type (an ordered
field list of name-type pairs; the value dispatcher in serializable.h treats
both through the identical adapter call sequence setObject + per-field
recursion), or a std::vector of a `Ty`. An instance of such a type is a
`Value`; object values carry their field values positionally, in declaration
order, mirroring how the field registry pairs metadata with instance
addresses. -/

inductive Ty where
  | tInt : Ty
  | tBool : Ty
  | tStr : Ty
  | tObj : List (Bytes × Ty) → Ty
  | tArr : Ty → Ty

inductive Value where
  | vInt : Int → Value
  | vBool : Bool → Value
  | vStr : Bytes → Value
  | vObj : List Value → Value
  | vArr : List Value → Value

/-! Typing of values: a value is a C++ instance of the given type. Integer
fields are C++ int, hence in int32 range; string bytes are chars, hence
below 256. -/
mutual
def wtV : Ty → Value → Bool
  | .tInt, .vInt n => decide (-2147483648 ≤ n) && decide (n < 2147483648)
  | .tBool, .vBool _ => true
  | .tStr, .vStr s => s.all (fun b => b < 256)
  | .tObj fs, .vObj vs => wtFields fs vs
  | .tArr t, .vArr es => wtElems t es
  | _, _ => false

def wtFields : List (Bytes × Ty) → List Value → Bool
  | [], [] => true
  | (_, t) :: fs, v :: vs => wtV t v && wtFields fs vs
  | _, _ => false

def wtElems : Ty → List Value → Bool
  | _, [] => true
  | t, v :: vs => wtV t v && wtElems t vs
end

/-! Default-constructed instance of a type: int 0, bool false, empty string,
empty vector, fields default-constructed recursively. -/
mutual
def defaultV : Ty → Value
  | .tInt => .vInt 0
  | .tBool => .vBool false
  | .tStr => .vStr []
  | .tObj fs => .vObj (defaultFields fs)
  | .tArr _ => .vArr []

def defaultFields : List (Bytes × Ty) → List Value
  | [] => []
  | (_, t) :: fs => defaultV t :: defaultFields fs
end

/-- Identifier character test: C++ field names consist of letters, digits and
underscore. -/
def isIdentChar (b : Nat) : Bool :=
  (48 ≤ b && b ≤ 57) || (65 ≤ b && b ≤ 90) || (97 ≤ b && b ≤ 122) || b == 95

/-- Identifier test for a field name: nonempty, identifier characters only,
not starting with a digit. -/
def isIdent (s : Bytes) : Bool :=
  match s with
  | [] => false
  | c :: _ => s.all isIdentChar && !(isDigitB c)

/-! Well-formedness of a type description: every aggregate has pairwise
distinct, identifier-shaped field names. This captures exactly what the C++
declarations guarantee (field names are distinct identifiers). -/
mutual
def wfTy : Ty → Bool
  | .tInt => true
  | .tBool => true
  | .tStr => true
  | .tObj fs => nodupNames fs && wfFieldTys fs
  | .tArr t => wfTy t

def wfFieldTys : List (Bytes × Ty) → Bool
  | [] => true
  | (f, t) :: fs => isIdent f && wfTy t && wfFieldTys fs

def nodupNames : List (Bytes × Ty) → Bool
  | [] => true
  | (f, _) :: fs => fs.all (fun p => !(p.1 == f)) && nodupNames fs
end

/-! Test whether a type serializes to nothing at all: an aggregate all of
whose fields are themselves void aggregates. Scalars and vectors always emit
at least one leaf or count entry. -/
mutual
def voidTy : Ty → Bool
  | .tObj fs => voidFields fs
  | _ => false

def voidFields : List (Bytes × Ty) → Bool
  | [] => true
  | (_, t) :: fs => voidTy t && voidFields fs
end

/-! Size bound on strings and vectors: the 4-byte length and count prefixes
of the binary format are exact only below 2^32. -/
mutual
def smallV : Value → Bool
  | .vInt _ => true
  | .vBool _ => true
  | .vStr s => decide (s.length < 4294967296)
  | .vObj vs => smallL vs
  | .vArr es => decide (es.length < 4294967296) && smallL es

def smallL : List Value → Bool
  | [] => true
  | v :: vs => smallV v && smallL vs
end

/-! Newline-freedom of every string in the value: the text adapter writes
one key-value assignment per line, so embedded newlines break its framing. -/
mutual
def nlFreeV : Value → Bool
  | .vInt _ => true
  | .vBool _ => true
  | .vStr s => s.all (fun b => !(b == 10))
  | .vObj vs => nlFreeL vs
  | .vArr es => nlFreeL es

def nlFreeL : List Value → Bool
  | [] => true
  | v :: vs => nlFreeV v && nlFreeL vs
end

/-! Default instances are well typed. -/
mutual
theorem wtV_defaultV : ∀ t : Ty, wtV t (defaultV t) = true
  | .tInt => by decide
  | .tBool => rfl
  | .tStr => rfl
  | .tObj fs => wtFields_defaultFields fs
  | .tArr t => rfl

theorem wtFields_defaultFields : ∀ fs : List (Bytes × Ty),
    wtFields fs (defaultFields fs) = true
  | [] => rfl
  | (f, t) :: fs => by
    show (wtV t (defaultV t) && wtFields fs (defaultFields fs)) = true
    rw [Bool.and_eq_true]
    exact ⟨wtV_defaultV t, wtFields_defaultFields fs⟩
end

/-! Values of a void type are unique: any two well-typed instances agree
(both are the default instance). -/
mutual
theorem voidTy_unique : ∀ (t : Ty) (a b : Value), voidTy t = true →
    wtV t a = true → wtV t b = true → a = b
  | .tInt, a, b, hv, _, _ => Bool.noConfusion hv
  | .tBool, a, b, hv, _, _ => Bool.noConfusion hv
  | .tStr, a, b, hv, _, _ => Bool.noConfusion hv
  | .tArr t, a, b, hv, _, _ => Bool.noConfusion hv
  | .tObj fs, a, b, hv, ha, hb => by
    cases a with
    | vObj as =>
      cases b with
      | vObj bs => rw [voidFields_unique fs as bs hv ha hb]
      | vInt m => exact Bool.noConfusion hb
      | vBool m => exact Bool.noConfusion hb
      | vStr m => exact Bool.noConfusion hb
      | vArr m => exact Bool.noConfusion hb
    | vInt m => exact Bool.noConfusion ha
    | vBool m => exact Bool.noConfusion ha
    | vStr m => exact Bool.noConfusion ha
    | vArr m => exact Bool.noConfusion ha

theorem voidFields_unique : ∀ (fs : List (Bytes × Ty)) (as bs : List Value),
    voidFields fs = true → wtFields fs as = true → wtFields fs bs = true → as = bs
  | [], [], [], _, _, _ => rfl
  | [], [], _ :: _, _, _, hb => Bool.noConfusion hb
  | [], _ :: _, _, _, ha, _ => Bool.noConfusion ha
  | (f, t) :: fs, [], _, _, ha, _ => Bool.noConfusion ha
  | (f, t) :: fs, a :: as, [], _, _, hb => Bool.noConfusion hb
  | (f, t) :: fs, a :: as, b :: bs, hv, ha, hb => by
    have hv2 : (voidTy t && voidFields fs) = true := hv
    have ha2 : (wtV t a && wtFields fs as) = true := ha
    have hb2 : (wtV t b && wtFields fs bs) = true := hb
    rw [Bool.and_eq_true] at hv2 ha2 hb2
    rw [voidTy_unique t a b hv2.1 ha2.1 hb2.1, voidFields_unique fs as bs hv2.2 ha2.2 hb2.2]
end

/-! Binary adapter: BinaryContext (src/unnamed/part_000).

The write path streams bytes directly; getChild/addChild return the dummy
node (never absent), isObject/isArray always hold, setObject is a no-op and
setArray writes the count.  Composing the value dispatcher of serializable.h
with these operations, a serialized document is exactly the concatenation of
the field encodings below, and deserialization is the sequential read.  A
failed stream read (exhausted input) is modelled as none. -/

/-- Little-endian byte encoding of a uint32, models htole32 plus the 4-byte
stream write in writeUInt32ToStream. -/
def le32 (u : Nat) : Bytes := [u % 256, u / 256 % 256, u / 65536 % 256, u / 16777216 % 256]

/-- Little-endian uint32 read, models readUInt32. -/
def read32 : Bytes → Option (Nat × Bytes)
  | b0 :: b1 :: b2 :: b3 :: r => some (b0 + 256 * b1 + 65536 * b2 + 16777216 * b3, r)
  | _ => none

/-- Single byte read, models the one-byte reads for bool and int8. -/
def read8 : Bytes → Option (Nat × Bytes)
  | b :: r => some (b, r)
  | _ => none

/-! Serialization: BinaryContext::setValue and setArray composed with the
Serializer dispatch. Strings are written as a 4-byte length prefix (the
length cast to uint32) followed by the raw bytes; vectors as a 4-byte count
followed by the element encodings; objects as the concatenation of their
fields in declaration order. -/
mutual
def binSerV : Ty → Value → Bytes
  | .tInt, .vInt n => le32 (u32ofInt n)
  | .tBool, .vBool b => [if b then 1 else 0]
  | .tStr, .vStr s => le32 (s.length % 4294967296) ++ s
  | .tObj fs, .vObj vs => binSerFields fs vs
  | .tArr t, .vArr es => le32 (es.length % 4294967296) ++ binSerElems t es
  | _, _ => []

def binSerFields : List (Bytes × Ty) → List Value → Bytes
  | (_, t) :: fs, v :: vs => binSerV t v ++ binSerFields fs vs
  | _, _ => []

def binSerElems : Ty → List Value → Bytes
  | t, v :: vs => binSerV t v ++ binSerElems t vs
  | _, _ => []
end

/-! Deserialization: BinaryContext::getValue and getArraySize composed with
the Serializer dispatch. getChild always returns the dummy node and
isObject/isArray always hold, so nothing is ever skipped; reads are
sequential. The fuel argument only makes the recursion structural; the C++
loops terminate on their own. -/
mutual
def binDesV : Nat → Ty → Bytes → Option (Value × Bytes)
  | 0, _, _ => none
  | _ + 1, .tInt, bs => (read32 bs).map (fun p => (.vInt (toInt32 p.1), p.2))
  | _ + 1, .tBool, bs => (read8 bs).map (fun p => (.vBool (p.1 != 0), p.2))
  | _ + 1, .tStr, bs =>
    (read32 bs).bind (fun p =>
      if p.1 ≤ p.2.length then some (.vStr (p.2.take p.1), p.2.drop p.1) else none)
  | fuel + 1, .tObj fs, bs => (binDesFields fuel fs bs).map (fun p => (.vObj p.1, p.2))
  | fuel + 1, .tArr t, bs =>
    (read32 bs).bind (fun p => (binDesElems fuel t p.1 p.2).map (fun q => (.vArr q.1, q.2)))

def binDesFields : Nat → List (Bytes × Ty) → Bytes → Option (List Value × Bytes)
  | 0, _, _ => none
  | _ + 1, [], bs => some ([], bs)
  | fuel + 1, (_, t) :: fs, bs =>
    (binDesV fuel t bs).bind (fun p =>
      (binDesFields fuel fs p.2).map (fun q => (p.1 :: q.1, q.2)))

def binDesElems : Nat → Ty → Nat → Bytes → Option (List Value × Bytes)
  | 0, _, _, _ => none
  | _ + 1, _, 0, bs => some ([], bs)
  | fuel + 1, t, n + 1, bs =>
    (binDesV fuel t bs).bind (fun p =>
      (binDesElems fuel t n p.2).map (fun q => (p.1 :: q.1, q.2)))
end

/-! Fuel bounds: enough fuel for the fuelled deserializers to follow the
structure of a given value. -/
mutual
def costV : Ty → Value → Nat
  | .tObj fs, .vObj vs => costFields fs vs + 1
  | .tArr t, .vArr es => costElems t es + 1
  | _, _ => 1

def costFields : List (Bytes × Ty) → List Value → Nat
  | (_, t) :: fs, v :: vs => costV t v + costFields fs vs + 1
  | _, _ => 1

def costElems : Ty → List Value → Nat
  | t, v :: vs => costV t v + costElems t vs + 1
  | _, _ => 1
end

theorem read32_le32 (u : Nat) (r : Bytes) (h : u < 4294967296) :
    read32 (le32 u ++ r) = some (u, r) := by
  show some (u % 256 + 256 * (u / 256 % 256) + 65536 * (u / 65536 % 256) +
      16777216 * (u / 16777216 % 256), r) = some (u, r)
  rw [Option.some.injEq, Prod.mk.injEq]
  refine ⟨?_, rfl⟩
  omega

theorem u32ofInt_lt (i : Int) : u32ofInt i < 4294967296 := by
  unfold u32ofInt
  omega

/-! Round trip of the binary encoding, as a prefix-consuming decode. -/
mutual
theorem binDes_binSer : ∀ (t : Ty) (v : Value) (fuel : Nat) (rest : Bytes),
    wtV t v = true → smallV v = true → costV t v ≤ fuel →
    binDesV fuel t (binSerV t v ++ rest) = some (v, rest)
  | .tInt, .vInt n, fuel, rest, hw, hs, hc => by
    have hrange : (-2147483648 ≤ n) ∧ n < 2147483648 := by
      have h2 : (decide (-2147483648 ≤ n) && decide (n < 2147483648)) = true := hw
      rw [Bool.and_eq_true, decide_eq_true_eq, decide_eq_true_eq] at h2
      exact h2
    match fuel, hc with
    | fuel + 1, _ =>
      show (read32 (le32 (u32ofInt n) ++ rest)).map
          (fun p => (Value.vInt (toInt32 p.1), p.2)) = some (Value.vInt n, rest)
      rw [read32_le32 _ _ (u32ofInt_lt n)]
      show some (Value.vInt (toInt32 (u32ofInt n)), rest) = some (Value.vInt n, rest)
      have : toInt32 (u32ofInt n) = n := llToInt_of_range hrange.1 hrange.2
      rw [this]
  | .tBool, .vBool b, fuel, rest, hw, hs, hc => by
    match fuel, hc with
    | fuel + 1, _ =>
      show (read8 ((if b then 1 else 0) :: rest)).map
          (fun p => (Value.vBool (p.1 != 0), p.2)) = some (Value.vBool b, rest)
      cases b <;> rfl
  | .tStr, .vStr s, fuel, rest, hw, hs, hc => by
    have hlen : s.length < 4294967296 := by
      have h2 : decide (s.length < 4294967296) = true := hs
      rw [decide_eq_true_eq] at h2
      exact h2
    match fuel, hc with
    | fuel + 1, _ =>
      show (read32 (le32 (s.length % 4294967296) ++ (s ++ rest))).bind (fun p =>
          if p.1 ≤ p.2.length then some (Value.vStr (p.2.take p.1), p.2.drop p.1)
          else none) = some (Value.vStr s, rest)
      rw [Nat.mod_eq_of_lt hlen, read32_le32 _ _ hlen]
      show (if s.length ≤ (s ++ rest).length then
          some (Value.vStr ((s ++ rest).take s.length), (s ++ rest).drop s.length)
        else none) = some (Value.vStr s, rest)
      rw [if_pos (by rw [List.length_append]; omega)]
      rw [List.take_left, List.drop_left]
  | .tObj fs, .vObj vs, fuel, rest, hw, hs, hc => by
    match fuel, (by unfold costV at hc; omega : costFields fs vs + 1 ≤ fuel) with
    | fuel + 1, hc2 =>
      show (binDesFields fuel fs (binSerFields fs vs ++ rest)).map
          (fun p => (Value.vObj p.1, p.2)) = some (Value.vObj vs, rest)
      rw [binDesF_binSerF fs vs fuel rest hw hs (by omega)]
      rfl
  | .tArr t, .vArr es, fuel, rest, hw, hs, hc => by
    have hsp : (decide (es.length < 4294967296) && smallL es) = true := hs
    rw [Bool.and_eq_true, decide_eq_true_eq] at hsp
    match fuel, (by unfold costV at hc; omega : costElems t es + 1 ≤ fuel) with
    | fuel + 1, hc2 =>
      show (read32 (le32 (es.length % 4294967296) ++ (binSerElems t es ++ rest))).bind
          (fun p => (binDesElems fuel t p.1 p.2).map (fun q => (Value.vArr q.1, q.2))) =
        some (Value.vArr es, rest)
      rw [Nat.mod_eq_of_lt hsp.1, read32_le32 _ _ hsp.1]
      show (binDesElems fuel t es.length (binSerElems t es ++ rest)).map
          (fun q => (Value.vArr q.1, q.2)) = some (Value.vArr es, rest)
      rw [binDesE_binSerE t es fuel rest hw hsp.2 (by omega)]
      rfl
  | .tInt, .vBool b, _, _, hw, _, _ => Bool.noConfusion hw
  | .tInt, .vStr s, _, _, hw, _, _ => Bool.noConfusion hw
  | .tInt, .vObj vs, _, _, hw, _, _ => Bool.noConfusion hw
  | .tInt, .vArr es, _, _, hw, _, _ => Bool.noConfusion hw
  | .tBool, .vInt n, _, _, hw, _, _ => Bool.noConfusion hw
  | .tBool, .vStr s, _, _, hw, _, _ => Bool.noConfusion hw
  | .tBool, .vObj vs, _, _, hw, _, _ => Bool.noConfusion hw
  | .tBool, .vArr es, _, _, hw, _, _ => Bool.noConfusion hw
  | .tStr, .vInt n, _, _, hw, _, _ => Bool.noConfusion hw
  | .tStr, .vBool b, _, _, hw, _, _ => Bool.noConfusion hw
  | .tStr, .vObj vs, _, _, hw, _, _ => Bool.noConfusion hw
  | .tStr, .vArr es, _, _, hw, _, _ => Bool.noConfusion hw
  | .tObj fs, .vInt n, _, _, hw, _, _ => Bool.noConfusion hw
  | .tObj fs, .vBool b, _, _, hw, _, _ => Bool.noConfusion hw
  | .tObj fs, .vStr s, _, _, hw, _, _ => Bool.noConfusion hw
  | .tObj fs, .vArr es, _, _, hw, _, _ => Bool.noConfusion hw
  | .tArr t, .vInt n, _, _, hw, _, _ => Bool.noConfusion hw
  | .tArr t, .vBool b, _, _, hw, _, _ => Bool.noConfusion hw
  | .tArr t, .vStr s, _, _, hw, _, _ => Bool.noConfusion hw
  | .tArr t, .vObj vs, _, _, hw, _, _ => Bool.noConfusion hw

theorem binDesF_binSerF : ∀ (fs : List (Bytes × Ty)) (vs : List Value) (fuel : Nat)
    (rest : Bytes), wtFields fs vs = true → smallL vs = true → costFields fs vs ≤ fuel →
    binDesFields fuel fs (binSerFields fs vs ++ rest) = some (vs, rest)
  | [], [], fuel, rest, hw, hs, hc => by
    match fuel, hc with
    | fuel + 1, _ => rfl
  | [], v :: vs, _, _, hw, _, _ => Bool.noConfusion hw
  | (f, t) :: fs, [], _, _, hw, _, _ => Bool.noConfusion hw
  | (f, t) :: fs, v :: vs, fuel, rest, hw, hs, hc => by
    have hw2 : (wtV t v && wtFields fs vs) = true := hw
    have hs2 : (smallV v && smallL vs) = true := hs
    rw [Bool.and_eq_true] at hw2 hs2
    match fuel, (by unfold costFields at hc; omega :
        costV t v + costFields fs vs + 1 ≤ fuel) with
    | fuel + 1, hc2 =>
      show (binDesV fuel t ((binSerV t v ++ binSerFields fs vs) ++ rest)).bind (fun p =>
          (binDesFields fuel fs p.2).map (fun q => (p.1 :: q.1, q.2))) = some (v :: vs, rest)
      rw [List.append_assoc]
      rw [binDes_binSer t v fuel _ hw2.1 hs2.1 (by omega)]
      show (binDesFields fuel fs (binSerFields fs vs ++ rest)).map
          (fun q => (v :: q.1, q.2)) = some (v :: vs, rest)
      rw [binDesF_binSerF fs vs fuel rest hw2.2 hs2.2 (by omega)]
      rfl

theorem binDesE_binSerE : ∀ (t : Ty) (es : List Value) (fuel : Nat) (rest : Bytes),
    wtElems t es = true → smallL es = true → costElems t es ≤ fuel →
    binDesElems fuel t es.length (binSerElems t es ++ rest) = some (es, rest)
  | t, [], fuel, rest, hw, hs, hc => by
    match fuel, hc with
    | fuel + 1, _ => rfl
  | t, v :: vs, fuel, rest, hw, hs, hc => by
    have hw2 : (wtV t v && wtElems t vs) = true := hw
    have hs2 : (smallV v && smallL vs) = true := hs
    rw [Bool.and_eq_true] at hw2 hs2
    match fuel, (by unfold costElems at hc; omega :
        costV t v + costElems t vs + 1 ≤ fuel) with
    | fuel + 1, hc2 =>
      show (binDesV fuel t ((binSerV t v ++ binSerElems t vs) ++ rest)).bind (fun p =>
          (binDesElems fuel t vs.length p.2).map (fun q => (p.1 :: q.1, q.2))) =
        some (v :: vs, rest)
      rw [List.append_assoc]
      rw [binDes_binSer t v fuel _ hw2.1 hs2.1 (by omega)]
      show (binDesElems fuel t vs.length (binSerElems t vs ++ rest)).map
          (fun q => (v :: q.1, q.2)) = some (v :: vs, rest)
      rw [binDesE_binSerE t vs fuel rest hw2.2 hs2.2 (by omega)]
      rfl
end

/-! Text adapter: TextAdapter (include/lazy/serialization/text.h).

Write mode streams one assignment line per leaf; the adapter keeps a
per-array running index map (arrayIndices_). Read mode parses the whole
input into a flat path-to-raw-value map (data_), and node existence is the
hasDataForPath scan. The std::map is modelled as an association list with
overwrite-on-insert; none of the modelled operations depends on the map
iteration order. -/

/-- Dot-joined child path, models the childPath computation of
getChild/addChild for a nonempty key. -/
def dotJoin (p a : Bytes) : Bytes := if p = [] then a else p ++ 46 :: a

/-- Node returned by getChild/addChild: the node itself for the empty key,
otherwise the dot-joined child path. -/
def childPath (node key : Bytes) : Bytes := if key = [] then node else dotJoin node key

/-- Nat spelling of the count label. -/
def countLbl : Bytes := [99, 111, 117, 110, 116]

/-- Count entry key of an array node, models node + dot + count. -/
def countKey (p : Bytes) : Bytes := p ++ 46 :: countLbl

/-- Association lookup on the array index map. -/
def alook : List (Bytes × Nat) → Bytes → Option Nat
  | [], _ => none
  | (k, v) :: r, q => if k = q then some v else alook r q

/-- Association overwrite-or-append on the array index map. -/
def aset : List (Bytes × Nat) → Bytes → Nat → List (Bytes × Nat)
  | [], q, n => [(q, n)]
  | (k, v) :: r, q, n => if k = q then (k, n) :: r else (k, v) :: aset r q n

/-- Write-mode adapter state: the lines already streamed and the per-array
running index map. -/
structure TextWState where
  lines : List Bytes
  arrayIndices : List (Bytes × Nat)

/-- One streamed assignment line: key, space, equals, space, value. -/
def lineOf (key val : Bytes) : Bytes := key ++ 32 :: 61 :: 32 :: val

/-- Streaming of one line, models the writeStream insertion in setValue and
setArray. -/
def twEmit (st : TextWState) (key val : Bytes) : TextWState :=
  { st with lines := st.lines ++ [lineOf key val] }

/-- Models TextAdapter::setArray in write mode: stream the count line, then
reset the running index of this array path to zero. -/
def twSetArray (st : TextWState) (node : Bytes) (size : Nat) : TextWState :=
  { lines := st.lines ++ [lineOf (countKey node) (natToDec size)],
    arrayIndices := aset st.arrayIndices node 0 }

/-- Models TextAdapter::addArrayElement: read the running index of the array
path (default-inserting zero), build the indexed element path, increment the
index. Returns the new state and the element node path. -/
def twAddElem (st : TextWState) (node : Bytes) : TextWState × Bytes :=
  ({ st with
      arrayIndices := aset st.arrayIndices node ((alook st.arrayIndices node).getD 0 + 1) },
    node ++ 46 :: natToDec ((alook st.arrayIndices node).getD 0))

/-- Nat spellings of the bare boolean literals. -/
def trueB : Bytes := [116, 114, 117, 101]

def falseB : Bytes := [102, 97, 108, 115, 101]

def boolB (b : Bool) : Bytes := if b then trueB else falseB

/-- Double quoting of a string value, models setValue for std::string. -/
def quoteB (s : Bytes) : Bytes := 34 :: s ++ [34]

/-! Serialization: TextAdapter::setValue / setArray / addArrayElement
composed with the Serializer dispatch of serializable.h. -/
mutual
def textSerV (st : TextWState) (node key : Bytes) : Ty → Value → TextWState
  | .tInt, .vInt n => twEmit st (childPath node key) (intToDec n)
  | .tBool, .vBool b => twEmit st (childPath node key) (boolB b)
  | .tStr, .vStr s => twEmit st (childPath node key) (quoteB s)
  | .tObj fs, .vObj vs => textSerFields st (childPath node key) fs vs
  | .tArr t, .vArr es =>
    textSerElems (twSetArray st (childPath node key) es.length) (childPath node key) t es
  | _, _ => st

def textSerFields (st : TextWState) (node : Bytes) :
    List (Bytes × Ty) → List Value → TextWState
  | (f, t) :: fs, v :: vs => textSerFields (textSerV st node f t v) node fs vs
  | _, _ => st

def textSerElems (st : TextWState) (node : Bytes) (t : Ty) : List Value → TextWState
  | [] => st
  | e :: es =>
    textSerElems (textSerV (twAddElem st node).1 (twAddElem st node).2 [] t e) node t es
end

/-- Serialization of a whole document: the top-level serialize iterates the
registered fields on a fresh adapter whose root path is empty. -/
def textSerTop (fs : List (Bytes × Ty)) (vs : List Value) : TextWState :=
  textSerFields { lines := [], arrayIndices := [] } [] fs vs

/-- Streamed output: every line followed by a newline byte. -/
def flattenLines : List Bytes → Bytes
  | [] => []
  | l :: ls => l ++ 10 :: flattenLines ls

/-! Read side: the constructor parses the stream line by line into the flat
data map. -/

abbrev TextData := List (Bytes × Bytes)

def dlook : TextData → Bytes → Option Bytes
  | [], _ => none
  | (k, v) :: r, q => if k = q then some v else dlook r q

def dinsert : TextData → Bytes → Bytes → TextData
  | [], q, w => [(q, w)]
  | (k, v) :: r, q, w => if k = q then (k, w) :: r else (k, v) :: dinsert r q w

/-- Space trimming, models the trim helper (spaces only). -/
def trimB (s : Bytes) : Bytes :=
  ((s.dropWhile (fun b => b == 32)).reverse.dropWhile (fun b => b == 32)).reverse

/-- Split at the first occurrence of a separator byte, models find on the
line; none when the separator does not occur. -/
def splitAtFirst (sep : Nat) : Bytes → Option (Bytes × Bytes)
  | [] => none
  | b :: r =>
    if b == sep then some ([], r)
    else (splitAtFirst sep r).map (fun p => (b :: p.1, p.2))

/-- Models TextAdapter::parseLine: skip blank and comment lines, split at the
first equals sign, trim both sides, store when the key is nonempty. -/
def parseLine (d : TextData) (line : Bytes) : TextData :=
  match trimB line with
  | [] => d
  | c :: rest =>
    if c == 35 then d
    else
      match splitAtFirst 61 (c :: rest) with
      | none => d
      | some (l, r) =>
        match trimB l with
        | [] => d
        | k :: ks => dinsert d (k :: ks) (trimB r)

/-- Line splitting with the std::getline semantics: split at newline bytes; a
trailing newline does not produce a final empty line. The fuel equals the
input length plus one, which always suffices. -/
def getlinesF : Nat → Bytes → List Bytes
  | 0, _ => []
  | _, [] => []
  | fuel + 1, s =>
    match s.dropWhile (fun b => !(b == 10)) with
    | [] => [s.takeWhile (fun b => !(b == 10))]
    | _ :: r => s.takeWhile (fun b => !(b == 10)) :: getlinesF fuel r

def getlines (s : Bytes) : List Bytes := getlinesF (s.length + 1) s

/-- Models the read-mode TextAdapter constructor: parse every line into the
data map. -/
def parseTextDoc (s : Bytes) : TextData := (getlines s).foldl parseLine []

/-- Models TextAdapter::hasDataForPath: an exact entry, or any entry whose key
extends the path by a dot. -/
def hasDataForPath (d : TextData) (p : Bytes) : Bool :=
  (dlook d p).isSome || d.any (fun kv => (p ++ [46]).isPrefixOf kv.1)

/-- Models TextAdapter::getChild in read mode: same node for the empty key,
otherwise the dot-joined path when it has data, else absent. -/
def textGetChild (d : TextData) (node key : Bytes) : Option Bytes :=
  if key = [] then some node
  else if hasDataForPath d (dotJoin node key) then some (dotJoin node key) else none

/-- Models TextAdapter::isObject on a non-null node: some stored key starts
with the node path plus a dot (empty path: any stored key). -/
def isObjectT (d : TextData) (p : Bytes) : Bool :=
  d.any (fun kv => (if p = [] then [] else p ++ [46]).isPrefixOf kv.1)

/-- Models TextAdapter::isArray on a non-null node: the count entry exists. -/
def isArrayT (d : TextData) (p : Bytes) : Bool := (dlook d (countKey p)).isSome

/-- Models TextAdapter::getArraySize: zero when the count entry is absent,
otherwise its stoull value (none models the stoull throw). -/
def getArraySizeT (d : TextData) (p : Bytes) : Option Nat :=
  match dlook d (countKey p) with
  | none => some 0
  | some v => stoullOpt v

/-- Models the string unquoting in getValue: strip the outer double quotes
when both are present and the value has at least two characters. -/
def unquoteB (v : Bytes) : Bytes :=
  if 2 ≤ v.length && v.head? == some 34 && v.getLast? == some 34 then (v.drop 1).dropLast
  else v

/-- Models getValue for std::string on a non-null node. -/
def textGetStr (d : TextData) (p : Bytes) : Bytes :=
  match dlook d p with
  | none => []
  | some v => unquoteB v

/-- Models getValue for bool on a non-null node. -/
def textGetBool (d : TextData) (p : Bytes) : Bool :=
  match dlook d p with
  | none => false
  | some v => v == trueB

/-- Models getValue for int on a non-null node: absent data gives the default
zero, present data goes through stoll (none models the stoll throw) and the
cast to int. -/
def textGetInt (d : TextData) (p : Bytes) : Option Int :=
  match dlook d p with
  | none => some 0
  | some v => (stollOpt v).map llToInt

/-! Deserialization: the Serializer dispatch composed with the read-mode
adapter operations. The old value is the destination field content before
deserialize, kept when the child is absent. -/
mutual
def textDesV : Nat → TextData → Bytes → Bytes → Ty → Value → Option Value
  | 0, _, _, _, _, _ => none
  | _ + 1, d, node, key, .tInt, old =>
    match textGetChild d node key with
    | none => some old
    | some p => (textGetInt d p).map Value.vInt
  | _ + 1, d, node, key, .tBool, old =>
    match textGetChild d node key with
    | none => some old
    | some p => some (Value.vBool (textGetBool d p))
  | _ + 1, d, node, key, .tStr, old =>
    match textGetChild d node key with
    | none => some old
    | some p => some (Value.vStr (textGetStr d p))
  | fuel + 1, d, node, key, .tObj fs, old =>
    match textGetChild d node key with
    | none => some old
    | some p =>
      if isObjectT d p then
        match old with
        | .vObj ovs => (textDesFields fuel d p fs ovs).map Value.vObj
        | _ => some old
      else some old
  | fuel + 1, d, node, key, .tArr te, old =>
    match textGetChild d node key with
    | none => some old
    | some p =>
      if isArrayT d p then
        (getArraySizeT d p).bind (fun n => (textDesElems fuel d p te n 0).map Value.vArr)
      else some old

def textDesFields : Nat → TextData → Bytes → List (Bytes × Ty) → List Value →
    Option (List Value)
  | 0, _, _, _, _ => none
  | _ + 1, _, _, [], [] => some []
  | fuel + 1, d, p, (f, t) :: fs, o :: os =>
    (textDesV fuel d p f t o).bind (fun v =>
      (textDesFields fuel d p fs os).map (fun ws => v :: ws))
  | _ + 1, _, _, _, _ => none

def textDesElems : Nat → TextData → Bytes → Ty → Nat → Nat → Option (List Value)
  | 0, _, _, _, _, _ => none
  | _ + 1, _, _, _, 0, _ => some []
  | fuel + 1, d, p, te, k + 1, i =>
    (textDesV fuel d (p ++ 46 :: natToDec i) [] te (defaultV te)).bind (fun v =>
      (textDesElems fuel d p te k (i + 1)).map (fun ws => v :: ws))
end

/-- Deserialization of a whole document into an instance with the given old
field values: the top-level deserialize parses the stream, then iterates the
registered fields at the empty root path. -/
def textDesTop (fuel : Nat) (fs : List (Bytes × Ty)) (olds : List Value) (s : Bytes) :
    Option (List Value) :=
  textDesFields fuel (parseTextDoc s) [] fs olds

/-! Association map basics. -/

theorem alook_aset_self (m : List (Bytes × Nat)) (k : Bytes) (n : Nat) :
    alook (aset m k n) k = some n := by
  induction m with
  | nil => simp [aset, alook]
  | cons kv r ih =>
    obtain ⟨k0, v0⟩ := kv
    rw [aset]
    by_cases h : k0 = k
    · rw [if_pos h, alook, if_pos h]
    · rw [if_neg h, alook, if_neg h, ih]

theorem alook_aset_ne (m : List (Bytes × Nat)) (k q : Bytes) (n : Nat) (h : q ≠ k) :
    alook (aset m k n) q = alook m q := by
  induction m with
  | nil =>
    rw [aset, alook, alook, if_neg (fun hc => h hc.symm)]
    rfl
  | cons kv r ih =>
    obtain ⟨k0, v0⟩ := kv
    rw [aset]
    by_cases h0 : k0 = k
    · subst h0
      rw [if_pos rfl, alook, alook, if_neg, if_neg]
      · intro hc; exact h hc.symm
      · intro hc; exact h hc.symm
    · rw [if_neg h0, alook, alook]
      by_cases hq : k0 = q
      · rw [if_pos hq, if_pos hq]
      · rw [if_neg hq, if_neg hq, ih]

/-- Repeated addArrayElement calls, collecting the element paths they
return. -/
def twAddElems : TextWState → Bytes → Nat → TextWState × List Bytes
  | st, _, 0 => (st, [])
  | st, node, k + 1 =>
    ((twAddElems (twAddElem st node).1 node k).1,
      (twAddElem st node).2 :: (twAddElems (twAddElem st node).1 node k).2)

theorem twAddElems_paths (k : Nat) : ∀ (st : TextWState) (p : Bytes) (i : Nat),
    alook st.arrayIndices p = some i →
    (twAddElems st p k).2 = (List.range' i k).map (fun j => p ++ 46 :: natToDec j) ∧
      alook (twAddElems st p k).1.arrayIndices p = some (i + k) ∧
      (twAddElems st p k).1.lines = st.lines := by
  induction k with
  | zero => intro st p i h; exact ⟨rfl, by simpa using h, rfl⟩
  | succ k ih =>
    intro st p i h
    have hstep : (twAddElem st p).2 = p ++ 46 :: natToDec i := by
      rw [twAddElem]
      simp [h]
    have hidx : alook (twAddElem st p).1.arrayIndices p = some (i + 1) := by
      rw [twAddElem]
      simp only [h, Option.getD_some]
      exact alook_aset_self _ _ _
    obtain ⟨h1, h2, h3⟩ := ih (twAddElem st p).1 p (i + 1) hidx
    refine ⟨?_, ?_, ?_⟩
    · rw [twAddElems]
      show (twAddElem st p).2 :: (twAddElems (twAddElem st p).1 p k).2 = _
      rw [hstep, h1, List.range'_succ]
      rfl
    · rw [twAddElems]
      show alook (twAddElems (twAddElem st p).1 p k).1.arrayIndices p = some (i + (k + 1))
      rw [h2]
      congr 1
      omega
    · rw [twAddElems]
      show (twAddElems (twAddElem st p).1 p k).1.lines = st.lines
      rw [h3]
      rfl

/-! Pure line spec of the text serializer: the key-value pairs a value emits
at a node path, in emission order. -/
mutual
def pairsV (p : Bytes) : Ty → Value → TextData
  | .tInt, .vInt n => [(p, intToDec n)]
  | .tBool, .vBool b => [(p, boolB b)]
  | .tStr, .vStr s => [(p, quoteB s)]
  | .tObj fs, .vObj vs => pairsFields p fs vs
  | .tArr t, .vArr es => (countKey p, natToDec es.length) :: pairsElems p t 0 es
  | _, _ => []

def pairsFields (p : Bytes) : List (Bytes × Ty) → List Value → TextData
  | (f, t) :: fs, v :: vs => pairsV (dotJoin p f) t v ++ pairsFields p fs vs
  | _, _ => []

def pairsElems (p : Bytes) (t : Ty) : Nat → List Value → TextData
  | _, [] => []
  | i, e :: es => pairsV (p ++ 46 :: natToDec i) t e ++ pairsElems p t (i + 1) es
end

theorem isIdent_ne_nil {f : Bytes} (h : isIdent f = true) : f ≠ [] := by
  intro hc
  subst hc
  exact Bool.noConfusion h

theorem length_dotJoin_gt (p : Bytes) {a : Bytes} (ha : a ≠ []) :
    p.length < (dotJoin p a).length := by
  unfold dotJoin
  by_cases hp : p = []
  · rw [if_pos hp]
    subst hp
    cases a with
    | nil => exact absurd rfl ha
    | cons x xs => simp
  · rw [if_neg hp]
    simp

theorem childPath_of_ne (node : Bytes) {key : Bytes} (h : key ≠ []) :
    childPath node key = dotJoin node key := by
  unfold childPath
  rw [if_neg h]

/-! Writer correctness: running the stateful text serializer appends exactly
the lines of the pure pairs spec, and touches no array index at a path
shorter than the node written. -/
mutual
theorem textSerV_spec : ∀ (t : Ty) (v : Value) (st : TextWState) (node key : Bytes),
    wfTy t = true →
    (textSerV st node key t v).lines =
        st.lines ++ (pairsV (childPath node key) t v).map (fun kv => lineOf kv.1 kv.2) ∧
      ∀ q : Bytes, q.length < (childPath node key).length →
        alook (textSerV st node key t v).arrayIndices q = alook st.arrayIndices q
  | .tInt, .vInt n, st, node, key, hwf => ⟨rfl, fun q hq => rfl⟩
  | .tBool, .vBool b, st, node, key, hwf => ⟨rfl, fun q hq => rfl⟩
  | .tStr, .vStr s, st, node, key, hwf => ⟨rfl, fun q hq => rfl⟩
  | .tObj fs, .vObj vs, st, node, key, hwf => by
    have hwf2 : (nodupNames fs && wfFieldTys fs) = true := hwf
    rw [Bool.and_eq_true] at hwf2
    have h := textSerFields_spec fs vs st (childPath node key) hwf2.2
    exact ⟨h.1, fun q hq => h.2 q (by omega)⟩
  | .tArr t, .vArr es, st, node, key, hwf => by
    have hwft : wfTy t = true := hwf
    have hidx0 : alook (twSetArray st (childPath node key) es.length).arrayIndices
        (childPath node key) = some 0 := alook_aset_self _ _ _
    have h := textSerElems_spec t es
      (twSetArray st (childPath node key) es.length) (childPath node key) 0 hwft hidx0
    refine ⟨?_, ?_⟩
    · show (textSerElems (twSetArray st (childPath node key) es.length)
          (childPath node key) t es).lines = _
      rw [h.1]
      show (st.lines ++ [lineOf (countKey (childPath node key)) (natToDec es.length)]) ++ _ = _
      rw [List.append_assoc]
      rfl
    · intro q hq
      show alook (textSerElems (twSetArray st (childPath node key) es.length)
          (childPath node key) t es).arrayIndices q = _
      have hne : q ≠ childPath node key := by
        intro hc
        rw [hc] at hq
        omega
      rw [h.2.1 q (by omega) hne]
      show alook (aset st.arrayIndices (childPath node key) 0) q = _
      exact alook_aset_ne _ _ _ _ hne
  | .tInt, .vBool b, st, node, key, hwf => ⟨(List.append_nil st.lines).symm, fun q hq => rfl⟩
  | .tInt, .vStr s, st, node, key, hwf => ⟨(List.append_nil st.lines).symm, fun q hq => rfl⟩
  | .tInt, .vObj vs, st, node, key, hwf => ⟨(List.append_nil st.lines).symm, fun q hq => rfl⟩
  | .tInt, .vArr es, st, node, key, hwf => ⟨(List.append_nil st.lines).symm, fun q hq => rfl⟩
  | .tBool, .vInt n, st, node, key, hwf => ⟨(List.append_nil st.lines).symm, fun q hq => rfl⟩
  | .tBool, .vStr s, st, node, key, hwf => ⟨(List.append_nil st.lines).symm, fun q hq => rfl⟩
  | .tBool, .vObj vs, st, node, key, hwf => ⟨(List.append_nil st.lines).symm, fun q hq => rfl⟩
  | .tBool, .vArr es, st, node, key, hwf => ⟨(List.append_nil st.lines).symm, fun q hq => rfl⟩
  | .tStr, .vInt n, st, node, key, hwf => ⟨(List.append_nil st.lines).symm, fun q hq => rfl⟩
  | .tStr, .vBool b, st, node, key, hwf => ⟨(List.append_nil st.lines).symm, fun q hq => rfl⟩
  | .tStr, .vObj vs, st, node, key, hwf => ⟨(List.append_nil st.lines).symm, fun q hq => rfl⟩
  | .tStr, .vArr es, st, node, key, hwf => ⟨(List.append_nil st.lines).symm, fun q hq => rfl⟩
  | .tObj fs, .vInt n, st, node, key, hwf => ⟨(List.append_nil st.lines).symm, fun q hq => rfl⟩
  | .tObj fs, .vBool b, st, node, key, hwf => ⟨(List.append_nil st.lines).symm, fun q hq => rfl⟩
  | .tObj fs, .vStr s, st, node, key, hwf => ⟨(List.append_nil st.lines).symm, fun q hq => rfl⟩
  | .tObj fs, .vArr es, st, node, key, hwf => ⟨(List.append_nil st.lines).symm, fun q hq => rfl⟩
  | .tArr t, .vInt n, st, node, key, hwf => ⟨(List.append_nil st.lines).symm, fun q hq => rfl⟩
  | .tArr t, .vBool b, st, node, key, hwf => ⟨(List.append_nil st.lines).symm, fun q hq => rfl⟩
  | .tArr t, .vStr s, st, node, key, hwf => ⟨(List.append_nil st.lines).symm, fun q hq => rfl⟩
  | .tArr t, .vObj vs, st, node, key, hwf => ⟨(List.append_nil st.lines).symm, fun q hq => rfl⟩

theorem textSerFields_spec : ∀ (fs : List (Bytes × Ty)) (vs : List Value) (st : TextWState)
    (p : Bytes), wfFieldTys fs = true →
    (textSerFields st p fs vs).lines =
        st.lines ++ (pairsFields p fs vs).map (fun kv => lineOf kv.1 kv.2) ∧
      ∀ q : Bytes, q.length ≤ p.length →
        alook (textSerFields st p fs vs).arrayIndices q = alook st.arrayIndices q
  | [], [], st, p, hwf => ⟨(List.append_nil st.lines).symm, fun q hq => rfl⟩
  | [], v :: vs, st, p, hwf => ⟨(List.append_nil st.lines).symm, fun q hq => rfl⟩
  | (f, t) :: fs, [], st, p, hwf => ⟨(List.append_nil st.lines).symm, fun q hq => rfl⟩
  | (f, t) :: fs, v :: vs, st, p, hwf => by
    have hwf2 : (isIdent f && wfTy t && wfFieldTys fs) = true := hwf
    rw [Bool.and_eq_true, Bool.and_eq_true] at hwf2
    have hfne : f ≠ [] := isIdent_ne_nil hwf2.1.1
    have hv := textSerV_spec t v st p f hwf2.1.2
    have hrest := textSerFields_spec fs vs (textSerV st p f t v) p hwf2.2
    rw [childPath_of_ne p hfne] at hv
    refine ⟨?_, ?_⟩
    · show (textSerFields (textSerV st p f t v) p fs vs).lines = _
      rw [hrest.1, hv.1]
      show st.lines ++ _ ++ _ = st.lines ++ (pairsV (dotJoin p f) t v ++ pairsFields p fs vs).map _
      rw [List.map_append, List.append_assoc]
    · intro q hq
      show alook (textSerFields (textSerV st p f t v) p fs vs).arrayIndices q = _
      rw [hrest.2 q hq, hv.2 q (by
        have := length_dotJoin_gt p hfne
        omega)]

theorem textSerElems_spec : ∀ (t : Ty) (es : List Value) (st : TextWState) (p : Bytes)
    (i : Nat), wfTy t = true → alook st.arrayIndices p = some i →
    (textSerElems st p t es).lines =
        st.lines ++ (pairsElems p t i es).map (fun kv => lineOf kv.1 kv.2) ∧
      (∀ q : Bytes, q.length ≤ p.length → q ≠ p →
        alook (textSerElems st p t es).arrayIndices q = alook st.arrayIndices q) ∧
      alook (textSerElems st p t es).arrayIndices p = some (i + es.length)
  | t, [], st, p, i, hwf, hidx =>
    ⟨(List.append_nil st.lines).symm, fun q hq hne => rfl, by simpa using hidx⟩
  | t, e :: es, st, p, i, hwf, hidx => by
    have hpath : (twAddElem st p).2 = p ++ 46 :: natToDec i := by
      rw [twAddElem]
      simp [hidx]
    have hidx1 : alook (twAddElem st p).1.arrayIndices p = some (i + 1) := by
      rw [twAddElem]
      simp only [hidx, Option.getD_some]
      exact alook_aset_self _ _ _
    have hlines1 : (twAddElem st p).1.lines = st.lines := rfl
    have hplen : p.length < ((twAddElem st p).2).length := by
      rw [hpath]
      simp
    have hv := textSerV_spec t e (twAddElem st p).1 (twAddElem st p).2 [] hwf
    have hcp : childPath (twAddElem st p).2 [] = (twAddElem st p).2 := rfl
    rw [hcp] at hv
    have hidx2 : alook (textSerV (twAddElem st p).1 (twAddElem st p).2 [] t e).arrayIndices p
        = some (i + 1) := by
      rw [hv.2 p hplen]
      exact hidx1
    have hrest := textSerElems_spec t es
      (textSerV (twAddElem st p).1 (twAddElem st p).2 [] t e) p (i + 1) hwf hidx2
    refine ⟨?_, ?_, ?_⟩
    · show (textSerElems (textSerV (twAddElem st p).1 (twAddElem st p).2 [] t e) p t es).lines = _
      rw [hrest.1, hv.1, hlines1, hpath]
      show st.lines ++ _ ++ _ = st.lines ++
        (pairsV (p ++ 46 :: natToDec i) t e ++ pairsElems p t (i + 1) es).map _
      rw [List.map_append, List.append_assoc]
    · intro q hq hne
      show alook (textSerElems (textSerV (twAddElem st p).1 (twAddElem st p).2 [] t e)
          p t es).arrayIndices q = _
      rw [hrest.2.1 q hq hne, hv.2 q (by omega)]
      show alook (aset st.arrayIndices p ((alook st.arrayIndices p).getD 0 + 1)) q = _
      exact alook_aset_ne _ _ _ _ hne
    · show alook (textSerElems (textSerV (twAddElem st p).1 (twAddElem st p).2 [] t e)
          p t es).arrayIndices p = _
      rw [hrest.2.2]
      congr 1
      simp
      omega
end

/-- Top-level writer characterization: a fresh serialize pass streams exactly
the pairs of the document. -/
theorem textSerTop_lines (fs : List (Bytes × Ty)) (vs : List Value)
    (hwf : wfFieldTys fs = true) :
    (textSerTop fs vs).lines = (pairsFields [] fs vs).map (fun kv => lineOf kv.1 kv.2) := by
  have h := textSerFields_spec fs vs { lines := [], arrayIndices := [] } [] hwf
  exact h.1

/-! Parse-side inversion: reading back a streamed document recovers exactly
the emitted pairs. -/

/-- Key shape produced by the serializer: nonempty, identifier characters and
dots only. -/
def KeyOK (k : Bytes) : Prop := k ≠ [] ∧ ∀ b ∈ k, isIdentChar b = true ∨ b = 46

/-- Value shape produced by the serializer: nonempty, no outer spaces, no
newline byte. -/
def ValOK (v : Bytes) : Prop :=
  v ≠ [] ∧ v.head? ≠ some 32 ∧ v.getLast? ≠ some 32 ∧ ∀ b ∈ v, b ≠ 10

theorem isIdentChar_ne {b : Nat} (h : isIdentChar b = true) :
    b ≠ 10 ∧ b ≠ 32 ∧ b ≠ 35 ∧ b ≠ 61 ∧ b ≠ 46 := by
  unfold isIdentChar at h
  simp only [Bool.or_eq_true, Bool.and_eq_true, decide_eq_true_eq, beq_iff_eq] at h
  refine ⟨?_, ?_, ?_, ?_, ?_⟩ <;> (rcases h with ((h | h) | h) | h <;> omega)

theorem keyOK_byte_ne {k : Bytes} (hk : KeyOK k) :
    ∀ b ∈ k, b ≠ 10 ∧ b ≠ 32 ∧ b ≠ 35 ∧ b ≠ 61 := by
  intro b hb
  rcases hk.2 b hb with h | h
  · obtain ⟨h1, h2, h3, h4, h5⟩ := isIdentChar_ne h
    exact ⟨h1, h2, h3, h4⟩
  · subst h
    refine ⟨?_, ?_, ?_, ?_⟩ <;> decide

theorem takeWhile_no10_append (l r : Bytes) (hl : ∀ b ∈ l, b ≠ 10) :
    (l ++ 10 :: r).takeWhile (fun b => !(b == 10)) = l := by
  induction l with
  | nil => simp [List.takeWhile_cons]
  | cons a l ih =>
    have ha := hl a (List.mem_cons_self a l)
    rw [List.cons_append, List.takeWhile_cons]
    have : (!(a == 10)) = true := by
      rw [Bool.not_eq_eq_eq_not]
      show (a == 10) = false
      rw [beq_eq_false_iff_ne]
      exact ha
    rw [this]
    simp only [if_true]
    rw [ih (fun b hb => hl b (List.mem_cons_of_mem a hb))]

theorem dropWhile_no10_append (l r : Bytes) (hl : ∀ b ∈ l, b ≠ 10) :
    (l ++ 10 :: r).dropWhile (fun b => !(b == 10)) = 10 :: r := by
  induction l with
  | nil => simp [List.dropWhile_cons]
  | cons a l ih =>
    have ha := hl a (List.mem_cons_self a l)
    rw [List.cons_append, List.dropWhile_cons]
    have : (!(a == 10)) = true := by
      rw [Bool.not_eq_eq_eq_not]
      show (a == 10) = false
      rw [beq_eq_false_iff_ne]
      exact ha
    rw [this]
    simp only [if_true]
    exact ih (fun b hb => hl b (List.mem_cons_of_mem a hb))

theorem flattenLines_length (l : Bytes) (ls : List Bytes) :
    (flattenLines (l :: ls)).length = l.length + 1 + (flattenLines ls).length := by
  show (l ++ 10 :: flattenLines ls).length = _
  rw [List.length_append, List.length_cons]
  omega

theorem getlinesF_succ (fuel : Nat) (s : Bytes) (hs : s ≠ []) :
    getlinesF (fuel + 1) s =
      match s.dropWhile (fun b => !(b == 10)) with
      | [] => [s.takeWhile (fun b => !(b == 10))]
      | _ :: r => s.takeWhile (fun b => !(b == 10)) :: getlinesF fuel r := by
  cases s with
  | nil => exact absurd rfl hs
  | cons a r => rfl

theorem getlinesF_flatten : ∀ (lines : List Bytes) (fuel : Nat),
    (flattenLines lines).length < fuel →
    (∀ l ∈ lines, ∀ b ∈ l, b ≠ 10) →
    getlinesF fuel (flattenLines lines) = lines := by
  intro lines
  induction lines with
  | nil =>
    intro fuel hf h10
    cases fuel with
    | zero => rfl
    | succ fuel => rfl
  | cons l ls ih =>
    intro fuel hf h10
    rw [flattenLines_length] at hf
    cases fuel with
    | zero => omega
    | succ fuel =>
      have hl10 : ∀ b ∈ l, b ≠ 10 := h10 l (List.mem_cons_self l ls)
      have htake := takeWhile_no10_append l (flattenLines ls) hl10
      have hdrop := dropWhile_no10_append l (flattenLines ls) hl10
      show getlinesF (fuel + 1) (l ++ 10 :: flattenLines ls) = l :: ls
      rw [getlinesF_succ fuel _ (by
        intro hc
        have h0 : (l ++ 10 :: flattenLines ls).length = 0 := by rw [hc]; rfl
        rw [List.length_append, List.length_cons] at h0
        omega)]
      rw [hdrop, htake]
      show l :: getlinesF fuel (flattenLines ls) = l :: ls
      rw [ih fuel (by omega) (fun m hm => h10 m (List.mem_cons_of_mem l hm))]

theorem getlines_flatten (lines : List Bytes) (h10 : ∀ l ∈ lines, ∀ b ∈ l, b ≠ 10) :
    getlines (flattenLines lines) = lines :=
  getlinesF_flatten lines ((flattenLines lines).length + 1)
    (Nat.lt_succ_self _) h10

theorem ite_cond_false {α : Sort u_1} {b : Bool} (x y : α) (h : b = false) :
    (if b then x else y) = y := by
  subst h
  rfl

theorem ite_cond_true {α : Sort u_1} {b : Bool} (x y : α) (h : b = true) :
    (if b then x else y) = x := by
  subst h
  rfl

theorem dropWhile_eq32_of_head (s : Bytes) (h : s.head? ≠ some 32) :
    s.dropWhile (fun b => b == 32) = s := by
  cases s with
  | nil => rfl
  | cons a r =>
    rw [List.dropWhile_cons]
    have ha : (a == 32) = false := by
      rw [beq_eq_false_iff_ne]
      intro hc
      exact h (by rw [hc]; rfl)
    exact ite_cond_false _ _ ha

theorem trimB_eq_self {s : Bytes} (h1 : s.head? ≠ some 32) (h2 : s.getLast? ≠ some 32) :
    trimB s = s := by
  unfold trimB
  rw [dropWhile_eq32_of_head s h1]
  rw [dropWhile_eq32_of_head s.reverse (by rw [List.head?_reverse]; exact h2)]
  exact List.reverse_reverse s

theorem trimB_key {k : Bytes} (hne : k ≠ []) (h1 : k.head? ≠ some 32)
    (h2 : k.getLast? ≠ some 32) : trimB (k ++ [32]) = k := by
  unfold trimB
  have hh : (k ++ [32]).head? = k.head? := by
    cases k with
    | nil => exact absurd rfl hne
    | cons a r => rfl
  rw [dropWhile_eq32_of_head (k ++ [32]) (by rw [hh]; exact h1)]
  rw [List.reverse_append]
  show ((([32].reverse) ++ k.reverse).dropWhile (fun b => b == 32)).reverse = k
  rw [List.reverse_singleton]
  show (((32 : Nat) :: k.reverse).dropWhile (fun b => b == 32)).reverse = k
  rw [List.dropWhile_cons]
  rw [ite_cond_true _ _ (show ((32 : Nat) == 32) = true by rfl)]
  rw [dropWhile_eq32_of_head k.reverse (by rw [List.head?_reverse]; exact h2)]
  exact List.reverse_reverse k

theorem trimB_val {v : Bytes} (h1 : v.head? ≠ some 32) (h2 : v.getLast? ≠ some 32) :
    trimB (32 :: v) = v := by
  unfold trimB
  rw [List.dropWhile_cons]
  rw [ite_cond_true _ _ (show ((32 : Nat) == 32) = true by rfl)]
  rw [dropWhile_eq32_of_head v h1]
  rw [dropWhile_eq32_of_head v.reverse (by rw [List.head?_reverse]; exact h2)]
  exact List.reverse_reverse v

theorem splitAtFirst_lineOf (k v : Bytes) (hk : ∀ b ∈ k, b ≠ 61) :
    splitAtFirst 61 (lineOf k v) = some (k ++ [32], 32 :: v) := by
  induction k with
  | nil => rfl
  | cons a r ih =>
    show splitAtFirst 61 (a :: lineOf r v) = some ((a :: r) ++ [32], 32 :: v)
    rw [splitAtFirst]
    have ha : (a == 61) = false := by
      rw [beq_eq_false_iff_ne]
      exact hk a (List.mem_cons_self a r)
    rw [ite_cond_false _ _ ha]
    rw [ih (fun b hb => hk b (List.mem_cons_of_mem a hb))]
    rfl

theorem parseLine_of_trim_self (d : TextData) (c : Nat) (rest : Bytes)
    (h : trimB (c :: rest) = c :: rest) :
    parseLine d (c :: rest) =
      (if c == 35 then d
      else
        match splitAtFirst 61 (c :: rest) with
        | none => d
        | some (l, r) =>
          match trimB l with
          | [] => d
          | k0 :: ks => dinsert d (k0 :: ks) (trimB r)) := by
  unfold parseLine
  rw [h]

theorem parseLine_lineOf (d : TextData) (k v : Bytes) (hk : KeyOK k) (hv : ValOK v) :
    parseLine d (lineOf k v) = dinsert d k v := by
  have hkb := keyOK_byte_ne hk
  obtain ⟨hvne, hvh, hvl, hv10⟩ := hv
  obtain ⟨k0, ks, rfl⟩ : ∃ k0 ks, k = k0 :: ks := by
    cases k with
    | nil => exact absurd rfl hk.1
    | cons a b => exact ⟨a, b, rfl⟩
  have hk0 := hkb k0 (List.mem_cons_self k0 ks)
  have hklast : (k0 :: ks).getLast? ≠ some 32 := by
    intro hc
    have hmem : (32 : Nat) ∈ k0 :: ks := by
      obtain ⟨hne, heq⟩ := List.mem_getLast?_eq_getLast (Option.mem_def.mpr hc)
      rw [heq]
      exact List.getLast_mem hne
    have := hkb 32 hmem
    omega
  have hline : lineOf (k0 :: ks) v = k0 :: (ks ++ 32 :: 61 :: 32 :: v) := by
    show (k0 :: ks) ++ 32 :: 61 :: 32 :: v = _
    rw [List.cons_append]
  have hline_last : (lineOf (k0 :: ks) v).getLast? = v.getLast? := by
    show ((k0 :: ks) ++ 32 :: 61 :: 32 :: v).getLast? = v.getLast?
    rw [List.getLast?_append_cons]
    cases v with
    | nil => exact absurd rfl hvne
    | cons a r =>
      rw [List.getLast?_cons_cons, List.getLast?_cons_cons, List.getLast?_cons_cons]
  have htrim : trimB (lineOf (k0 :: ks) v) = lineOf (k0 :: ks) v := by
    apply trimB_eq_self
    · show (lineOf (k0 :: ks) v).head? ≠ some 32
      rw [hline, List.head?_cons]
      intro hc
      rw [Option.some.injEq] at hc
      omega
    · rw [hline_last]
      exact hvl
  rw [hline] at htrim
  rw [hline, parseLine_of_trim_self d k0 (ks ++ 32 :: 61 :: 32 :: v) htrim]
  have hc35 : (k0 == 35) = false := by
    rw [beq_eq_false_iff_ne]
    omega
  rw [ite_cond_false _ _ hc35]
  rw [← hline]
  rw [splitAtFirst_lineOf (k0 :: ks) v (fun b hb => (hkb b hb).2.2.2)]
  show (match trimB ((k0 :: ks) ++ [32]) with
    | [] => d
    | q0 :: qs => dinsert d (q0 :: qs) (trimB (32 :: v))) = dinsert d (k0 :: ks) v
  rw [trimB_key (List.cons_ne_nil k0 ks)
    (by rw [List.head?_cons]; intro hc; rw [Option.some.injEq] at hc; omega) hklast]
  rw [trimB_val hvh hvl]

theorem dinsert_fresh (d : TextData) (k v : Bytes) (h : ∀ kv ∈ d, kv.1 ≠ k) :
    dinsert d k v = d ++ [(k, v)] := by
  induction d with
  | nil => rfl
  | cons kv r ih =>
    obtain ⟨k0, v0⟩ := kv
    rw [dinsert]
    have : k0 ≠ k := h (k0, v0) (List.mem_cons_self _ r)
    rw [if_neg this]
    rw [ih (fun kv hkv => h kv (List.mem_cons_of_mem _ hkv))]
    rfl

theorem foldl_parseLine_pairs : ∀ (pairs d : TextData),
    (∀ kv ∈ pairs, KeyOK kv.1 ∧ ValOK kv.2) →
    List.Pairwise (fun a b => a.1 ≠ b.1) pairs →
    (∀ kv ∈ pairs, ∀ kv2 ∈ d, kv2.1 ≠ kv.1) →
    ((pairs.map (fun kv => lineOf kv.1 kv.2)).foldl parseLine d) = d ++ pairs := by
  intro pairs
  induction pairs with
  | nil => intro d _ _ _; exact (List.append_nil d).symm
  | cons kv rest ih =>
    intro d hok hnd hfresh
    obtain ⟨k, v⟩ := kv
    rw [List.map_cons, List.foldl_cons]
    have hk := hok (k, v) (List.mem_cons_self _ rest)
    rw [parseLine_lineOf d k v hk.1 hk.2]
    rw [dinsert_fresh d k v (fun kv2 hkv2 => hfresh (k, v) (List.mem_cons_self _ rest) kv2 hkv2)]
    rw [ih (d ++ [(k, v)])
      (fun kv2 hkv2 => hok kv2 (List.mem_cons_of_mem _ hkv2))
      (List.Pairwise.sublist (List.sublist_cons_self _ _) hnd)
      ?_]
    · rw [List.append_assoc]
      rfl
    · intro kv2 hkv2 kv3 hkv3
      rcases List.mem_append.mp hkv3 with h | h
      · exact hfresh kv2 (List.mem_cons_of_mem _ hkv2) kv3 h
      · simp only [List.mem_singleton] at h
        subst h
        show k ≠ kv2.1
        have := (List.pairwise_cons.mp hnd).1 kv2 hkv2
        exact this

/-- End-to-end parse inversion: parsing the streamed document of a pair list
with well-shaped, pairwise distinct keys yields exactly that association
list. -/
theorem parseTextDoc_flatten (pairs : TextData)
    (hok : ∀ kv ∈ pairs, KeyOK kv.1 ∧ ValOK kv.2)
    (hnd : List.Pairwise (fun a b => a.1 ≠ b.1) pairs) :
    parseTextDoc (flattenLines (pairs.map (fun kv => lineOf kv.1 kv.2))) = pairs := by
  unfold parseTextDoc
  have h10 : ∀ l ∈ pairs.map (fun kv => lineOf kv.1 kv.2), ∀ b ∈ l, b ≠ 10 := by
    intro l hl b hb
    rw [List.mem_map] at hl
    obtain ⟨kv, hkv, rfl⟩ := hl
    have hok2 := hok kv hkv
    unfold lineOf at hb
    rcases List.mem_append.mp hb with h | h
    · exact (keyOK_byte_ne hok2.1 b h).1
    · rcases h with _ | ⟨_, h⟩
      · omega
      · rcases h with _ | ⟨_, h⟩
        · omega
        · rcases h with _ | ⟨_, h⟩
          · omega
          · exact hok2.2.2.2.2 b h
  rw [getlines_flatten _ h10]
  exact foldl_parseLine_pairs pairs [] hok hnd (fun kv _ kv2 hkv2 => absurd hkv2 (by simp))

/-! Path structure of the emitted keys: every key a subtree emits lies below
the subtree path, keys of sibling subtrees are disjoint, and all emitted
keys of one document are pairwise distinct. -/

/-- Closeness of a key under a path: the key is the path itself or extends it
by a dot. -/
def below (P k : Bytes) : Prop := k = P ∨ ∃ r, k = P ++ 46 :: r

theorem below_refl (P : Bytes) : below P P := Or.inl rfl

theorem below_countKey (P : Bytes) : below P (countKey P) := Or.inr ⟨countLbl, rfl⟩

theorem dotJoin_decomp (p a : Bytes) :
    dotJoin p a = (if p = [] then ([] : Bytes) else p ++ [46]) ++ a := by
  unfold dotJoin
  by_cases hp : p = []
  · rw [if_pos hp, if_pos hp]
    rfl
  · rw [if_neg hp, if_neg hp]
    rw [List.append_assoc]
    rfl

theorem dotJoin_of_ne (p a : Bytes) (hp : p ≠ []) : dotJoin p a = p ++ 46 :: a := by
  unfold dotJoin
  rw [if_neg hp]

theorem dotJoin_ne_nil (p : Bytes) {a : Bytes} (ha : a ≠ []) : dotJoin p a ≠ [] := by
  rw [dotJoin_decomp]
  intro hc
  rcases List.append_eq_nil.mp hc with ⟨h1, h2⟩
  exact ha h2

theorem below_ext {Q a k : Bytes} (h : below (Q ++ 46 :: a) k) : below Q k := by
  rcases h with h | ⟨r, h⟩
  · exact Or.inr ⟨a, h⟩
  · refine Or.inr ⟨a ++ 46 :: r, ?_⟩
    rw [h, List.append_assoc]
    rfl

theorem below_dotJoin_ext {p a k : Bytes} (hp : p ≠ []) (h : below (dotJoin p a) k) :
    below p k := by
  rw [dotJoin_of_ne p a hp] at h
  exact below_ext h

theorem takeWhile_stop_append (sep : Nat) (l r : Bytes) (hl : ∀ b ∈ l, b ≠ sep) :
    (l ++ sep :: r).takeWhile (fun b => !(b == sep)) = l := by
  induction l with
  | nil =>
    rw [List.nil_append, List.takeWhile_cons]
    rw [ite_cond_false _ _ (by
      rw [Bool.not_eq_eq_eq_not]
      show (sep == sep) = true
      rw [beq_iff_eq])]
  | cons a l ih =>
    have ha := hl a (List.mem_cons_self a l)
    rw [List.cons_append, List.takeWhile_cons]
    rw [ite_cond_true _ _ (by
      rw [Bool.not_eq_eq_eq_not]
      show (a == sep) = false
      rw [beq_eq_false_iff_ne]
      exact ha)]
    rw [ih (fun b hb => hl b (List.mem_cons_of_mem a hb))]

theorem below_extract {q a k : Bytes} (hna : ∀ x ∈ a, x ≠ 46)
    (h : k = q ++ a ∨ ∃ r, k = (q ++ a) ++ 46 :: r) :
    (k.drop q.length).takeWhile (fun x => !(x == 46)) = a := by
  rcases h with h | ⟨r, h⟩
  · subst h
    rw [List.drop_left]
    exact takeWhile_all_eq (by
      rw [List.all_eq_true]
      intro x hx
      rw [Bool.not_eq_eq_eq_not]
      show (x == 46) = false
      rw [beq_eq_false_iff_ne]
      exact hna x hx)
  · subst h
    rw [List.append_assoc, List.drop_left]
    exact takeWhile_stop_append 46 a r hna

theorem below_dotJoin_cases {p a k : Bytes} (h : below (dotJoin p a) k) :
    k = (if p = [] then ([] : Bytes) else p ++ [46]) ++ a ∨
      ∃ r, k = ((if p = [] then ([] : Bytes) else p ++ [46]) ++ a) ++ 46 :: r := by
  rw [dotJoin_decomp] at h
  rcases h with h | ⟨r, h⟩
  · exact Or.inl h
  · exact Or.inr ⟨r, by rw [h]⟩

theorem below_sep {p a b k : Bytes} (hna : ∀ x ∈ a, x ≠ 46) (hnb : ∀ x ∈ b, x ≠ 46)
    (hab : a ≠ b) (h1 : below (dotJoin p a) k) (h2 : below (dotJoin p b) k) : False := by
  have e1 := below_extract hna (below_dotJoin_cases h1)
  have e2 := below_extract hnb (below_dotJoin_cases h2)
  rw [e1] at e2
  exact hab e2

/-! Label facts: decimal indices, the count label, and identifier field names
are dot-free, and distinct labels stay distinct. -/

theorem natToDec_noDot (n : Nat) : ∀ x ∈ natToDec n, x ≠ 46 := by
  intro x hx
  have := natToDec_digits n x hx
  omega

theorem countLbl_noDot : ∀ x ∈ countLbl, x ≠ 46 := by decide

theorem natToDec_ne_countLbl (n : Nat) : natToDec n ≠ countLbl := by
  intro h
  have h99 : (99 : Nat) ∈ natToDec n := by
    rw [h]
    show (99 : Nat) ∈ 99 :: [111, 117, 110, 116]
    exact List.mem_cons_self _ _
  have := natToDec_digits n 99 h99
  omega

theorem isIdent_noDot {f : Bytes} (h : isIdent f = true) : ∀ x ∈ f, x ≠ 46 := by
  intro x hx
  cases f with
  | nil => exact absurd h (by decide)
  | cons c r =>
    have h2 : ((c :: r).all isIdentChar && !(isDigitB c)) = true := h
    rw [Bool.and_eq_true] at h2
    have := List.all_eq_true.mp h2.1 x hx
    exact (isIdentChar_ne this).2.2.2.2

/-! Attribution of emitted keys to subtrees. -/

mutual
theorem pairsV_below : ∀ (t : Ty) (v : Value) (P : Bytes), P ≠ [] → wfTy t = true →
    ∀ kv ∈ pairsV P t v, below P kv.1
  | .tInt, .vInt n, P, hP, hwf, kv, hkv => by
    rcases List.mem_singleton.mp hkv with rfl
    exact below_refl P
  | .tBool, .vBool b, P, hP, hwf, kv, hkv => by
    rcases List.mem_singleton.mp hkv with rfl
    exact below_refl P
  | .tStr, .vStr s, P, hP, hwf, kv, hkv => by
    rcases List.mem_singleton.mp hkv with rfl
    exact below_refl P
  | .tObj fs, .vObj vs, P, hP, hwf, kv, hkv => by
    have hwf2 : (nodupNames fs && wfFieldTys fs) = true := hwf
    rw [Bool.and_eq_true] at hwf2
    obtain ⟨f, t, hft, hbelow⟩ := pairsFields_below fs vs P hwf2.2 kv hkv
    exact below_dotJoin_ext hP hbelow
  | .tArr t, .vArr es, P, hP, hwf, kv, hkv => by
    rcases List.mem_cons.mp hkv with h | h
    · rw [h]
      exact below_countKey P
    · obtain ⟨j, hj1, hj2, hbelow⟩ := pairsElems_below t es P 0 hP hwf kv h
      rw [← dotJoin_of_ne P (natToDec j) hP] at hbelow
      exact below_dotJoin_ext hP hbelow
  | .tInt, .vBool b, P, hP, hwf, kv, hkv => absurd hkv (by simp [pairsV])
  | .tInt, .vStr s, P, hP, hwf, kv, hkv => absurd hkv (by simp [pairsV])
  | .tInt, .vObj vs, P, hP, hwf, kv, hkv => absurd hkv (by simp [pairsV])
  | .tInt, .vArr es, P, hP, hwf, kv, hkv => absurd hkv (by simp [pairsV])
  | .tBool, .vInt n, P, hP, hwf, kv, hkv => absurd hkv (by simp [pairsV])
  | .tBool, .vStr s, P, hP, hwf, kv, hkv => absurd hkv (by simp [pairsV])
  | .tBool, .vObj vs, P, hP, hwf, kv, hkv => absurd hkv (by simp [pairsV])
  | .tBool, .vArr es, P, hP, hwf, kv, hkv => absurd hkv (by simp [pairsV])
  | .tStr, .vInt n, P, hP, hwf, kv, hkv => absurd hkv (by simp [pairsV])
  | .tStr, .vBool b, P, hP, hwf, kv, hkv => absurd hkv (by simp [pairsV])
  | .tStr, .vObj vs, P, hP, hwf, kv, hkv => absurd hkv (by simp [pairsV])
  | .tStr, .vArr es, P, hP, hwf, kv, hkv => absurd hkv (by simp [pairsV])
  | .tObj fs, .vInt n, P, hP, hwf, kv, hkv => absurd hkv (by simp [pairsV])
  | .tObj fs, .vBool b, P, hP, hwf, kv, hkv => absurd hkv (by simp [pairsV])
  | .tObj fs, .vStr s, P, hP, hwf, kv, hkv => absurd hkv (by simp [pairsV])
  | .tObj fs, .vArr es, P, hP, hwf, kv, hkv => absurd hkv (by simp [pairsV])
  | .tArr t, .vInt n, P, hP, hwf, kv, hkv => absurd hkv (by simp [pairsV])
  | .tArr t, .vBool b, P, hP, hwf, kv, hkv => absurd hkv (by simp [pairsV])
  | .tArr t, .vStr s, P, hP, hwf, kv, hkv => absurd hkv (by simp [pairsV])
  | .tArr t, .vObj vs, P, hP, hwf, kv, hkv => absurd hkv (by simp [pairsV])

theorem pairsFields_below : ∀ (fs : List (Bytes × Ty)) (vs : List Value) (p : Bytes),
    wfFieldTys fs = true →
    ∀ kv ∈ pairsFields p fs vs, ∃ f t, (f, t) ∈ fs ∧ below (dotJoin p f) kv.1
  | [], vs, p, hwf, kv, hkv => absurd hkv (by cases vs <;> simp [pairsFields])
  | (f, t) :: fs, [], p, hwf, kv, hkv => absurd hkv (by simp [pairsFields])
  | (f, t) :: fs, v :: vs, p, hwf, kv, hkv => by
    have hwf2 : (isIdent f && wfTy t && wfFieldTys fs) = true := hwf
    rw [Bool.and_eq_true, Bool.and_eq_true] at hwf2
    have hmem : kv ∈ pairsV (dotJoin p f) t v ++ pairsFields p fs vs := hkv
    rcases List.mem_append.mp hmem with h | h
    · refine ⟨f, t, List.mem_cons_self _ _, ?_⟩
      exact pairsV_below t v (dotJoin p f)
        (dotJoin_ne_nil p (isIdent_ne_nil hwf2.1.1)) hwf2.1.2 kv h
    · obtain ⟨g, tg, hg, hbelow⟩ := pairsFields_below fs vs p hwf2.2 kv h
      exact ⟨g, tg, List.mem_cons_of_mem _ hg, hbelow⟩

theorem pairsElems_below : ∀ (t : Ty) (es : List Value) (p : Bytes) (i : Nat), p ≠ [] →
    wfTy t = true →
    ∀ kv ∈ pairsElems p t i es,
      ∃ j, i ≤ j ∧ j < i + es.length ∧ below (p ++ 46 :: natToDec j) kv.1
  | t, [], p, i, hp, hwf, kv, hkv => absurd hkv (by simp [pairsElems])
  | t, e :: es, p, i, hp, hwf, kv, hkv => by
    have hmem : kv ∈ pairsV (p ++ 46 :: natToDec i) t e ++ pairsElems p t (i + 1) es := hkv
    rcases List.mem_append.mp hmem with h | h
    · refine ⟨i, Nat.le_refl i, by simp, ?_⟩
      exact pairsV_below t e (p ++ 46 :: natToDec i) (by simp) hwf kv h
    · obtain ⟨j, hj1, hj2, hbelow⟩ := pairsElems_below t es p (i + 1) hp hwf kv h
      refine ⟨j, by omega, by rw [List.length_cons]; omega, hbelow⟩
end

/-! Shape facts about emitted keys and values. -/

def pathChars (p : Bytes) : Prop := ∀ b ∈ p, isIdentChar b = true ∨ b = 46

theorem head?_mem {l : Bytes} {x : Nat} (h : l.head? = some x) : x ∈ l := by
  cases l with
  | nil => exact Option.noConfusion h
  | cons a r =>
    rw [List.head?_cons, Option.some.injEq] at h
    rw [← h]
    exact List.mem_cons_self a r

theorem getLast?_mem_of {l : Bytes} {x : Nat} (h : l.getLast? = some x) : x ∈ l := by
  obtain ⟨hne, heq⟩ := List.mem_getLast?_eq_getLast (Option.mem_def.mpr h)
  rw [heq]
  exact List.getLast_mem hne

theorem valOK_natToDec (n : Nat) : ValOK (natToDec n) := by
  refine ⟨natToDec_ne_nil n, ?_, ?_, ?_⟩
  · intro hc
    have := natToDec_digits n 32 (head?_mem hc)
    omega
  · intro hc
    have := natToDec_digits n 32 (getLast?_mem_of hc)
    omega
  · intro b hb
    have := natToDec_digits n b hb
    omega

theorem valOK_intToDec (i : Int) : ValOK (intToDec i) := by
  unfold intToDec
  by_cases h : i < 0
  · rw [if_pos h]
    refine ⟨List.cons_ne_nil _ _, ?_, ?_, ?_⟩
    · rw [List.head?_cons]
      intro hc
      rw [Option.some.injEq] at hc
      omega
    · intro hc
      have hm : (32 : Nat) ∈ 45 :: natToDec i.natAbs := getLast?_mem_of hc
      rcases List.mem_cons.mp hm with h2 | h2
      · omega
      · have := natToDec_digits i.natAbs 32 h2
        omega
    · intro b hb
      rcases List.mem_cons.mp hb with h2 | h2
      · omega
      · have := natToDec_digits i.natAbs b h2
        omega
  · rw [if_neg h]
    exact valOK_natToDec i.toNat

theorem valOK_boolB (b : Bool) : ValOK (boolB b) := by
  cases b
  · show ValOK falseB
    refine ⟨by decide, by decide, by decide, by decide⟩
  · show ValOK trueB
    refine ⟨by decide, by decide, by decide, by decide⟩

theorem quoteB_concat (s : Bytes) : quoteB s = (34 :: s) ++ [34] := by
  show 34 :: s ++ [34] = (34 :: s) ++ [34]
  rw [List.cons_append]

theorem valOK_quoteB {s : Bytes} (h : ∀ b ∈ s, b ≠ 10) : ValOK (quoteB s) := by
  refine ⟨?_, ?_, ?_, ?_⟩
  · show 34 :: s ++ [34] ≠ []
    exact List.cons_ne_nil _ _
  · show (34 :: (s ++ [34])).head? ≠ some 32
    rw [List.head?_cons]
    intro hc
    rw [Option.some.injEq] at hc
    omega
  · rw [quoteB_concat, List.getLast?_concat]
    intro hc
    rw [Option.some.injEq] at hc
    omega
  · intro b hb
    have hb2 : b ∈ 34 :: (s ++ [34]) := hb
    rcases List.mem_cons.mp hb2 with h2 | h2
    · omega
    · rcases List.mem_append.mp h2 with h3 | h3
      · exact h b h3
      · rcases List.mem_singleton.mp h3 with rfl
        omega

theorem isIdent_chars {f : Bytes} (h : isIdent f = true) : ∀ b ∈ f, isIdentChar b = true := by
  intro b hb
  cases f with
  | nil => exact absurd h (by decide)
  | cons c r =>
    have h2 : ((c :: r).all isIdentChar && !(isDigitB c)) = true := h
    rw [Bool.and_eq_true] at h2
    exact List.all_eq_true.mp h2.1 b hb

theorem pathChars_natToDec (n : Nat) : pathChars (natToDec n) := by
  intro b hb
  left
  have := natToDec_digits n b hb
  unfold isIdentChar
  rw [Bool.or_eq_true, Bool.or_eq_true, Bool.or_eq_true]
  left
  left
  left
  rw [Bool.and_eq_true]
  exact ⟨decide_eq_true this.1, decide_eq_true this.2⟩

theorem pathChars_countLbl : pathChars countLbl := by
  intro b hb
  left
  have hb2 : b ∈ [99, 111, 117, 110, 116] := hb
  rcases List.mem_cons.mp hb2 with rfl | hb2
  · decide
  rcases List.mem_cons.mp hb2 with rfl | hb2
  · decide
  rcases List.mem_cons.mp hb2 with rfl | hb2
  · decide
  rcases List.mem_cons.mp hb2 with rfl | hb2
  · decide
  rcases List.mem_singleton.mp hb2 with rfl
  decide

theorem pathChars_dotJoin {p f : Bytes} (hp : pathChars p) (hf : ∀ b ∈ f, isIdentChar b = true) :
    pathChars (dotJoin p f) := by
  intro b hb
  rw [dotJoin_decomp] at hb
  rcases List.mem_append.mp hb with h | h
  · by_cases hpe : p = []
    · rw [if_pos hpe] at h
      exact absurd h (by simp)
    · rw [if_neg hpe] at h
      rcases List.mem_append.mp h with h2 | h2
      · exact hp b h2
      · rcases List.mem_singleton.mp h2 with rfl
        right
        rfl
  · left
    exact hf b h

theorem pathChars_ext {p l : Bytes} (hp : pathChars p) (hl : pathChars l) :
    pathChars (p ++ 46 :: l) := by
  intro b hb
  rcases List.mem_append.mp hb with h | h
  · exact hp b h
  · rcases List.mem_cons.mp h with rfl | h2
    · right
      rfl
    · exact hl b h2

theorem keyOK_of_pathChars {p : Bytes} (hne : p ≠ []) (hp : pathChars p) : KeyOK p :=
  ⟨hne, hp⟩

/-! Every emitted pair has a well-shaped key and value. -/
mutual
theorem pairsV_ok : ∀ (t : Ty) (v : Value) (P : Bytes), wfTy t = true → nlFreeV v = true →
    P ≠ [] → pathChars P → ∀ kv ∈ pairsV P t v, KeyOK kv.1 ∧ ValOK kv.2
  | .tInt, .vInt n, P, hwf, hnl, hP, hPc, kv, hkv => by
    rcases List.mem_singleton.mp hkv with rfl
    exact ⟨⟨hP, hPc⟩, valOK_intToDec n⟩
  | .tBool, .vBool b, P, hwf, hnl, hP, hPc, kv, hkv => by
    rcases List.mem_singleton.mp hkv with rfl
    exact ⟨⟨hP, hPc⟩, valOK_boolB b⟩
  | .tStr, .vStr s, P, hwf, hnl, hP, hPc, kv, hkv => by
    rcases List.mem_singleton.mp hkv with rfl
    refine ⟨⟨hP, hPc⟩, valOK_quoteB ?_⟩
    intro b hb
    have h2 : (s.all fun b => !(b == 10)) = true := hnl
    have := List.all_eq_true.mp h2 b hb
    rw [Bool.not_eq_eq_eq_not] at this
    show b ≠ 10
    intro hc
    rw [hc] at this
    exact absurd this (by decide)
  | .tObj fs, .vObj vs, P, hwf, hnl, hP, hPc, kv, hkv => by
    have hwf2 : (nodupNames fs && wfFieldTys fs) = true := hwf
    rw [Bool.and_eq_true] at hwf2
    exact pairsFields_ok fs vs P hwf2.2 hnl hPc kv hkv
  | .tArr t, .vArr es, P, hwf, hnl, hP, hPc, kv, hkv => by
    rcases List.mem_cons.mp hkv with h | h
    · rw [h]
      exact ⟨⟨by simp [countKey], pathChars_ext hPc pathChars_countLbl⟩,
        valOK_natToDec es.length⟩
    · exact pairsElems_ok t es P 0 hwf hnl hP hPc kv h
  | .tInt, .vBool b, P, hwf, hnl, hP, hPc, kv, hkv => absurd hkv (by simp [pairsV])
  | .tInt, .vStr s, P, hwf, hnl, hP, hPc, kv, hkv => absurd hkv (by simp [pairsV])
  | .tInt, .vObj vs, P, hwf, hnl, hP, hPc, kv, hkv => absurd hkv (by simp [pairsV])
  | .tInt, .vArr es, P, hwf, hnl, hP, hPc, kv, hkv => absurd hkv (by simp [pairsV])
  | .tBool, .vInt n, P, hwf, hnl, hP, hPc, kv, hkv => absurd hkv (by simp [pairsV])
  | .tBool, .vStr s, P, hwf, hnl, hP, hPc, kv, hkv => absurd hkv (by simp [pairsV])
  | .tBool, .vObj vs, P, hwf, hnl, hP, hPc, kv, hkv => absurd hkv (by simp [pairsV])
  | .tBool, .vArr es, P, hwf, hnl, hP, hPc, kv, hkv => absurd hkv (by simp [pairsV])
  | .tStr, .vInt n, P, hwf, hnl, hP, hPc, kv, hkv => absurd hkv (by simp [pairsV])
  | .tStr, .vBool b, P, hwf, hnl, hP, hPc, kv, hkv => absurd hkv (by simp [pairsV])
  | .tStr, .vObj vs, P, hwf, hnl, hP, hPc, kv, hkv => absurd hkv (by simp [pairsV])
  | .tStr, .vArr es, P, hwf, hnl, hP, hPc, kv, hkv => absurd hkv (by simp [pairsV])
  | .tObj fs, .vInt n, P, hwf, hnl, hP, hPc, kv, hkv => absurd hkv (by simp [pairsV])
  | .tObj fs, .vBool b, P, hwf, hnl, hP, hPc, kv, hkv => absurd hkv (by simp [pairsV])
  | .tObj fs, .vStr s, P, hwf, hnl, hP, hPc, kv, hkv => absurd hkv (by simp [pairsV])
  | .tObj fs, .vArr es, P, hwf, hnl, hP, hPc, kv, hkv => absurd hkv (by simp [pairsV])
  | .tArr t, .vInt n, P, hwf, hnl, hP, hPc, kv, hkv => absurd hkv (by simp [pairsV])
  | .tArr t, .vBool b, P, hwf, hnl, hP, hPc, kv, hkv => absurd hkv (by simp [pairsV])
  | .tArr t, .vStr s, P, hwf, hnl, hP, hPc, kv, hkv => absurd hkv (by simp [pairsV])
  | .tArr t, .vObj vs, P, hwf, hnl, hP, hPc, kv, hkv => absurd hkv (by simp [pairsV])

theorem pairsFields_ok : ∀ (fs : List (Bytes × Ty)) (vs : List Value) (p : Bytes),
    wfFieldTys fs = true → nlFreeL vs = true → pathChars p →
    ∀ kv ∈ pairsFields p fs vs, KeyOK kv.1 ∧ ValOK kv.2
  | [], vs, p, hwf, hnl, hpc, kv, hkv => absurd hkv (by cases vs <;> simp [pairsFields])
  | (f, t) :: fs, [], p, hwf, hnl, hpc, kv, hkv => absurd hkv (by simp [pairsFields])
  | (f, t) :: fs, v :: vs, p, hwf, hnl, hpc, kv, hkv => by
    have hwf2 : (isIdent f && wfTy t && wfFieldTys fs) = true := hwf
    rw [Bool.and_eq_true, Bool.and_eq_true] at hwf2
    have hnl2 : (nlFreeV v && nlFreeL vs) = true := hnl
    rw [Bool.and_eq_true] at hnl2
    have hmem : kv ∈ pairsV (dotJoin p f) t v ++ pairsFields p fs vs := hkv
    rcases List.mem_append.mp hmem with h | h
    · exact pairsV_ok t v (dotJoin p f) hwf2.1.2 hnl2.1
        (dotJoin_ne_nil p (isIdent_ne_nil hwf2.1.1))
        (pathChars_dotJoin hpc (isIdent_chars hwf2.1.1)) kv h
    · exact pairsFields_ok fs vs p hwf2.2 hnl2.2 hpc kv h

theorem pairsElems_ok : ∀ (t : Ty) (es : List Value) (p : Bytes) (i : Nat),
    wfTy t = true → nlFreeL es = true → p ≠ [] → pathChars p →
    ∀ kv ∈ pairsElems p t i es, KeyOK kv.1 ∧ ValOK kv.2
  | t, [], p, i, hwf, hnl, hp, hpc, kv, hkv => absurd hkv (by simp [pairsElems])
  | t, e :: es, p, i, hwf, hnl, hp, hpc, kv, hkv => by
    have hnl2 : (nlFreeV e && nlFreeL es) = true := hnl
    rw [Bool.and_eq_true] at hnl2
    have hmem : kv ∈ pairsV (p ++ 46 :: natToDec i) t e ++ pairsElems p t (i + 1) es := hkv
    rcases List.mem_append.mp hmem with h | h
    · exact pairsV_ok t e (p ++ 46 :: natToDec i) hwf hnl2.1 (by simp)
        (pathChars_ext hpc (pathChars_natToDec i)) kv h
    · exact pairsElems_ok t es p (i + 1) hwf hnl2.2 hp hpc kv h
end

theorem key_ne_of_below_sep {p a b x y : Bytes} (hna : ∀ c ∈ a, c ≠ 46)
    (hnb : ∀ c ∈ b, c ≠ 46) (hab : a ≠ b) (hx : below (dotJoin p a) x)
    (hy : below (dotJoin p b) y) : x ≠ y := by
  intro hc
  subst hc
  exact below_sep hna hnb hab hx hy

theorem wfFieldTys_mem : ∀ {fs : List (Bytes × Ty)} {f : Bytes} {t : Ty},
    wfFieldTys fs = true → (f, t) ∈ fs → isIdent f = true ∧ wfTy t = true := by
  intro fs
  induction fs with
  | nil => intro f t _ hmem; exact absurd hmem (by simp)
  | cons ft fs ih =>
    intro f t hwf hmem
    obtain ⟨f0, t0⟩ := ft
    have hwf2 : (isIdent f0 && wfTy t0 && wfFieldTys fs) = true := hwf
    rw [Bool.and_eq_true, Bool.and_eq_true] at hwf2
    rcases List.mem_cons.mp hmem with h | h
    · rw [Prod.mk.injEq] at h
      rw [h.1, h.2]
      exact hwf2.1
    · exact ih hwf2.2 h

theorem nodupNames_head {f : Bytes} {t : Ty} {fs : List (Bytes × Ty)}
    (h : nodupNames ((f, t) :: fs) = true) :
    (∀ q ∈ fs, q.1 ≠ f) ∧ nodupNames fs = true := by
  have h2 : (fs.all (fun p => !(p.1 == f)) && nodupNames fs) = true := h
  rw [Bool.and_eq_true] at h2
  refine ⟨?_, h2.2⟩
  intro q hq
  have hball := List.all_eq_true.mp h2.1 q hq
  rw [Bool.not_eq_eq_eq_not] at hball
  show q.1 ≠ f
  intro hc
  have hbeq : (q.1 == f) = true := beq_iff_eq.mpr hc
  rw [hball] at hbeq
  exact Bool.noConfusion hbeq

/-! Pairwise distinctness of all keys one document emits. -/
mutual
theorem pairsV_pairwise : ∀ (t : Ty) (v : Value) (P : Bytes), wfTy t = true → P ≠ [] →
    List.Pairwise (fun a b => a.1 ≠ b.1) (pairsV P t v)
  | .tInt, .vInt n, P, hwf, hP => List.pairwise_singleton _ _
  | .tBool, .vBool b, P, hwf, hP => List.pairwise_singleton _ _
  | .tStr, .vStr s, P, hwf, hP => List.pairwise_singleton _ _
  | .tObj fs, .vObj vs, P, hwf, hP => by
    have hwf2 : (nodupNames fs && wfFieldTys fs) = true := hwf
    rw [Bool.and_eq_true] at hwf2
    exact pairsFields_pairwise fs vs P hwf2.1 hwf2.2
  | .tArr t, .vArr es, P, hwf, hP => by
    show List.Pairwise _ ((countKey P, natToDec es.length) :: pairsElems P t 0 es)
    rw [List.pairwise_cons]
    refine ⟨?_, pairsElems_pairwise t es P 0 hwf hP⟩
    intro y hy
    obtain ⟨j, _, _, hby⟩ := pairsElems_below t es P 0 hP hwf y hy
    rw [← dotJoin_of_ne P (natToDec j) hP] at hby
    have hbx : below (dotJoin P countLbl) (countKey P) := by
      rw [dotJoin_of_ne P countLbl hP]
      exact below_refl _
    exact key_ne_of_below_sep countLbl_noDot (natToDec_noDot j)
      (fun hc => natToDec_ne_countLbl j hc.symm) hbx hby
  | .tInt, .vBool b, P, hwf, hP => by simp [pairsV]
  | .tInt, .vStr s, P, hwf, hP => by simp [pairsV]
  | .tInt, .vObj vs, P, hwf, hP => by simp [pairsV]
  | .tInt, .vArr es, P, hwf, hP => by simp [pairsV]
  | .tBool, .vInt n, P, hwf, hP => by simp [pairsV]
  | .tBool, .vStr s, P, hwf, hP => by simp [pairsV]
  | .tBool, .vObj vs, P, hwf, hP => by simp [pairsV]
  | .tBool, .vArr es, P, hwf, hP => by simp [pairsV]
  | .tStr, .vInt n, P, hwf, hP => by simp [pairsV]
  | .tStr, .vBool b, P, hwf, hP => by simp [pairsV]
  | .tStr, .vObj vs, P, hwf, hP => by simp [pairsV]
  | .tStr, .vArr es, P, hwf, hP => by simp [pairsV]
  | .tObj fs, .vInt n, P, hwf, hP => by simp [pairsV]
  | .tObj fs, .vBool b, P, hwf, hP => by simp [pairsV]
  | .tObj fs, .vStr s, P, hwf, hP => by simp [pairsV]
  | .tObj fs, .vArr es, P, hwf, hP => by simp [pairsV]
  | .tArr t, .vInt n, P, hwf, hP => by simp [pairsV]
  | .tArr t, .vBool b, P, hwf, hP => by simp [pairsV]
  | .tArr t, .vStr s, P, hwf, hP => by simp [pairsV]
  | .tArr t, .vObj vs, P, hwf, hP => by simp [pairsV]

theorem pairsFields_pairwise : ∀ (fs : List (Bytes × Ty)) (vs : List Value) (p : Bytes),
    nodupNames fs = true → wfFieldTys fs = true →
    List.Pairwise (fun a b => a.1 ≠ b.1) (pairsFields p fs vs)
  | [], vs, p, hnd, hwf => by cases vs <;> simp [pairsFields]
  | (f, t) :: fs, [], p, hnd, hwf => by simp [pairsFields]
  | (f, t) :: fs, v :: vs, p, hnd, hwf => by
    have hwf2 : (isIdent f && wfTy t && wfFieldTys fs) = true := hwf
    rw [Bool.and_eq_true, Bool.and_eq_true] at hwf2
    obtain ⟨hfresh, hnd2⟩ := nodupNames_head hnd
    show List.Pairwise _ (pairsV (dotJoin p f) t v ++ pairsFields p fs vs)
    rw [List.pairwise_append]
    refine ⟨pairsV_pairwise t v (dotJoin p f) hwf2.1.2
      (dotJoin_ne_nil p (isIdent_ne_nil hwf2.1.1)),
      pairsFields_pairwise fs vs p hnd2 hwf2.2, ?_⟩
    intro x hx y hy
    have hbx := pairsV_below t v (dotJoin p f)
      (dotJoin_ne_nil p (isIdent_ne_nil hwf2.1.1)) hwf2.1.2 x hx
    obtain ⟨g, tg, hg, hby⟩ := pairsFields_below fs vs p hwf2.2 y hy
    have hgf : g ≠ f := hfresh (g, tg) hg
    have hgid := (wfFieldTys_mem hwf2.2 hg).1
    exact key_ne_of_below_sep (isIdent_noDot hwf2.1.1) (isIdent_noDot hgid)
      (fun hc => hgf hc.symm) hbx hby

theorem pairsElems_pairwise : ∀ (t : Ty) (es : List Value) (p : Bytes) (i : Nat),
    wfTy t = true → p ≠ [] →
    List.Pairwise (fun a b => a.1 ≠ b.1) (pairsElems p t i es)
  | t, [], p, i, hwf, hp => by simp [pairsElems]
  | t, e :: es, p, i, hwf, hp => by
    show List.Pairwise _ (pairsV (p ++ 46 :: natToDec i) t e ++ pairsElems p t (i + 1) es)
    rw [List.pairwise_append]
    refine ⟨?_, pairsElems_pairwise t es p (i + 1) hwf hp, ?_⟩
    · exact pairsV_pairwise t e (p ++ 46 :: natToDec i) hwf (by simp)
    · intro x hx y hy
      have hbx := pairsV_pairwise t e (p ++ 46 :: natToDec i) hwf (by simp)
      have hbx2 := pairsV_below t e (p ++ 46 :: natToDec i) (by simp) hwf x hx
      rw [← dotJoin_of_ne p (natToDec i) hp] at hbx2
      obtain ⟨j, hj1, hj2, hby⟩ := pairsElems_below t es p (i + 1) hp hwf y hy
      rw [← dotJoin_of_ne p (natToDec j) hp] at hby
      have hij : natToDec i ≠ natToDec j := by
        intro hc
        have := natToDec_injective hc
        omega
      exact key_ne_of_below_sep (natToDec_noDot i) (natToDec_noDot j) hij hbx2 hby
end

/-! Lookup facts on the parsed data map. -/

theorem dlook_eq_none (d : TextData) (q : Bytes) (h : ∀ kv ∈ d, kv.1 ≠ q) :
    dlook d q = none := by
  induction d with
  | nil => rfl
  | cons kv r ih =>
    obtain ⟨k0, v0⟩ := kv
    rw [dlook, if_neg (h (k0, v0) (List.mem_cons_self _ r))]
    exact ih (fun kv hkv => h kv (List.mem_cons_of_mem _ hkv))

theorem dlook_append_of_fresh (xs ys : TextData) (q : Bytes) (h : ∀ kv ∈ xs, kv.1 ≠ q) :
    dlook (xs ++ ys) q = dlook ys q := by
  induction xs with
  | nil => rfl
  | cons kv r ih =>
    obtain ⟨k0, v0⟩ := kv
    rw [List.cons_append, dlook, if_neg (h (k0, v0) (List.mem_cons_self _ r))]
    exact ih (fun kv hkv => h kv (List.mem_cons_of_mem _ hkv))

theorem dlook_isSome_of_mem : ∀ (d : TextData) (q v : Bytes), (q, v) ∈ d →
    (dlook d q).isSome = true := by
  intro d
  induction d with
  | nil => intro q v h; exact absurd h (by simp)
  | cons kv r ih =>
    intro q v h
    obtain ⟨k0, v0⟩ := kv
    rw [dlook]
    by_cases hk : k0 = q
    · rw [if_pos hk]
      rfl
    · rw [if_neg hk]
      rcases List.mem_cons.mp h with h2 | h2
      · rw [Prod.mk.injEq] at h2
        exact absurd h2.1.symm hk
      · exact ih q v h2

theorem isPrefixOf_dotext (P r : Bytes) : (P ++ [46]).isPrefixOf (P ++ 46 :: r) = true := by
  rw [List.isPrefixOf_iff_prefix]
  exact ⟨r, by rw [List.append_assoc]; rfl⟩

theorem below_of_isPrefixOf {P k : Bytes} (h : (P ++ [46]).isPrefixOf k = true) :
    below P k := by
  rw [List.isPrefixOf_iff_prefix] at h
  obtain ⟨t, ht⟩ := h
  refine Or.inr ⟨t, ?_⟩
  rw [← ht, List.append_assoc]
  rfl

theorem hasData_true_of_mem (d : TextData) (P : Bytes) (kv : Bytes × Bytes) (hmem : kv ∈ d)
    (hb : below P kv.1) : hasDataForPath d P = true := by
  unfold hasDataForPath
  rw [Bool.or_eq_true]
  rcases hb with h | ⟨r, h⟩
  · left
    obtain ⟨k0, v0⟩ := kv
    show (dlook d P).isSome = true
    exact dlook_isSome_of_mem d P v0 (by rw [← h]; exact hmem)
  · right
    rw [List.any_eq_true]
    exact ⟨kv, hmem, by rw [h]; exact isPrefixOf_dotext P r⟩

theorem hasData_false (d : TextData) (P : Bytes) (h : ∀ kv ∈ d, ¬ below P kv.1) :
    hasDataForPath d P = false := by
  unfold hasDataForPath
  rw [Bool.or_eq_false_iff]
  constructor
  · rw [dlook_eq_none d P (fun kv hkv hc => h kv hkv (hc ▸ below_refl P))]
    rfl
  · rw [List.any_eq_false]
    intro kv hkv
    intro hc
    exact h kv hkv (below_of_isPrefixOf hc)

theorem isObjectT_true_of_mem (d : TextData) (P : Bytes) (hP : P ≠ [])
    (kv : Bytes × Bytes) (hmem : kv ∈ d) (r : Bytes) (hk : kv.1 = P ++ 46 :: r) :
    isObjectT d P = true := by
  unfold isObjectT
  rw [List.any_eq_true]
  refine ⟨kv, hmem, ?_⟩
  rw [if_neg hP, hk]
  exact isPrefixOf_dotext P r

theorem isObjectT_false (d : TextData) (P : Bytes) (hP : P ≠ [])
    (h : ∀ kv ∈ d, ¬ below P kv.1) : isObjectT d P = false := by
  unfold isObjectT
  rw [List.any_eq_false]
  intro kv hkv hc
  rw [if_neg hP] at hc
  exact h kv hkv (below_of_isPrefixOf hc)

theorem strict_below_of_dotJoin {P f k : Bytes} (hP : P ≠ [])
    (h : below (dotJoin P f) k) : ∃ r, k = P ++ 46 :: r := by
  rw [dotJoin_of_ne P f hP] at h
  rcases h with h | ⟨r, h⟩
  · exact ⟨f, h⟩
  · exact ⟨f ++ 46 :: r, by rw [h, List.append_assoc]; rfl⟩

/-! Void subtrees emit nothing; non-void subtrees emit at least one pair. -/
mutual
theorem pairsV_void : ∀ (t : Ty) (v : Value) (P : Bytes), voidTy t = true →
    wtV t v = true → pairsV P t v = []
  | .tInt, v, P, hv, _ => absurd hv (by decide)
  | .tBool, v, P, hv, _ => absurd hv (by decide)
  | .tStr, v, P, hv, _ => absurd hv (by decide)
  | .tArr t, v, P, hv, _ => Bool.noConfusion hv
  | .tObj fs, .vObj vs, P, hv, hw => pairsFields_void fs vs P hv hw
  | .tObj fs, .vInt n, P, hv, hw => Bool.noConfusion hw
  | .tObj fs, .vBool b, P, hv, hw => Bool.noConfusion hw
  | .tObj fs, .vStr s, P, hv, hw => Bool.noConfusion hw
  | .tObj fs, .vArr es, P, hv, hw => Bool.noConfusion hw

theorem pairsFields_void : ∀ (fs : List (Bytes × Ty)) (vs : List Value) (p : Bytes),
    voidFields fs = true → wtFields fs vs = true → pairsFields p fs vs = []
  | [], [], p, _, _ => rfl
  | [], v :: vs, p, _, hw => Bool.noConfusion hw
  | (f, t) :: fs, [], p, _, hw => Bool.noConfusion hw
  | (f, t) :: fs, v :: vs, p, hv, hw => by
    have hv2 : (voidTy t && voidFields fs) = true := hv
    have hw2 : (wtV t v && wtFields fs vs) = true := hw
    rw [Bool.and_eq_true] at hv2 hw2
    show pairsV (dotJoin p f) t v ++ pairsFields p fs vs = []
    rw [pairsV_void t v (dotJoin p f) hv2.1 hw2.1,
      pairsFields_void fs vs p hv2.2 hw2.2]
    rfl
end

mutual
theorem pairsV_ne_nil : ∀ (t : Ty) (v : Value) (P : Bytes), voidTy t = false →
    wtV t v = true → pairsV P t v ≠ []
  | .tInt, .vInt n, P, _, _ => by simp [pairsV]
  | .tBool, .vBool b, P, _, _ => by simp [pairsV]
  | .tStr, .vStr s, P, _, _ => by simp [pairsV]
  | .tArr t, .vArr es, P, _, _ => by simp [pairsV]
  | .tObj fs, .vObj vs, P, hv, hw => pairsFields_ne_nil fs vs P hv hw
  | .tInt, .vBool b, P, _, hw => Bool.noConfusion hw
  | .tInt, .vStr s, P, _, hw => Bool.noConfusion hw
  | .tInt, .vObj vs, P, _, hw => Bool.noConfusion hw
  | .tInt, .vArr es, P, _, hw => Bool.noConfusion hw
  | .tBool, .vInt n, P, _, hw => Bool.noConfusion hw
  | .tBool, .vStr s, P, _, hw => Bool.noConfusion hw
  | .tBool, .vObj vs, P, _, hw => Bool.noConfusion hw
  | .tBool, .vArr es, P, _, hw => Bool.noConfusion hw
  | .tStr, .vInt n, P, _, hw => Bool.noConfusion hw
  | .tStr, .vBool b, P, _, hw => Bool.noConfusion hw
  | .tStr, .vObj vs, P, _, hw => Bool.noConfusion hw
  | .tStr, .vArr es, P, _, hw => Bool.noConfusion hw
  | .tObj fs, .vInt n, P, _, hw => Bool.noConfusion hw
  | .tObj fs, .vBool b, P, _, hw => Bool.noConfusion hw
  | .tObj fs, .vStr s, P, _, hw => Bool.noConfusion hw
  | .tObj fs, .vArr es, P, _, hw => Bool.noConfusion hw
  | .tArr t, .vInt n, P, _, hw => Bool.noConfusion hw
  | .tArr t, .vBool b, P, _, hw => Bool.noConfusion hw
  | .tArr t, .vStr s, P, _, hw => Bool.noConfusion hw
  | .tArr t, .vObj vs, P, _, hw => Bool.noConfusion hw

theorem pairsFields_ne_nil : ∀ (fs : List (Bytes × Ty)) (vs : List Value) (p : Bytes),
    voidFields fs = false → wtFields fs vs = true → pairsFields p fs vs ≠ []
  | [], [], p, hv, _ => Bool.noConfusion hv
  | [], v :: vs, p, _, hw => Bool.noConfusion hw
  | (f, t) :: fs, [], p, _, hw => Bool.noConfusion hw
  | (f, t) :: fs, v :: vs, p, hv, hw => by
    have hw2 : (wtV t v && wtFields fs vs) = true := hw
    rw [Bool.and_eq_true] at hw2
    have hv2 : (voidTy t && voidFields fs) = false := hv
    rw [Bool.and_eq_false_iff] at hv2
    show pairsV (dotJoin p f) t v ++ pairsFields p fs vs ≠ []
    rcases hv2 with h | h
    · intro hc
      rcases List.append_eq_nil.mp hc with ⟨h1, _⟩
      exact pairsV_ne_nil t v (dotJoin p f) h hw2.1 h1
    · intro hc
      rcases List.append_eq_nil.mp hc with ⟨_, h2⟩
      exact pairsFields_ne_nil fs vs p h hw2.2 h2
end

/-! Decoding of the scalar encodings. -/

theorem unquoteB_quoteB (s : Bytes) : unquoteB (quoteB s) = s := by
  unfold unquoteB
  rw [ite_cond_true]
  · show ((34 :: (s ++ [34])).drop 1).dropLast = s
    rw [List.drop_one]
    show (s ++ [34]).dropLast = s
    exact List.dropLast_concat
  · rw [Bool.and_eq_true, Bool.and_eq_true]
    refine ⟨⟨?_, ?_⟩, ?_⟩
    · rw [decide_eq_true_eq]
      show 2 ≤ (34 :: (s ++ [34])).length
      rw [List.length_cons, List.length_append, List.length_singleton]
      omega
    · rfl
    · rw [quoteB_concat, List.getLast?_concat]
      rfl

theorem boolB_beq_trueB (b : Bool) : (boolB b == trueB) = b := by
  cases b <;> rfl

theorem textGetInt_dec (d : TextData) (P : Bytes) (n : Int) (hlook : dlook d P = some (intToDec n))
    (h1 : -2147483648 ≤ n) (h2 : n < 2147483648) : textGetInt d P = some n := by
  unfold textGetInt
  rw [hlook]
  show (stollOpt (intToDec n)).map llToInt = some n
  rw [stollOpt_intToDec]
  show some (llToInt n) = some n
  rw [llToInt_of_range h1 h2]

/-! Unfolding lemmas for the fuelled text deserializer. -/

theorem textDesV_step_int (fuel : Nat) (d : TextData) (node key : Bytes) (old : Value) :
    textDesV (fuel + 1) d node key .tInt old =
      match textGetChild d node key with
      | none => some old
      | some p => (textGetInt d p).map Value.vInt := rfl

theorem textDesV_step_bool (fuel : Nat) (d : TextData) (node key : Bytes) (old : Value) :
    textDesV (fuel + 1) d node key .tBool old =
      match textGetChild d node key with
      | none => some old
      | some p => some (Value.vBool (textGetBool d p)) := rfl

theorem textDesV_step_str (fuel : Nat) (d : TextData) (node key : Bytes) (old : Value) :
    textDesV (fuel + 1) d node key .tStr old =
      match textGetChild d node key with
      | none => some old
      | some p => some (Value.vStr (textGetStr d p)) := rfl

theorem textDesV_step_obj (fuel : Nat) (d : TextData) (node key : Bytes)
    (fs : List (Bytes × Ty)) (old : Value) :
    textDesV (fuel + 1) d node key (.tObj fs) old =
      match textGetChild d node key with
      | none => some old
      | some p =>
        if isObjectT d p then
          match old with
          | .vObj ovs => (textDesFields fuel d p fs ovs).map Value.vObj
          | _ => some old
        else some old := rfl

theorem textDesV_step_arr (fuel : Nat) (d : TextData) (node key : Bytes) (te : Ty)
    (old : Value) :
    textDesV (fuel + 1) d node key (.tArr te) old =
      match textGetChild d node key with
      | none => some old
      | some p =>
        if isArrayT d p then
          (getArraySizeT d p).bind (fun n => (textDesElems fuel d p te n 0).map Value.vArr)
        else some old := rfl

theorem textGetChild_found (d : TextData) (node key : Bytes) (kv : Bytes × Bytes)
    (hmem : kv ∈ d) (hb : below (childPath node key) kv.1) :
    textGetChild d node key = some (childPath node key) := by
  unfold textGetChild
  by_cases hk : key = []
  · rw [if_pos hk]
    unfold childPath
    rw [if_pos hk]
  · rw [if_neg hk]
    rw [← childPath_of_ne node hk]
    rw [childPath_of_ne node hk] at hb
    rw [← childPath_of_ne node hk] at hb
    rw [ite_cond_true _ _ (hasData_true_of_mem d _ kv hmem hb)]

theorem textGetChild_absent (d : TextData) (node key : Bytes) (hk : key ≠ [])
    (h : ∀ kv ∈ d, ¬ below (childPath node key) kv.1) :
    textGetChild d node key = none := by
  unfold textGetChild
  rw [if_neg hk]
  rw [← childPath_of_ne node hk]
  rw [ite_cond_false _ _ (hasData_false d _ h)]

theorem mem_middle {pre post : TextData} (S : TextData) {kv : Bytes × Bytes} (h : kv ∈ S) :
    kv ∈ pre ++ S ++ post := by
  rw [List.mem_append, List.mem_append]
  exact Or.inl (Or.inr h)

theorem mem_triple {pre post : TextData} {S : TextData} {kv : Bytes × Bytes}
    (h : kv ∈ pre ++ S ++ post) : kv ∈ pre ∨ kv ∈ S ∨ kv ∈ post := by
  rw [List.mem_append, List.mem_append] at h
  rcases h with (h | h) | h
  · exact Or.inl h
  · exact Or.inr (Or.inl h)
  · exact Or.inr (Or.inr h)

theorem wtV_int_range {n : Int} (h : wtV .tInt (.vInt n) = true) :
    -2147483648 ≤ n ∧ n < 2147483648 := by
  have h2 : (decide (-2147483648 ≤ n) && decide (n < 2147483648)) = true := h
  rw [Bool.and_eq_true, decide_eq_true_eq, decide_eq_true_eq] at h2
  exact h2

theorem dlook_middle (pre post : TextData) (P v : Bytes) (rest : TextData)
    (hfresh : ∀ kv ∈ pre, kv.1 ≠ P) :
    dlook (pre ++ ((P, v) :: rest) ++ post) P = some v := by
  rw [List.append_assoc]
  rw [dlook_append_of_fresh pre _ P hfresh]
  rw [List.cons_append, dlook, if_pos rfl]

theorem textDesFields_step (fuel : Nat) (d : TextData) (p f : Bytes) (t : Ty)
    (fs : List (Bytes × Ty)) (o : Value) (os : List Value) :
    textDesFields (fuel + 1) d p ((f, t) :: fs) (o :: os) =
      (textDesV fuel d p f t o).bind (fun v =>
        (textDesFields fuel d p fs os).map (fun ws => v :: ws)) := rfl

theorem textDesElems_step (fuel : Nat) (d : TextData) (p : Bytes) (te : Ty) (k i : Nat) :
    textDesElems (fuel + 1) d p te (k + 1) i =
      (textDesV fuel d (p ++ 46 :: natToDec i) [] te (defaultV te)).bind (fun v =>
        (textDesElems fuel d p te k (i + 1)).map (fun ws => v :: ws)) := rfl

theorem textDesV_obj_found (fuel : Nat) (d : TextData) (node key q : Bytes)
    (fs : List (Bytes × Ty)) (old : Value) (h : textGetChild d node key = some q) :
    textDesV (fuel + 1) d node key (.tObj fs) old =
      if isObjectT d q then
        (match old with
        | Value.vObj ovs => (textDesFields fuel d q fs ovs).map Value.vObj
        | _ => some old)
      else some old := by
  cases old <;> rw [textDesV_step_obj, h]

theorem textDesV_obj_none (fuel : Nat) (d : TextData) (node key : Bytes)
    (fs : List (Bytes × Ty)) (old : Value) (h : textGetChild d node key = none) :
    textDesV (fuel + 1) d node key (.tObj fs) old = some old := by
  cases old <;> rw [textDesV_step_obj, h]

/-! Master decode correctness for the text adapter: deserializing from the
parsed data of a serialized subtree, surrounded by entries that do not lie
below the subtree path, recovers the serialized value. -/
mutual
theorem textDes_correct : ∀ (t : Ty) (v old : Value) (fuel : Nat) (node key : Bytes)
    (pre post : TextData),
    wfTy t = true → wtV t v = true → wtV t old = true → nlFreeV v = true →
    childPath node key ≠ [] →
    (∀ kv ∈ pre, ¬ below (childPath node key) kv.1) →
    (∀ kv ∈ post, ¬ below (childPath node key) kv.1) →
    costV t v ≤ fuel →
    textDesV fuel (pre ++ pairsV (childPath node key) t v ++ post) node key t old = some v
  | .tInt, .vInt n, old, fuel, node, key, pre, post, hwf, hwt, hwto, hnl, hPne, hpre, hpost,
      hc => by
    have hrange := wtV_int_range hwt
    match fuel, hc with
    | fuel + 1, _ =>
      have hd : pairsV (childPath node key) .tInt (.vInt n)
          = [(childPath node key, intToDec n)] := rfl
      have hmem : (childPath node key, intToDec n) ∈
          pre ++ pairsV (childPath node key) .tInt (.vInt n) ++ post := by
        rw [hd]
        exact mem_middle _ (List.mem_singleton.mpr rfl)
      have hchild := textGetChild_found _ node key _ hmem (below_refl _)
      rw [textDesV_step_int, hchild]
      show (textGetInt (pre ++ pairsV (childPath node key) .tInt (.vInt n) ++ post)
          (childPath node key)).map Value.vInt = some (.vInt n)
      have hfresh : ∀ kv ∈ pre, kv.1 ≠ childPath node key := fun kv hkv hc2 =>
        hpre kv hkv (hc2 ▸ below_refl _)
      have hlook : dlook (pre ++ pairsV (childPath node key) .tInt (.vInt n) ++ post)
          (childPath node key) = some (intToDec n) := by
        rw [hd]
        exact dlook_middle pre post _ _ [] hfresh
      rw [textGetInt_dec _ _ n hlook hrange.1 hrange.2]
      rfl
  | .tBool, .vBool b, old, fuel, node, key, pre, post, hwf, hwt, hwto, hnl, hPne, hpre, hpost,
      hc => by
    match fuel, hc with
    | fuel + 1, _ =>
      have hd : pairsV (childPath node key) .tBool (.vBool b)
          = [(childPath node key, boolB b)] := rfl
      have hmem : (childPath node key, boolB b) ∈
          pre ++ pairsV (childPath node key) .tBool (.vBool b) ++ post := by
        rw [hd]
        exact mem_middle _ (List.mem_singleton.mpr rfl)
      have hchild := textGetChild_found _ node key _ hmem (below_refl _)
      rw [textDesV_step_bool, hchild]
      show some (Value.vBool (textGetBool
          (pre ++ pairsV (childPath node key) .tBool (.vBool b) ++ post)
          (childPath node key))) = some (.vBool b)
      have hfresh : ∀ kv ∈ pre, kv.1 ≠ childPath node key := fun kv hkv hc2 =>
        hpre kv hkv (hc2 ▸ below_refl _)
      have hlook : dlook (pre ++ pairsV (childPath node key) .tBool (.vBool b) ++ post)
          (childPath node key) = some (boolB b) := by
        rw [hd]
        exact dlook_middle pre post _ _ [] hfresh
      have hval : textGetBool (pre ++ pairsV (childPath node key) .tBool (.vBool b) ++ post)
          (childPath node key) = b := by
        unfold textGetBool
        rw [hlook]
        exact boolB_beq_trueB b
      rw [hval]
  | .tStr, .vStr s, old, fuel, node, key, pre, post, hwf, hwt, hwto, hnl, hPne, hpre, hpost,
      hc => by
    match fuel, hc with
    | fuel + 1, _ =>
      have hd : pairsV (childPath node key) .tStr (.vStr s)
          = [(childPath node key, quoteB s)] := rfl
      have hmem : (childPath node key, quoteB s) ∈
          pre ++ pairsV (childPath node key) .tStr (.vStr s) ++ post := by
        rw [hd]
        exact mem_middle _ (List.mem_singleton.mpr rfl)
      have hchild := textGetChild_found _ node key _ hmem (below_refl _)
      rw [textDesV_step_str, hchild]
      show some (Value.vStr (textGetStr
          (pre ++ pairsV (childPath node key) .tStr (.vStr s) ++ post)
          (childPath node key))) = some (.vStr s)
      have hfresh : ∀ kv ∈ pre, kv.1 ≠ childPath node key := fun kv hkv hc2 =>
        hpre kv hkv (hc2 ▸ below_refl _)
      have hlook : dlook (pre ++ pairsV (childPath node key) .tStr (.vStr s) ++ post)
          (childPath node key) = some (quoteB s) := by
        rw [hd]
        exact dlook_middle pre post _ _ [] hfresh
      have hval : textGetStr (pre ++ pairsV (childPath node key) .tStr (.vStr s) ++ post)
          (childPath node key) = s := by
        unfold textGetStr
        rw [hlook]
        exact unquoteB_quoteB s
      rw [hval]
  | .tObj fs, .vObj vs, old, fuel, node, key, pre, post, hwf, hwt, hwto, hnl, hPne, hpre,
      hpost, hc => by
    have hwf2 : (nodupNames fs && wfFieldTys fs) = true := hwf
    rw [Bool.and_eq_true] at hwf2
    match fuel, (by unfold costV at hc; omega : costFields fs vs + 1 ≤ fuel) with
    | fuel + 1, hc2 =>
      by_cases hvoid : voidTy (.tObj fs) = true
      · have hS : pairsV (childPath node key) (.tObj fs) (.vObj vs) = [] :=
          pairsV_void _ _ _ hvoid hwt
        have hold : old = Value.vObj vs :=
          voidTy_unique (.tObj fs) old (.vObj vs) hvoid hwto hwt
        have hnone : ∀ kv ∈ pre ++ pairsV (childPath node key) (.tObj fs) (.vObj vs) ++ post,
            ¬ below (childPath node key) kv.1 := by
          intro kv hkv
          rcases mem_triple hkv with h | h | h
          · exact hpre kv h
          · rw [hS] at h
            exact absurd h (by simp)
          · exact hpost kv h
        by_cases hkey : key = []
        · have hchild : textGetChild
              (pre ++ pairsV (childPath node key) (.tObj fs) (.vObj vs) ++ post) node key
              = some node := by
            unfold textGetChild
            rw [if_pos hkey]
          have hcp : childPath node key = node := by
            unfold childPath
            rw [if_pos hkey]
          rw [textDesV_obj_found fuel _ node key node fs old hchild]
          have hobj : isObjectT
              (pre ++ pairsV (childPath node key) (.tObj fs) (.vObj vs) ++ post) node
              = false := by
            apply isObjectT_false _ node (by rw [← hcp]; exact hPne)
            intro kv hkv
            rw [← hcp]
            exact hnone kv hkv
          rw [ite_cond_false _ _ hobj, hold]
        · have hchild : textGetChild
              (pre ++ pairsV (childPath node key) (.tObj fs) (.vObj vs) ++ post) node key
              = none := textGetChild_absent _ node key hkey hnone
          rw [textDesV_obj_none fuel _ node key fs old hchild, hold]
      · rw [Bool.not_eq_true] at hvoid
        have hSne : pairsV (childPath node key) (.tObj fs) (.vObj vs) ≠ [] :=
          pairsV_ne_nil _ _ _ hvoid hwt
        obtain ⟨k0, S2, hS⟩ : ∃ k0 S2,
            pairsV (childPath node key) (.tObj fs) (.vObj vs) = k0 :: S2 := by
          cases hS : pairsV (childPath node key) (.tObj fs) (.vObj vs) with
          | nil => exact absurd hS hSne
          | cons a b => exact ⟨a, b, rfl⟩
        have hmem0 : k0 ∈ pre ++ pairsV (childPath node key) (.tObj fs) (.vObj vs) ++ post :=
          mem_middle _ (by rw [hS]; exact List.mem_cons_self _ _)
        have hb0 : below (childPath node key) k0.1 :=
          pairsV_below _ _ _ hPne hwf k0 (by rw [hS]; exact List.mem_cons_self _ _)
        have hchild := textGetChild_found _ node key _ hmem0 hb0
        rw [textDesV_obj_found fuel _ node key (childPath node key) fs old hchild]
        have hk0S : k0 ∈ pairsFields (childPath node key) fs vs := by
          have hPF : pairsFields (childPath node key) fs vs
              = pairsV (childPath node key) (.tObj fs) (.vObj vs) := rfl
          rw [hPF, hS]
          exact List.mem_cons_self _ _
        obtain ⟨f0, t0, hft0, hbd0⟩ :=
          pairsFields_below fs vs (childPath node key) hwf2.2 k0 hk0S
        obtain ⟨r0, hr0⟩ := strict_below_of_dotJoin hPne hbd0
        have hobj := isObjectT_true_of_mem _ (childPath node key) hPne k0 hmem0 r0 hr0
        rw [ite_cond_true _ _ hobj]
        cases old with
        | vObj ovs =>
          show (textDesFields fuel
              (pre ++ pairsV (childPath node key) (.tObj fs) (.vObj vs) ++ post)
              (childPath node key) fs ovs).map Value.vObj = some (.vObj vs)
          have hpre2 : ∀ kv ∈ pre, ∀ f t, (f, t) ∈ fs →
              ¬ below (dotJoin (childPath node key) f) kv.1 :=
            fun kv hkv f t hft hb => hpre kv hkv (below_dotJoin_ext hPne hb)
          have hpost2 : ∀ kv ∈ post, ∀ f t, (f, t) ∈ fs →
              ¬ below (dotJoin (childPath node key) f) kv.1 :=
            fun kv hkv f t hft hb => hpost kv hkv (below_dotJoin_ext hPne hb)
          have hF := textDesFields_correct fs vs ovs fuel (childPath node key) pre post
            hwf2.1 hwf2.2 hwt hwto hnl hpre2 hpost2 (by omega)
          have hPF2 : pre ++ pairsV (childPath node key) (.tObj fs) (.vObj vs) ++ post
              = pre ++ pairsFields (childPath node key) fs vs ++ post := rfl
          rw [hPF2, hF]
          rfl
        | vInt m => exact Bool.noConfusion hwto
        | vBool m => exact Bool.noConfusion hwto
        | vStr m => exact Bool.noConfusion hwto
        | vArr m => exact Bool.noConfusion hwto
  | .tArr te, .vArr es, old, fuel, node, key, pre, post, hwf, hwt, hwto, hnl, hPne, hpre,
      hpost, hc => by
    match fuel, (by unfold costV at hc; omega : costElems te es + 1 ≤ fuel) with
    | fuel + 1, hc2 =>
      have hd : pairsV (childPath node key) (.tArr te) (.vArr es)
          = (countKey (childPath node key), natToDec es.length)
            :: pairsElems (childPath node key) te 0 es := rfl
      have hmemck : (countKey (childPath node key), natToDec es.length) ∈
          pre ++ pairsV (childPath node key) (.tArr te) (.vArr es) ++ post :=
        mem_middle _ (by rw [hd]; exact List.mem_cons_self _ _)
      have hchild := textGetChild_found _ node key _ hmemck (below_countKey _)
      rw [textDesV_step_arr, hchild]
      show (if isArrayT (pre ++ pairsV (childPath node key) (.tArr te) (.vArr es) ++ post)
            (childPath node key) then
          (getArraySizeT (pre ++ pairsV (childPath node key) (.tArr te) (.vArr es) ++ post)
            (childPath node key)).bind (fun n =>
            (textDesElems fuel
              (pre ++ pairsV (childPath node key) (.tArr te) (.vArr es) ++ post)
              (childPath node key) te n 0).map Value.vArr)
        else some old) = some (.vArr es)
      have hfreshck : ∀ kv ∈ pre, kv.1 ≠ countKey (childPath node key) := fun kv hkv hcc =>
        hpre kv hkv (hcc ▸ below_countKey _)
      have hlookck : dlook (pre ++ pairsV (childPath node key) (.tArr te) (.vArr es) ++ post)
          (countKey (childPath node key)) = some (natToDec es.length) := by
        rw [hd]
        exact dlook_middle pre post _ _ _ hfreshck
      have harr : isArrayT (pre ++ pairsV (childPath node key) (.tArr te) (.vArr es) ++ post)
          (childPath node key) = true := by
        unfold isArrayT
        rw [hlookck]
        rfl
      rw [ite_cond_true _ _ harr]
      have hsize : getArraySizeT
          (pre ++ pairsV (childPath node key) (.tArr te) (.vArr es) ++ post)
          (childPath node key) = some es.length := by
        unfold getArraySizeT
        rw [hlookck]
        exact stoullOpt_natToDec es.length
      rw [hsize]
      show (textDesElems fuel
          (pre ++ pairsV (childPath node key) (.tArr te) (.vArr es) ++ post)
          (childPath node key) te es.length 0).map Value.vArr = some (.vArr es)
      have hck_below : below (dotJoin (childPath node key) countLbl)
          (countKey (childPath node key)) := by
        rw [dotJoin_of_ne _ countLbl hPne]
        exact below_refl _
      have hpre2 : ∀ kv ∈ pre ++ [(countKey (childPath node key), natToDec es.length)],
          ∀ j, 0 ≤ j → j < 0 + es.length →
          ¬ below (dotJoin (childPath node key) (natToDec j)) kv.1 := by
        intro kv hkv j hj1 hj2 hb
        rcases List.mem_append.mp hkv with h | h
        · exact hpre kv h (below_dotJoin_ext hPne hb)
        · rcases List.mem_singleton.mp h with rfl
          exact below_sep (natToDec_noDot j) countLbl_noDot (natToDec_ne_countLbl j)
            hb hck_below
      have hpost2 : ∀ kv ∈ post, ∀ j, 0 ≤ j → j < 0 + es.length →
          ¬ below (dotJoin (childPath node key) (natToDec j)) kv.1 :=
        fun kv hkv j hj1 hj2 hb => hpost kv hkv (below_dotJoin_ext hPne hb)
      have hE := textDesElems_correct te es fuel (childPath node key) 0
        (pre ++ [(countKey (childPath node key), natToDec es.length)]) post
        hwf hwt hnl hPne hpre2 hpost2 (by omega)
      have hdeq : (pre ++ [(countKey (childPath node key), natToDec es.length)])
          ++ pairsElems (childPath node key) te 0 es ++ post
          = pre ++ pairsV (childPath node key) (.tArr te) (.vArr es) ++ post := by
        rw [hd]
        simp only [List.append_assoc, List.singleton_append, List.cons_append, List.nil_append]
      rw [hdeq] at hE
      rw [hE]
      rfl
  | .tInt, .vBool b, old, fuel, node, key, pre, post, hwf, hwt, hwto, hnl, hPne, hpre, hpost,
      hc => Bool.noConfusion hwt
  | .tInt, .vStr s, old, fuel, node, key, pre, post, hwf, hwt, hwto, hnl, hPne, hpre, hpost,
      hc => Bool.noConfusion hwt
  | .tInt, .vObj vs, old, fuel, node, key, pre, post, hwf, hwt, hwto, hnl, hPne, hpre, hpost,
      hc => Bool.noConfusion hwt
  | .tInt, .vArr es, old, fuel, node, key, pre, post, hwf, hwt, hwto, hnl, hPne, hpre, hpost,
      hc => Bool.noConfusion hwt
  | .tBool, .vInt n, old, fuel, node, key, pre, post, hwf, hwt, hwto, hnl, hPne, hpre, hpost,
      hc => Bool.noConfusion hwt
  | .tBool, .vStr s, old, fuel, node, key, pre, post, hwf, hwt, hwto, hnl, hPne, hpre, hpost,
      hc => Bool.noConfusion hwt
  | .tBool, .vObj vs, old, fuel, node, key, pre, post, hwf, hwt, hwto, hnl, hPne, hpre, hpost,
      hc => Bool.noConfusion hwt
  | .tBool, .vArr es, old, fuel, node, key, pre, post, hwf, hwt, hwto, hnl, hPne, hpre, hpost,
      hc => Bool.noConfusion hwt
  | .tStr, .vInt n, old, fuel, node, key, pre, post, hwf, hwt, hwto, hnl, hPne, hpre, hpost,
      hc => Bool.noConfusion hwt
  | .tStr, .vBool b, old, fuel, node, key, pre, post, hwf, hwt, hwto, hnl, hPne, hpre, hpost,
      hc => Bool.noConfusion hwt
  | .tStr, .vObj vs, old, fuel, node, key, pre, post, hwf, hwt, hwto, hnl, hPne, hpre, hpost,
      hc => Bool.noConfusion hwt
  | .tStr, .vArr es, old, fuel, node, key, pre, post, hwf, hwt, hwto, hnl, hPne, hpre, hpost,
      hc => Bool.noConfusion hwt
  | .tObj fs, .vInt n, old, fuel, node, key, pre, post, hwf, hwt, hwto, hnl, hPne, hpre,
      hpost, hc => Bool.noConfusion hwt
  | .tObj fs, .vBool b, old, fuel, node, key, pre, post, hwf, hwt, hwto, hnl, hPne, hpre,
      hpost, hc => Bool.noConfusion hwt
  | .tObj fs, .vStr s, old, fuel, node, key, pre, post, hwf, hwt, hwto, hnl, hPne, hpre,
      hpost, hc => Bool.noConfusion hwt
  | .tObj fs, .vArr es, old, fuel, node, key, pre, post, hwf, hwt, hwto, hnl, hPne, hpre,
      hpost, hc => Bool.noConfusion hwt
  | .tArr te, .vInt n, old, fuel, node, key, pre, post, hwf, hwt, hwto, hnl, hPne, hpre,
      hpost, hc => Bool.noConfusion hwt
  | .tArr te, .vBool b, old, fuel, node, key, pre, post, hwf, hwt, hwto, hnl, hPne, hpre,
      hpost, hc => Bool.noConfusion hwt
  | .tArr te, .vStr s, old, fuel, node, key, pre, post, hwf, hwt, hwto, hnl, hPne, hpre,
      hpost, hc => Bool.noConfusion hwt
  | .tArr te, .vObj vs, old, fuel, node, key, pre, post, hwf, hwt, hwto, hnl, hPne, hpre,
      hpost, hc => Bool.noConfusion hwt

theorem textDesFields_correct : ∀ (fs : List (Bytes × Ty)) (vs olds : List Value)
    (fuel : Nat) (p : Bytes) (pre post : TextData),
    nodupNames fs = true → wfFieldTys fs = true → wtFields fs vs = true →
    wtFields fs olds = true → nlFreeL vs = true →
    (∀ kv ∈ pre, ∀ f t, (f, t) ∈ fs → ¬ below (dotJoin p f) kv.1) →
    (∀ kv ∈ post, ∀ f t, (f, t) ∈ fs → ¬ below (dotJoin p f) kv.1) →
    costFields fs vs ≤ fuel →
    textDesFields fuel (pre ++ pairsFields p fs vs ++ post) p fs olds = some vs
  | [], [], [], fuel, p, pre, post, hnd, hwf, hwt, hwto, hnl, hpre, hpost, hc => by
    match fuel, hc with
    | fuel + 1, _ => rfl
  | [], [], o :: os, fuel, p, pre, post, hnd, hwf, hwt, hwto, hnl, hpre, hpost, hc =>
    Bool.noConfusion hwto
  | [], v :: vs, olds, fuel, p, pre, post, hnd, hwf, hwt, hwto, hnl, hpre, hpost, hc =>
    Bool.noConfusion hwt
  | (f, t) :: fs, [], olds, fuel, p, pre, post, hnd, hwf, hwt, hwto, hnl, hpre, hpost, hc =>
    Bool.noConfusion hwt
  | (f, t) :: fs, v :: vs, [], fuel, p, pre, post, hnd, hwf, hwt, hwto, hnl, hpre, hpost,
      hc => Bool.noConfusion hwto
  | (f, t) :: fs, v :: vs, o :: os, fuel, p, pre, post, hnd, hwf, hwt, hwto, hnl, hpre,
      hpost, hc => by
    have hwf3 : (isIdent f && wfTy t && wfFieldTys fs) = true := hwf
    rw [Bool.and_eq_true, Bool.and_eq_true] at hwf3
    obtain ⟨hfresh, hnd2⟩ := nodupNames_head hnd
    have hwt2 : (wtV t v && wtFields fs vs) = true := hwt
    have hwto2 : (wtV t o && wtFields fs os) = true := hwto
    have hnl2 : (nlFreeV v && nlFreeL vs) = true := hnl
    rw [Bool.and_eq_true] at hwt2 hwto2 hnl2
    have hfne : f ≠ [] := isIdent_ne_nil hwf3.1.1
    match fuel, (by unfold costFields at hc; omega :
        costV t v + costFields fs vs + 1 ≤ fuel) with
    | fuel + 1, hc2 =>
      rw [textDesFields_step]
      have hpreV : ∀ kv ∈ pre, ¬ below (childPath p f) kv.1 := by
        intro kv hkv hb
        rw [childPath_of_ne p hfne] at hb
        exact hpre kv hkv f t (List.mem_cons_self _ _) hb
      have hpostV : ∀ kv ∈ pairsFields p fs vs ++ post, ¬ below (childPath p f) kv.1 := by
        intro kv hkv hb
        rw [childPath_of_ne p hfne] at hb
        rcases List.mem_append.mp hkv with h | h
        · obtain ⟨g, tg, hg, hbg⟩ := pairsFields_below fs vs p hwf3.2 kv h
          have hgid := (wfFieldTys_mem hwf3.2 hg).1
          exact below_sep (isIdent_noDot hwf3.1.1) (isIdent_noDot hgid)
            (fun hcc => hfresh (g, tg) hg hcc.symm) hb hbg
        · exact hpost kv h f t (List.mem_cons_self _ _) hb
      have hV := textDes_correct t v o fuel p f pre (pairsFields p fs vs ++ post)
        hwf3.1.2 hwt2.1 hwto2.1 hnl2.1
        (by rw [childPath_of_ne p hfne]; exact dotJoin_ne_nil p hfne)
        hpreV hpostV (by omega)
      have hdeq : pre ++ pairsV (childPath p f) t v ++ (pairsFields p fs vs ++ post)
          = pre ++ pairsFields p ((f, t) :: fs) (v :: vs) ++ post := by
        show _ = pre ++ (pairsV (dotJoin p f) t v ++ pairsFields p fs vs) ++ post
        rw [childPath_of_ne p hfne]
        simp only [List.append_assoc]
      rw [hdeq] at hV
      rw [hV]
      have hpreF : ∀ kv ∈ pre ++ pairsV (dotJoin p f) t v, ∀ g tg, (g, tg) ∈ fs →
          ¬ below (dotJoin p g) kv.1 := by
        intro kv hkv g tg hg hb
        rcases List.mem_append.mp hkv with h | h
        · exact hpre kv h g tg (List.mem_cons_of_mem _ hg) hb
        · have hgid := (wfFieldTys_mem hwf3.2 hg).1
          have hbf := pairsV_below t v (dotJoin p f) (dotJoin_ne_nil p hfne) hwf3.1.2 kv h
          exact below_sep (isIdent_noDot hgid) (isIdent_noDot hwf3.1.1)
            (fun hcc => hfresh (g, tg) hg hcc) hb hbf
      have hpostF : ∀ kv ∈ post, ∀ g tg, (g, tg) ∈ fs → ¬ below (dotJoin p g) kv.1 :=
        fun kv hkv g tg hg hb => hpost kv hkv g tg (List.mem_cons_of_mem _ hg) hb
      have hF := textDesFields_correct fs vs os fuel p (pre ++ pairsV (dotJoin p f) t v)
        post hnd2 hwf3.2 hwt2.2 hwto2.2 hnl2.2 hpreF hpostF (by omega)
      have hdeq2 : (pre ++ pairsV (dotJoin p f) t v) ++ pairsFields p fs vs ++ post
          = pre ++ pairsFields p ((f, t) :: fs) (v :: vs) ++ post := by
        show _ = pre ++ (pairsV (dotJoin p f) t v ++ pairsFields p fs vs) ++ post
        simp only [List.append_assoc]
      rw [hdeq2] at hF
      rw [hF]
      rfl

theorem textDesElems_correct : ∀ (te : Ty) (es : List Value) (fuel : Nat) (p : Bytes)
    (i : Nat) (pre post : TextData),
    wfTy te = true → wtElems te es = true → nlFreeL es = true → p ≠ [] →
    (∀ kv ∈ pre, ∀ j, i ≤ j → j < i + es.length → ¬ below (dotJoin p (natToDec j)) kv.1) →
    (∀ kv ∈ post, ∀ j, i ≤ j → j < i + es.length → ¬ below (dotJoin p (natToDec j)) kv.1) →
    costElems te es ≤ fuel →
    textDesElems fuel (pre ++ pairsElems p te i es ++ post) p te es.length i = some es
  | te, [], fuel, p, i, pre, post, hwf, hwt, hnl, hp, hpre, hpost, hc => by
    match fuel, hc with
    | fuel + 1, _ => rfl
  | te, e :: es, fuel, p, i, pre, post, hwf, hwt, hnl, hp, hpre, hpost, hc => by
    have hwt2 : (wtV te e && wtElems te es) = true := hwt
    have hnl2 : (nlFreeV e && nlFreeL es) = true := hnl
    rw [Bool.and_eq_true] at hwt2 hnl2
    match fuel, (by unfold costElems at hc; omega :
        costV te e + costElems te es + 1 ≤ fuel) with
    | fuel + 1, hc2 =>
      show textDesElems (fuel + 1) (pre ++ pairsElems p te i (e :: es) ++ post) p te
        (es.length + 1) i = some (e :: es)
      rw [textDesElems_step]
      have hcp : childPath (p ++ 46 :: natToDec i) [] = p ++ 46 :: natToDec i := rfl
      have hpreV : ∀ kv ∈ pre, ¬ below (childPath (p ++ 46 :: natToDec i) []) kv.1 := by
        intro kv hkv hb
        rw [hcp, ← dotJoin_of_ne p (natToDec i) hp] at hb
        exact hpre kv hkv i (Nat.le_refl i) (by rw [List.length_cons]; omega) hb
      have hpostV : ∀ kv ∈ pairsElems p te (i + 1) es ++ post,
          ¬ below (childPath (p ++ 46 :: natToDec i) []) kv.1 := by
        intro kv hkv hb
        rw [hcp, ← dotJoin_of_ne p (natToDec i) hp] at hb
        rcases List.mem_append.mp hkv with h | h
        · obtain ⟨j, hj1, hj2, hbj⟩ := pairsElems_below te es p (i + 1) hp hwf kv h
          rw [← dotJoin_of_ne p (natToDec j) hp] at hbj
          have hij : natToDec i ≠ natToDec j := by
            intro hcc
            have := natToDec_injective hcc
            omega
          exact below_sep (natToDec_noDot i) (natToDec_noDot j) hij hb hbj
        · exact hpost kv h i (Nat.le_refl i) (by rw [List.length_cons]; omega) hb
      have hV := textDes_correct te e (defaultV te) fuel (p ++ 46 :: natToDec i) [] pre
        (pairsElems p te (i + 1) es ++ post) hwf hwt2.1 (wtV_defaultV te) hnl2.1
        (by rw [hcp]; simp) hpreV hpostV (by omega)
      have hdeq : pre ++ pairsV (childPath (p ++ 46 :: natToDec i) []) te e
          ++ (pairsElems p te (i + 1) es ++ post)
          = pre ++ pairsElems p te i (e :: es) ++ post := by
        rw [hcp]
        show _ = pre ++ (pairsV (p ++ 46 :: natToDec i) te e
          ++ pairsElems p te (i + 1) es) ++ post
        simp only [List.append_assoc]
      rw [hdeq] at hV
      rw [hV]
      have hpreE : ∀ kv ∈ pre ++ pairsV (p ++ 46 :: natToDec i) te e, ∀ j, i + 1 ≤ j →
          j < i + 1 + es.length → ¬ below (dotJoin p (natToDec j)) kv.1 := by
        intro kv hkv j hj1 hj2 hb
        rcases List.mem_append.mp hkv with h | h
        · exact hpre kv h j (by omega) (by rw [List.length_cons]; omega) hb
        · have hbi := pairsV_below te e (p ++ 46 :: natToDec i) (by simp) hwf kv h
          rw [← dotJoin_of_ne p (natToDec i) hp] at hbi
          have hij : natToDec j ≠ natToDec i := by
            intro hcc
            have := natToDec_injective hcc
            omega
          exact below_sep (natToDec_noDot j) (natToDec_noDot i) hij hb hbi
      have hpostE : ∀ kv ∈ post, ∀ j, i + 1 ≤ j → j < i + 1 + es.length →
          ¬ below (dotJoin p (natToDec j)) kv.1 :=
        fun kv hkv j hj1 hj2 hb =>
          hpost kv hkv j (by omega) (by rw [List.length_cons]; omega) hb
      have hE := textDesElems_correct te es fuel p (i + 1)
        (pre ++ pairsV (p ++ 46 :: natToDec i) te e) post
        hwf hwt2.2 hnl2.2 hp hpreE hpostE (by omega)
      have hdeq2 : (pre ++ pairsV (p ++ 46 :: natToDec i) te e)
          ++ pairsElems p te (i + 1) es ++ post
          = pre ++ pairsElems p te i (e :: es) ++ post := by
        show _ = pre ++ (pairsV (p ++ 46 :: natToDec i) te e
          ++ pairsElems p te (i + 1) es) ++ post
        simp only [List.append_assoc]
      rw [hdeq2] at hE
      rw [hE]
      rfl
end

/-- End-to-end text round trip: serializing a well-typed, newline-free
document with the text adapter and deserializing the streamed output over any
well-typed prior instance recovers every field of the original. -/
theorem textRoundTrip (fs : List (Bytes × Ty)) (vs olds : List Value) (fuel : Nat)
    (hnd : nodupNames fs = true) (hwf : wfFieldTys fs = true)
    (hwt : wtFields fs vs = true) (hwto : wtFields fs olds = true)
    (hnl : nlFreeL vs = true) (hc : costFields fs vs ≤ fuel) :
    textDesTop fuel fs olds (flattenLines (textSerTop fs vs).lines) = some vs := by
  rw [textSerTop_lines fs vs hwf]
  show textDesFields fuel
    (parseTextDoc (flattenLines ((pairsFields [] fs vs).map (fun kv => lineOf kv.1 kv.2))))
    [] fs olds = some vs
  rw [parseTextDoc_flatten _
    (pairsFields_ok fs vs [] hwf hnl (fun b hb => absurd hb (List.not_mem_nil b)))
    (pairsFields_pairwise fs vs [] hnd hwf)]
  have h := textDesFields_correct fs vs olds fuel [] [] [] hnd hwf hwt hwto hnl
    (fun kv hkv => absurd hkv (List.not_mem_nil kv))
    (fun kv hkv => absurd hkv (List.not_mem_nil kv)) hc
  rw [List.nil_append, List.append_nil] at h
  exact h

/-! ### Part E: the lazy-JSON adapter (json_lazy.h)

Characters of std::string are modeled as byte values 0..255.  The C++
comparison `ch < 32` is on a signed char, so it holds exactly when the byte
value is below 32 or at least 128. -/

/-- Lowercase hexadecimal digit, as emitted by snprintf %04x. -/
def hexDig (d : Nat) : Nat := if d < 10 then 48 + d else 87 + d

/-- LazyJson::escapeJsonString, per input character: named escapes for the
seven special characters, a \u00xx hex escape when `ch < 32` as signed char,
the raw character otherwise.  A byte below 256 always yields 00xx because
snprintf receives it through static_cast to unsigned char. -/
def escChar (b : Nat) : Bytes :=
  if b = 34 then [92, 34]
  else if b = 92 then [92, 92]
  else if b = 8 then [92, 98]
  else if b = 12 then [92, 102]
  else if b = 10 then [92, 110]
  else if b = 13 then [92, 114]
  else if b = 9 then [92, 116]
  else if b < 32 ∨ 128 ≤ b then [92, 117, 48, 48, hexDig (b / 16), hexDig (b % 16)]
  else [b]

def escapeJsonString : Bytes → Bytes
  | [] => []
  | b :: rest => escChar b ++ escapeJsonString rest

/-- Value of one hexadecimal digit character. -/
def hexDigVal (b : Nat) : Option Nat :=
  if 48 ≤ b ∧ b ≤ 57 then some (b - 48)
  else if 97 ≤ b ∧ b ≤ 102 then some (b - 87)
  else if 65 ≤ b ∧ b ≤ 70 then some (b - 55)
  else none

def stoul16Aux : Bytes → Nat → Nat
  | [], acc => acc
  | b :: rest, acc =>
    match hexDigVal b with
    | some d => stoul16Aux rest (acc * 16 + d)
    | none => acc

/-- std::stoul with base 16 on the four-character substring passed by
unescapeJsonString: the longest hexadecimal prefix is converted, and an input
with no leading hexadecimal digit makes the call throw std::invalid_argument,
modeled as none.  (The call sites only ever pass four-character substrings,
so stoul handling of leading whitespace, signs and 0x prefixes is omitted.) -/
def stoul16 : Bytes → Option Nat
  | [] => none
  | b :: rest =>
    match hexDigVal b with
    | some d => some (stoul16Aux rest d)
    | none => none

/-- LazyJson::unescapeJsonString, one fuel unit per loop iteration (each
iteration consumes at least one input byte, so any fuel above the input
length is enough and the fuel bound is never the source of a none).  The
result is an Option: none models the std::stoul exception escaping from the
\\u branch, which the function does not catch.  static_cast of the converted
value to char keeps its low byte.  When the backslash is not followed by a
recognized escape (or a \\u sequence is cut short), the loop emits the
backslash alone and reprocesses the following character; since that character
is not itself a backslash in those branches, its iteration is inlined. -/
def unescF : Nat → Bytes → Option Bytes
  | 0, _ => none
  | fuel + 1, s =>
    match s with
    | [] => some []
    | b :: rest =>
      if b = 92 then
        match rest with
        | [] => some [92]
        | c :: rest2 =>
          if c = 34 then (unescF fuel rest2).map (fun r => 34 :: r)
          else if c = 92 then (unescF fuel rest2).map (fun r => 92 :: r)
          else if c = 47 then (unescF fuel rest2).map (fun r => 47 :: r)
          else if c = 98 then (unescF fuel rest2).map (fun r => 8 :: r)
          else if c = 102 then (unescF fuel rest2).map (fun r => 12 :: r)
          else if c = 110 then (unescF fuel rest2).map (fun r => 10 :: r)
          else if c = 114 then (unescF fuel rest2).map (fun r => 13 :: r)
          else if c = 116 then (unescF fuel rest2).map (fun r => 9 :: r)
          else if c = 117 then
            match rest2 with
            | h1 :: h2 :: h3 :: h4 :: rest3 =>
              (stoul16 [h1, h2, h3, h4]).bind
                (fun n => (unescF fuel rest3).map (fun r => n % 256 :: r))
            | rest2x =>
              (unescF fuel rest2x).map (fun r => 92 :: 117 :: r)
          else (unescF fuel rest2).map (fun r => 92 :: c :: r)
      else (unescF fuel rest).map (fun r => b :: r)

def unescapeJsonString (s : Bytes) : Option Bytes := unescF (s.length + 1) s

theorem hexDigVal_hexDig (d : Nat) (hd : d < 16) : hexDigVal (hexDig d) = some d := by
  unfold hexDig
  rcases Nat.lt_or_ge d 10 with h | h
  · rw [if_pos h]
    unfold hexDigVal
    rw [if_pos (show 48 ≤ 48 + d ∧ 48 + d ≤ 57 by omega)]
    congr 1
    omega
  · rw [if_neg (show ¬ d < 10 by omega)]
    unfold hexDigVal
    rw [if_neg (show ¬ (48 ≤ 87 + d ∧ 87 + d ≤ 57) by omega),
      if_pos (show 97 ≤ 87 + d ∧ 87 + d ≤ 102 by omega)]
    congr 1
    omega

theorem stoul16Aux_cons (x d : Nat) (rest : Bytes) (acc : Nat)
    (h : hexDigVal x = some d) :
    stoul16Aux (x :: rest) acc = stoul16Aux rest (acc * 16 + d) := by
  show (match hexDigVal x with
    | some e => stoul16Aux rest (acc * 16 + e)
    | none => acc) = stoul16Aux rest (acc * 16 + d)
  rw [h]

theorem stoul16_hex4 (b : Nat) (hb : b < 256) :
    stoul16 [48, 48, hexDig (b / 16), hexDig (b % 16)] = some b := by
  have h3 := hexDigVal_hexDig (b / 16) (by omega)
  have h4 := hexDigVal_hexDig (b % 16) (by omega)
  show some (stoul16Aux [48, hexDig (b / 16), hexDig (b % 16)] 0) = some b
  rw [stoul16Aux_cons 48 0 _ 0 rfl, stoul16Aux_cons _ _ _ _ h3,
    stoul16Aux_cons _ _ _ _ h4]
  show some ((((0 * 16 + 0) * 16 + b / 16) * 16 + b % 16)) = some b
  exact congrArg some (by omega)

theorem unescF_escChar (b : Nat) (hb : b < 256) (rest : Bytes) (fuel : Nat) :
    unescF (fuel + 1) (escChar b ++ rest)
      = (unescF fuel rest).map (fun r => b :: r) := by
  by_cases h34 : b = 34
  · subst h34
    rfl
  by_cases h92 : b = 92
  · subst h92
    rfl
  by_cases h8 : b = 8
  · subst h8
    rfl
  by_cases h12 : b = 12
  · subst h12
    rfl
  by_cases h10 : b = 10
  · subst h10
    rfl
  by_cases h13 : b = 13
  · subst h13
    rfl
  by_cases h9 : b = 9
  · subst h9
    rfl
  by_cases hcond : b < 32 ∨ 128 ≤ b
  · have hesc : escChar b = [92, 117, 48, 48, hexDig (b / 16), hexDig (b % 16)] := by
      unfold escChar
      rw [if_neg h34, if_neg h92, if_neg h8, if_neg h12, if_neg h10, if_neg h13,
        if_neg h9, if_pos hcond]
    rw [hesc]
    show (stoul16 [48, 48, hexDig (b / 16), hexDig (b % 16)]).bind
      (fun n => (unescF fuel rest).map (fun r => n % 256 :: r))
      = (unescF fuel rest).map (fun r => b :: r)
    rw [stoul16_hex4 b hb]
    show (unescF fuel rest).map (fun r => b % 256 :: r)
      = (unescF fuel rest).map (fun r => b :: r)
    rw [Nat.mod_eq_of_lt hb]
  · have hesc : escChar b = [b] := by
      unfold escChar
      rw [if_neg h34, if_neg h92, if_neg h8, if_neg h12, if_neg h10, if_neg h13,
        if_neg h9, if_neg hcond]
    rw [hesc]
    show (if b = 92 then
        (match ([] : Bytes) ++ rest with
        | [] => some [92]
        | c :: rest2 =>
          if c = 34 then (unescF fuel rest2).map (fun r => 34 :: r)
          else if c = 92 then (unescF fuel rest2).map (fun r => 92 :: r)
          else if c = 47 then (unescF fuel rest2).map (fun r => 47 :: r)
          else if c = 98 then (unescF fuel rest2).map (fun r => 8 :: r)
          else if c = 102 then (unescF fuel rest2).map (fun r => 12 :: r)
          else if c = 110 then (unescF fuel rest2).map (fun r => 10 :: r)
          else if c = 114 then (unescF fuel rest2).map (fun r => 13 :: r)
          else if c = 116 then (unescF fuel rest2).map (fun r => 9 :: r)
          else if c = 117 then
            match rest2 with
            | h1 :: h2 :: h3 :: h4 :: rest3 =>
              (stoul16 [h1, h2, h3, h4]).bind
                (fun n => (unescF fuel rest3).map (fun r => n % 256 :: r))
            | rest2x =>
              (unescF fuel rest2x).map (fun r => 92 :: 117 :: r)
          else (unescF fuel rest2).map (fun r => 92 :: c :: r))
      else (unescF fuel rest).map (fun r => b :: r))
      = (unescF fuel rest).map (fun r => b :: r)
    rw [if_neg h92]

theorem escChar_length_pos (b : Nat) : 0 < (escChar b).length := by
  unfold escChar
  repeat' split
  all_goals simp

theorem escape_length (s : Bytes) : s.length ≤ (escapeJsonString s).length := by
  induction s with
  | nil => simp [escapeJsonString]
  | cons b rest ih =>
    show rest.length + 1 ≤ (escChar b ++ escapeJsonString rest).length
    rw [List.length_append]
    have := escChar_length_pos b
    omega

theorem unescF_escape : ∀ (s : Bytes) (fuel : Nat), (∀ b ∈ s, b < 256) →
    s.length ≤ fuel → unescF (fuel + 1) (escapeJsonString s) = some s
  | [], fuel, hs, hf => rfl
  | b :: rest, fuel, hs, hf => by
    show unescF (fuel + 1) (escChar b ++ escapeJsonString rest) = some (b :: rest)
    rw [unescF_escChar b (hs b (List.mem_cons_self _ _)) _ fuel]
    obtain ⟨f2, rfl⟩ : ∃ f2, fuel = f2 + 1 := by
      refine ⟨fuel - 1, ?_⟩
      have : rest.length + 1 ≤ fuel := by simpa using hf
      omega
    have hlen : rest.length ≤ f2 := by
      have h2 : rest.length + 1 ≤ f2 + 1 := by simpa using hf
      omega
    rw [unescF_escape rest f2 (fun x hx => hs x (List.mem_cons_of_mem _ hx)) hlen]
    rfl

/-- Escape and unescape round trip: every byte string survives
escapeJsonString followed by unescapeJsonString, in particular the unescape
never hits its exception path on escaped output. -/
theorem escape_unescape (s : Bytes) (hs : ∀ b ∈ s, b < 256) :
    unescapeJsonString (escapeJsonString s) = some s := by
  unfold unescapeJsonString
  exact unescF_escape s (escapeJsonString s).length hs (escape_length s)

/-! JSON value trees (LazyJson::JsonValue).  objectChildren is an
unordered_map in the C++; it is modeled as an association list in insertion
order.  Its C++ iteration order is unspecified, but every read goes through
a key lookup, so nothing proved below depends on the order. -/

inductive JTy where
  | jNull
  | jString
  | jNumber
  | jBool
  | jObject
  | jArray

inductive Jv where
  | mk (ty : JTy) (raw : Bytes) (obj : List (Bytes × Jv)) (arr : List Jv)

/-! Tree produced by serializing a value, following the mutation protocol of
Serializer: addChild inserts the field keys in declaration order;
setValue on a primitive sets the type tag and the raw text (std::to_string
for numbers, true/false for bools, the escaped text in quotes for strings);
Serializer for a nested Serializable calls setObject on the child before
recursing; Serializer for a vector calls setArray and then addArrayElement
once per element, appending in order.  The root node is constructed as an
Object by the serializing LazyJson constructor. -/
mutual
def jSerV : Ty → Value → Jv
  | .tInt, .vInt n => .mk .jNumber (intToDec n) [] []
  | .tBool, .vBool b => .mk .jBool (boolB b) [] []
  | .tStr, .vStr s => .mk .jString (34 :: (escapeJsonString s ++ [34])) [] []
  | .tObj fs, .vObj vs => .mk .jObject [] (jSerFields fs vs) []
  | .tArr t, .vArr es => .mk .jArray [] [] (jSerElems t es)
  | _, _ => .mk .jNull [] [] []

def jSerFields : List (Bytes × Ty) → List Value → List (Bytes × Jv)
  | (f, t) :: fs, v :: vs => (f, jSerV t v) :: jSerFields fs vs
  | _, _ => []

def jSerElems (t : Ty) : List Value → List Jv
  | [] => []
  | e :: es => jSerV t e :: jSerElems t es
end

def jSerTop (fs : List (Bytes × Ty)) (vs : List Value) : Jv :=
  .mk .jObject [] (jSerFields fs vs) []

/-! LazyJson::valueToJsonString: compact rendering, comma separated, object
entries as quoted escaped key, colon, value. -/
mutual
def valueToJsonString : Jv → Bytes
  | .mk .jNull _ _ _ => [110, 117, 108, 108]
  | .mk .jBool raw _ _ => raw
  | .mk .jNumber raw _ _ => raw
  | .mk .jString raw _ _ => raw
  | .mk .jArray _ _ arr => 91 :: (jArrBody arr ++ [93])
  | .mk .jObject _ obj _ => 123 :: (jObjBody obj ++ [125])

def jArrBody : List Jv → Bytes
  | [] => []
  | [x] => valueToJsonString x
  | x :: xs => valueToJsonString x ++ 44 :: jArrBody xs

def jObjBody : List (Bytes × Jv) → Bytes
  | [] => []
  | [(k, v)] => 34 :: (escapeJsonString k ++ 34 :: 58 :: valueToJsonString v)
  | (k, v) :: kvs =>
    (34 :: (escapeJsonString k ++ 34 :: 58 :: valueToJsonString v)) ++ 44 :: jObjBody kvs
end

/-! JsonParser.  Position state is modeled by passing the remaining input;
the rawValue of a scalar node is the consumed prefix.  parseArray and
parseObject loop until a break, one fuel unit per parseValue entry and per
loop iteration. -/

def skipWs (s : Bytes) : Bytes := s.dropWhile isSpaceB

/-- Body scan of JsonParser::parseString after the opening quote: consume
until an unescaped quote or the end, a backslash always consuming the
following character with it.  One fuel unit per loop iteration; every
iteration consumes at least one byte, so any fuel above the input length is
enough and the wrapper below supplies it. -/
def strScanF : Nat → Bytes → Bytes × Bytes
  | 0, s => ([], s)
  | _ + 1, [] => ([], [])
  | fuel + 1, c :: rest =>
    if c = 34 then ([], c :: rest)
    else if c = 92 then
      match rest with
      | [] => ([92], [])
      | c2 :: rest2 => (92 :: c2 :: (strScanF fuel rest2).1, (strScanF fuel rest2).2)
    else (c :: (strScanF fuel rest).1, (strScanF fuel rest).2)

def strScan (s : Bytes) : Bytes × Bytes := strScanF (s.length + 1) s

def parseNull (s : Bytes) : Jv × Bytes :=
  if s.take 4 = [110, 117, 108, 108] then
    (.mk .jNull [110, 117, 108, 108] [] [], s.drop 4)
  else (.mk .jNull [] [] [], s)

def parseBool (s : Bytes) : Jv × Bytes :=
  if s.take 4 = [116, 114, 117, 101] then
    (.mk .jBool [116, 114, 117, 101] [] [], s.drop 4)
  else if s.take 5 = [102, 97, 108, 115, 101] then
    (.mk .jBool [102, 97, 108, 115, 101] [] [], s.drop 5)
  else (.mk .jBool [] [] [], s)

def parseString (s : Bytes) : Jv × Bytes :=
  match s with
  | 34 :: rest =>
    let p := strScan rest
    match p.2 with
    | 34 :: r2 => (.mk .jString (34 :: (p.1 ++ [34])) [] [], r2)
    | r2 => (.mk .jString (34 :: p.1) [] [], r2)
  | _ => (.mk .jString [] [] [], s)

/-- JsonParser::parseNumber: optional minus, then at least one digit, then
optional fraction and exponent; the raw value is everything consumed.
currentChar() on exhausted input is the NUL byte, modeled by getD 0.  The
successive scanning phases of the C++ function body (sign, integer part,
fraction, exponent) are split into one helper each. -/
def parseNumExpSign (sgn ip fp : Bytes) (e : Nat) (r : Bytes) : Jv × Bytes :=
  if (r.head? == some 43) || (r.head? == some 45) then
    (.mk .jNumber
      (sgn ++ (ip ++ (fp ++ (e :: r.head?.getD 0 :: r.tail.takeWhile isDigitB)))) [] [],
      r.tail.dropWhile isDigitB)
  else
    (.mk .jNumber (sgn ++ (ip ++ (fp ++ (e :: r.takeWhile isDigitB)))) [] [],
      r.dropWhile isDigitB)

def parseNumExp (sgn ip fp : Bytes) (s3 : Bytes) : Jv × Bytes :=
  if (s3.head? == some 101) || (s3.head? == some 69) then
    parseNumExpSign sgn ip fp (s3.head?.getD 0) s3.tail
  else (.mk .jNumber (sgn ++ (ip ++ fp)) [] [], s3)

def parseNumFrac (sgn ip : Bytes) (s2 : Bytes) : Jv × Bytes :=
  if s2.head? == some 46 then
    parseNumExp sgn ip (46 :: s2.tail.takeWhile isDigitB) (s2.tail.dropWhile isDigitB)
  else parseNumExp sgn ip [] s2

def parseNumAfterSign (sgn : Bytes) (s1 : Bytes) : Jv × Bytes :=
  if isDigitB (s1.head?.getD 0) = false then (.mk .jNumber sgn [] [], s1)
  else parseNumFrac sgn (s1.takeWhile isDigitB) (s1.dropWhile isDigitB)

def parseNumber (s : Bytes) : Jv × Bytes :=
  if s.head? == some 45 then parseNumAfterSign [45] s.tail
  else parseNumAfterSign [] s

/-- Key extraction in JsonParser::parseObject: simple unquoting of the raw
string value, with no unescaping. -/
def jKeyOf : Jv → Bytes
  | .mk _ raw _ _ =>
    if raw.length ≥ 2 ∧ raw.head? = some 34 ∧ raw.getLast? = some 34 then
      (raw.drop 1).dropLast
    else raw

/-- objectChildren[key] = value on the unordered_map: replace an existing
entry for the key, otherwise insert. -/
def jStore : List (Bytes × Jv) → Bytes → Jv → List (Bytes × Jv)
  | [], k, v => [(k, v)]
  | (k0, v0) :: r, k, v => if k0 = k then (k0, v) :: r else (k0, v0) :: jStore r k v

mutual
def parseValue : Nat → Bytes → Jv × Bytes
  | 0, s => (.mk .jNull [] [] [], s)
  | fuel + 1, s =>
    let s1 := skipWs s
    if s1.head? == some 110 then parseNull s1
    else if (s1.head? == some 116) || (s1.head? == some 102) then parseBool s1
    else if s1.head? == some 34 then parseString s1
    else if s1.head? == some 91 then parseArray fuel s1
    else if s1.head? == some 123 then parseObject fuel s1
    else if (s1.head? == some 45) || isDigitB (s1.head?.getD 0) then parseNumber s1
    else (.mk .jNull [] [] [], s1)

def parseArray : Nat → Bytes → Jv × Bytes
  | 0, s => (.mk .jArray [] [] [], s)
  | fuel + 1, s =>
    if s.head? == some 91 then
      let r1 := skipWs s.tail
      if r1.head? == some 93 then (.mk .jArray [] [] [], r1.tail)
      else parseArrayLoop fuel r1 []
    else (.mk .jArray [] [] [], s)

def parseArrayLoop : Nat → Bytes → List Jv → Jv × Bytes
  | 0, s, acc => (.mk .jArray [] [] acc, s)
  | fuel + 1, s, acc =>
    let p := parseValue fuel s
    let r3 := skipWs p.2
    if r3.head? == some 93 then (.mk .jArray [] [] (acc ++ [p.1]), r3.tail)
    else if r3.head? == some 44 then parseArrayLoop fuel (skipWs r3.tail) (acc ++ [p.1])
    else (.mk .jArray [] [] (acc ++ [p.1]), r3)

def parseObject : Nat → Bytes → Jv × Bytes
  | 0, s => (.mk .jObject [] [] [], s)
  | fuel + 1, s =>
    if s.head? == some 123 then
      let r1 := skipWs s.tail
      if r1.head? == some 125 then (.mk .jObject [] [] [], r1.tail)
      else parseObjLoop fuel r1 []
    else (.mk .jObject [] [] [], s)

/-- Key/value loop of parseObject.  The C++ break on a non-String key node
never fires because parseString always tags its node String, so it is not
modeled. -/
def parseObjLoop : Nat → Bytes → List (Bytes × Jv) → Jv × Bytes
  | 0, s, acc => (.mk .jObject [] acc [], s)
  | fuel + 1, s, acc =>
    let s1 := skipWs s
    let pk := parseString s1
    let key := jKeyOf pk.1
    let s3 := skipWs pk.2
    if s3.head? == some 58 then
      let pv := parseValue fuel s3.tail
      let s6 := skipWs pv.2
      if s6.head? == some 125 then (.mk .jObject [] (jStore acc key pv.1) [], s6.tail)
      else if s6.head? == some 44 then parseObjLoop fuel s6.tail (jStore acc key pv.1)
      else (.mk .jObject [] (jStore acc key pv.1) [], s6)
    else (.mk .jObject [] acc [], s3)
end

def parseJsonToTree (fuel : Nat) (s : Bytes) : Jv := (parseValue fuel (skipWs s)).1

/-! Adapter read operations of LazyJson (deserialization side).  A NodeType
pointer is an Option Jv, none being nullptr; srcEmpty is sourceJson_.empty(),
i.e. isSerializing(). -/

def jlook : List (Bytes × Jv) → Bytes → Option Jv
  | [], _ => none
  | (k, v) :: r, q => if k = q then some v else jlook r q

def jGetChild (srcEmpty : Bool) (node : Option Jv) (key : Bytes) : Option Jv :=
  if key = [] then node
  else
    match node with
    | none => none
    | some nd =>
      if srcEmpty then none
      else
        match nd with
        | .mk .jObject _ obj _ => jlook obj key
        | _ => none

def isJObject : Option Jv → Bool
  | some (.mk .jObject _ _ _) => true
  | _ => false

def isJArray : Option Jv → Bool
  | some (.mk .jArray _ _ _) => true
  | _ => false

def jGetArraySize (srcEmpty : Bool) : Option Jv → Nat
  | some (.mk .jArray _ _ arr) => if srcEmpty then 0 else arr.length
  | _ => 0

def jGetArrayElement (srcEmpty : Bool) (node : Option Jv) (i : Nat) : Option Jv :=
  match node with
  | some (.mk .jArray _ _ arr) => if srcEmpty then none else arr.get? i
  | _ => none

/-- getValue of std::string: unescape the quote-stripped raw value of a
String node, empty string on a type or shape mismatch; the none of the
unescape (its uncaught exception) propagates. -/
def jGetStr : Jv → Option Bytes
  | .mk .jString raw _ _ =>
    if raw.length ≥ 2 ∧ raw.head? = some 34 ∧ raw.getLast? = some 34 then
      unescapeJsonString ((raw.drop 1).dropLast)
    else some []
  | _ => some []

def jGetBool : Jv → Bool
  | .mk .jBool raw _ _ => raw == trueB
  | _ => false

/-- getValue of int: std::stoll on the raw value of a Number node, the
result cast to int; a conversion failure is caught and yields 0, as does a
type mismatch. -/
def jGetInt : Jv → Int
  | .mk .jNumber raw _ _ =>
    (match stollOpt raw with
    | some n => llToInt n
    | none => 0)
  | _ => 0

/-! Deserialization of a registered field list through the lazy-JSON
adapter, mirroring the Serializer specializations: a missing child leaves
the old value, a nested object requires isObject, a sequence requires
isArray and is rebuilt from scratch at the reported size with
default-initialized slots. -/
mutual
def jDesV : Nat → Bool → Option Jv → Bytes → Ty → Value → Option Value
  | 0, _, _, _, _, _ => none
  | fuel + 1, srcEmpty, node, key, t, old =>
    match t with
    | .tInt =>
      match jGetChild srcEmpty node key with
      | none => some old
      | some child => some (.vInt (jGetInt child))
    | .tBool =>
      match jGetChild srcEmpty node key with
      | none => some old
      | some child => some (.vBool (jGetBool child))
    | .tStr =>
      match jGetChild srcEmpty node key with
      | none => some old
      | some child => (jGetStr child).map Value.vStr
    | .tObj fs =>
      match jGetChild srcEmpty node key with
      | none => some old
      | some child =>
        if isJObject (some child) then
          match old with
          | .vObj ovs => (jDesFields fuel srcEmpty child fs ovs).map Value.vObj
          | _ => some old
        else some old
    | .tArr te =>
      match jGetChild srcEmpty node key with
      | none => some old
      | some child =>
        if isJArray (some child) then
          (jDesElems fuel srcEmpty child te (jGetArraySize srcEmpty (some child)) 0).map
            Value.vArr
        else some old

def jDesFields : Nat → Bool → Jv → List (Bytes × Ty) → List Value → Option (List Value)
  | 0, _, _, _, _ => none
  | fuel + 1, srcEmpty, nd, fields, olds =>
    match fields, olds with
    | [], [] => some []
    | (f, t) :: fs, o :: os =>
      (jDesV fuel srcEmpty (some nd) f t o).bind (fun v =>
        (jDesFields fuel srcEmpty nd fs os).map (fun ws => v :: ws))
    | _, _ => none

def jDesElems : Nat → Bool → Jv → Ty → Nat → Nat → Option (List Value)
  | 0, _, _, _, _, _ => none
  | _ + 1, _, _, _, 0, _ => some []
  | fuel + 1, srcEmpty, nd, te, k + 1, i =>
    (jDesV fuel srcEmpty (jGetArrayElement srcEmpty (some nd) i) [] te (defaultV te)).bind
      (fun v => (jDesElems fuel srcEmpty nd te k (i + 1)).map (fun ws => v :: ws))
end

/-- Whole-document deserialize through the lazy-JSON adapter: an empty
stream leaves a fresh Object root and puts the adapter in serializing mode
(sourceJson_ empty), otherwise the source is parsed; then the registered
fields are read against the root. -/
def jDesTop (fuel : Nat) (fs : List (Bytes × Ty)) (olds : List Value) (s : Bytes) :
    Option (List Value) :=
  jDesFields fuel s.isEmpty
    (if s.isEmpty then Jv.mk .jObject [] [] [] else parseJsonToTree fuel s) fs olds

/-! Decode correctness of the lazy-JSON read path on serialized trees. -/

theorem jlook_middle (pre rest : List (Bytes × Jv)) (k : Bytes) (x : Jv)
    (h : ∀ kv ∈ pre, kv.1 ≠ k) :
    jlook (pre ++ (k, x) :: rest) k = some x := by
  induction pre with
  | nil => simp [jlook]
  | cons kv0 r ih =>
    obtain ⟨k0, v0⟩ := kv0
    show jlook ((k0, v0) :: (r ++ (k, x) :: rest)) k = some x
    unfold jlook
    rw [if_neg (h (k0, v0) (List.mem_cons_self _ _))]
    exact ih (fun kv hkv => h kv (List.mem_cons_of_mem _ hkv))

theorem jSerElems_length (te : Ty) : ∀ es : List Value, (jSerElems te es).length = es.length
  | [] => rfl
  | e :: es => by
    show (jSerElems te es).length + 1 = es.length + 1
    rw [jSerElems_length te es]

theorem jDesV_step_int (fuel : Nat) (se : Bool) (node : Option Jv) (key : Bytes)
    (old : Value) :
    jDesV (fuel + 1) se node key .tInt old =
      match jGetChild se node key with
      | none => some old
      | some child => some (.vInt (jGetInt child)) := rfl

theorem jDesV_step_bool (fuel : Nat) (se : Bool) (node : Option Jv) (key : Bytes)
    (old : Value) :
    jDesV (fuel + 1) se node key .tBool old =
      match jGetChild se node key with
      | none => some old
      | some child => some (.vBool (jGetBool child)) := rfl

theorem jDesV_step_str (fuel : Nat) (se : Bool) (node : Option Jv) (key : Bytes)
    (old : Value) :
    jDesV (fuel + 1) se node key .tStr old =
      match jGetChild se node key with
      | none => some old
      | some child => (jGetStr child).map Value.vStr := rfl

theorem jDesV_step_obj (fuel : Nat) (se : Bool) (node : Option Jv) (key : Bytes)
    (fs : List (Bytes × Ty)) (old : Value) :
    jDesV (fuel + 1) se node key (.tObj fs) old =
      match jGetChild se node key with
      | none => some old
      | some child =>
        if isJObject (some child) then
          match old with
          | .vObj ovs => (jDesFields fuel se child fs ovs).map Value.vObj
          | _ => some old
        else some old := rfl

theorem jDesV_step_arr (fuel : Nat) (se : Bool) (node : Option Jv) (key : Bytes)
    (te : Ty) (old : Value) :
    jDesV (fuel + 1) se node key (.tArr te) old =
      match jGetChild se node key with
      | none => some old
      | some child =>
        if isJArray (some child) then
          (jDesElems fuel se child te (jGetArraySize se (some child)) 0).map Value.vArr
        else some old := rfl

theorem jDesV_obj_found (fuel : Nat) (se : Bool) (node : Option Jv) (key : Bytes)
    (q : Jv) (fs : List (Bytes × Ty)) (old : Value) (h : jGetChild se node key = some q) :
    jDesV (fuel + 1) se node key (.tObj fs) old =
      if isJObject (some q) then
        (match old with
        | .vObj ovs => (jDesFields fuel se q fs ovs).map Value.vObj
        | _ => some old)
      else some old := by
  cases old <;> rw [jDesV_step_obj, h]

theorem jDesFields_step (fuel : Nat) (se : Bool) (nd : Jv) (f : Bytes) (t : Ty)
    (fs : List (Bytes × Ty)) (o : Value) (os : List Value) :
    jDesFields (fuel + 1) se nd ((f, t) :: fs) (o :: os) =
      (jDesV fuel se (some nd) f t o).bind (fun v =>
        (jDesFields fuel se nd fs os).map (fun ws => v :: ws)) := rfl

theorem jDesElems_step (fuel : Nat) (se : Bool) (nd : Jv) (te : Ty) (k i : Nat) :
    jDesElems (fuel + 1) se nd te (k + 1) i =
      (jDesV fuel se (jGetArrayElement se (some nd) i) [] te (defaultV te)).bind
        (fun v => (jDesElems fuel se nd te k (i + 1)).map (fun ws => v :: ws)) := rfl

theorem jGetChild_obj (raw : Bytes) (kvs : List (Bytes × Jv)) (arr : List Jv)
    (f : Bytes) (hf : f ≠ []) :
    jGetChild false (some (.mk .jObject raw kvs arr)) f = jlook kvs f := by
  unfold jGetChild
  rw [if_neg hf]
  rfl

theorem jGetInt_ser (n : Int) (hwt : wtV .tInt (.vInt n) = true) :
    jGetInt (jSerV .tInt (.vInt n)) = n := by
  have hr := wtV_int_range hwt
  show (match stollOpt (intToDec n) with
    | some m => llToInt m
    | none => 0) = n
  rw [stollOpt_intToDec n]
  exact llToInt_of_range hr.1 hr.2

theorem jGetBool_ser (b : Bool) : jGetBool (jSerV .tBool (.vBool b)) = b := by
  show (boolB b == trueB) = b
  exact boolB_beq_trueB b

theorem jGetStr_ser (s : Bytes) (hs : ∀ b ∈ s, b < 256) :
    jGetStr (jSerV .tStr (.vStr s)) = some s := by
  show (if (34 :: (escapeJsonString s ++ [34])).length ≥ 2 ∧
      (34 :: (escapeJsonString s ++ [34])).head? = some 34 ∧
      (34 :: (escapeJsonString s ++ [34])).getLast? = some 34 then
    unescapeJsonString (((34 :: (escapeJsonString s ++ [34])).drop 1).dropLast)
  else some []) = some s
  have hlast : (34 :: (escapeJsonString s ++ [34])).getLast? = some 34 := by
    show ((34 :: escapeJsonString s) ++ [34]).getLast? = some 34
    exact List.getLast?_concat _
  rw [if_pos ⟨by simp, rfl, hlast⟩]
  show unescapeJsonString ((escapeJsonString s ++ [34]).dropLast) = some s
  rw [List.dropLast_concat]
  exact escape_unescape s hs

theorem wtV_str_bytes {s : Bytes} (h : wtV .tStr (.vStr s) = true) : ∀ b ∈ s, b < 256 := by
  have h2 : s.all (fun b => decide (b < 256)) = true := h
  intro b hb
  have := List.all_eq_true.mp h2 b hb
  simpa using this

/-! Decoding a field list against the tree produced by serializing it
recovers every serialized value, for any prior values. -/
mutual
theorem jDes_correct : ∀ (t : Ty) (v old : Value) (fuel : Nat) (node : Option Jv)
    (key : Bytes),
    wfTy t = true → wtV t v = true → wtV t old = true →
    jGetChild false node key = some (jSerV t v) →
    costV t v ≤ fuel →
    jDesV fuel false node key t old = some v
  | .tInt, .vInt n, old, fuel, node, key, hwf, hwt, hwto, hget, hc => by
    match fuel, hc with
    | fuel + 1, _ =>
      rw [jDesV_step_int, hget]
      show some (Value.vInt (jGetInt (jSerV .tInt (.vInt n)))) = some (.vInt n)
      rw [jGetInt_ser n hwt]
  | .tBool, .vBool b, old, fuel, node, key, hwf, hwt, hwto, hget, hc => by
    match fuel, hc with
    | fuel + 1, _ =>
      rw [jDesV_step_bool, hget]
      show some (Value.vBool (jGetBool (jSerV .tBool (.vBool b)))) = some (.vBool b)
      rw [jGetBool_ser b]
  | .tStr, .vStr s, old, fuel, node, key, hwf, hwt, hwto, hget, hc => by
    match fuel, hc with
    | fuel + 1, _ =>
      rw [jDesV_step_str, hget]
      show (jGetStr (jSerV .tStr (.vStr s))).map Value.vStr = some (.vStr s)
      rw [jGetStr_ser s (wtV_str_bytes hwt)]
      rfl
  | .tObj fs, .vObj vs, old, fuel, node, key, hwf, hwt, hwto, hget, hc => by
    have hwf2 : (nodupNames fs && wfFieldTys fs) = true := hwf
    rw [Bool.and_eq_true] at hwf2
    match fuel, (by unfold costV at hc; omega : costFields fs vs + 1 ≤ fuel) with
    | fuel + 1, hc2 =>
      rw [jDesV_obj_found fuel false node key _ fs old hget]
      rw [ite_cond_true _ _ (show isJObject (some (jSerV (.tObj fs) (.vObj vs))) = true
        from rfl)]
      cases old with
      | vObj ovs =>
        show (jDesFields fuel false (jSerV (.tObj fs) (.vObj vs)) fs ovs).map Value.vObj
          = some (.vObj vs)
        have hF := jDesFields_correct fs vs ovs fuel [] [] [] hwf2.1 hwf2.2 hwt hwto
          (fun kv hkv => absurd hkv (List.not_mem_nil kv)) (by omega)
        have hnode : jSerV (.tObj fs) (.vObj vs)
            = Jv.mk .jObject [] ([] ++ jSerFields fs vs) [] := by
          show Jv.mk .jObject [] (jSerFields fs vs) []
            = Jv.mk .jObject [] ([] ++ jSerFields fs vs) []
          rw [List.nil_append]
        rw [hnode, hF]
        rfl
      | vInt m => exact Bool.noConfusion hwto
      | vBool m => exact Bool.noConfusion hwto
      | vStr m => exact Bool.noConfusion hwto
      | vArr m => exact Bool.noConfusion hwto
  | .tArr te, .vArr es, old, fuel, node, key, hwf, hwt, hwto, hget, hc => by
    match fuel, (by unfold costV at hc; omega : costElems te es + 1 ≤ fuel) with
    | fuel + 1, hc2 =>
      rw [jDesV_step_arr, hget]
      show (if isJArray (some (jSerV (.tArr te) (.vArr es))) then
          (jDesElems fuel false (jSerV (.tArr te) (.vArr es)) te
            (jGetArraySize false (some (jSerV (.tArr te) (.vArr es)))) 0).map Value.vArr
        else some old) = some (.vArr es)
      rw [ite_cond_true _ _ (show isJArray (some (jSerV (.tArr te) (.vArr es))) = true
        from rfl)]
      have hsize : jGetArraySize false (some (jSerV (.tArr te) (.vArr es))) = es.length := by
        show (jSerElems te es).length = es.length
        exact jSerElems_length te es
      rw [hsize]
      have hE := jDesElems_correct te es fuel [] [] (jSerElems te es) 0 hwf hwt rfl
        (by omega)
      show (jDesElems fuel false (Jv.mk .jArray [] [] (jSerElems te es)) te es.length 0).map
        Value.vArr = some (.vArr es)
      rw [hE]
      rfl
  | .tInt, .vBool b, old, fuel, node, key, hwf, hwt, hwto, hget, hc => Bool.noConfusion hwt
  | .tInt, .vStr s, old, fuel, node, key, hwf, hwt, hwto, hget, hc => Bool.noConfusion hwt
  | .tInt, .vObj vs, old, fuel, node, key, hwf, hwt, hwto, hget, hc => Bool.noConfusion hwt
  | .tInt, .vArr es, old, fuel, node, key, hwf, hwt, hwto, hget, hc => Bool.noConfusion hwt
  | .tBool, .vInt n, old, fuel, node, key, hwf, hwt, hwto, hget, hc => Bool.noConfusion hwt
  | .tBool, .vStr s, old, fuel, node, key, hwf, hwt, hwto, hget, hc => Bool.noConfusion hwt
  | .tBool, .vObj vs, old, fuel, node, key, hwf, hwt, hwto, hget, hc => Bool.noConfusion hwt
  | .tBool, .vArr es, old, fuel, node, key, hwf, hwt, hwto, hget, hc => Bool.noConfusion hwt
  | .tStr, .vInt n, old, fuel, node, key, hwf, hwt, hwto, hget, hc => Bool.noConfusion hwt
  | .tStr, .vBool b, old, fuel, node, key, hwf, hwt, hwto, hget, hc => Bool.noConfusion hwt
  | .tStr, .vObj vs, old, fuel, node, key, hwf, hwt, hwto, hget, hc => Bool.noConfusion hwt
  | .tStr, .vArr es, old, fuel, node, key, hwf, hwt, hwto, hget, hc => Bool.noConfusion hwt
  | .tObj fs, .vInt n, old, fuel, node, key, hwf, hwt, hwto, hget, hc => Bool.noConfusion hwt
  | .tObj fs, .vBool b, old, fuel, node, key, hwf, hwt, hwto, hget, hc => Bool.noConfusion hwt
  | .tObj fs, .vStr s, old, fuel, node, key, hwf, hwt, hwto, hget, hc => Bool.noConfusion hwt
  | .tObj fs, .vArr es, old, fuel, node, key, hwf, hwt, hwto, hget, hc => Bool.noConfusion hwt
  | .tArr te, .vInt n, old, fuel, node, key, hwf, hwt, hwto, hget, hc => Bool.noConfusion hwt
  | .tArr te, .vBool b, old, fuel, node, key, hwf, hwt, hwto, hget, hc => Bool.noConfusion hwt
  | .tArr te, .vStr s, old, fuel, node, key, hwf, hwt, hwto, hget, hc => Bool.noConfusion hwt
  | .tArr te, .vObj vs, old, fuel, node, key, hwf, hwt, hwto, hget, hc => Bool.noConfusion hwt

theorem jDesFields_correct : ∀ (fs : List (Bytes × Ty)) (vs olds : List Value) (fuel : Nat)
    (raw : Bytes) (pre : List (Bytes × Jv)) (arr : List Jv),
    nodupNames fs = true → wfFieldTys fs = true → wtFields fs vs = true →
    wtFields fs olds = true →
    (∀ kv ∈ pre, ∀ f t, (f, t) ∈ fs → kv.1 ≠ f) →
    costFields fs vs ≤ fuel →
    jDesFields fuel false (.mk .jObject raw (pre ++ jSerFields fs vs) arr) fs olds = some vs
  | [], [], [], fuel, raw, pre, arr, hnd, hwf, hwt, hwto, hpre, hc => by
    match fuel, hc with
    | fuel + 1, _ => rfl
  | [], [], o :: os, fuel, raw, pre, arr, hnd, hwf, hwt, hwto, hpre, hc =>
    Bool.noConfusion hwto
  | [], v :: vs, olds, fuel, raw, pre, arr, hnd, hwf, hwt, hwto, hpre, hc =>
    Bool.noConfusion hwt
  | (f, t) :: fs, [], olds, fuel, raw, pre, arr, hnd, hwf, hwt, hwto, hpre, hc =>
    Bool.noConfusion hwt
  | (f, t) :: fs, v :: vs, [], fuel, raw, pre, arr, hnd, hwf, hwt, hwto, hpre, hc =>
    Bool.noConfusion hwto
  | (f, t) :: fs, v :: vs, o :: os, fuel, raw, pre, arr, hnd, hwf, hwt, hwto, hpre, hc => by
    have hwf3 : (isIdent f && wfTy t && wfFieldTys fs) = true := hwf
    rw [Bool.and_eq_true, Bool.and_eq_true] at hwf3
    obtain ⟨hfresh, hnd2⟩ := nodupNames_head hnd
    have hwt2 : (wtV t v && wtFields fs vs) = true := hwt
    have hwto2 : (wtV t o && wtFields fs os) = true := hwto
    rw [Bool.and_eq_true] at hwt2 hwto2
    have hfne : f ≠ [] := isIdent_ne_nil hwf3.1.1
    match fuel, (by unfold costFields at hc; omega :
        costV t v + costFields fs vs + 1 ≤ fuel) with
    | fuel + 1, hc2 =>
      rw [jDesFields_step]
      have hget : jGetChild false
          (some (Jv.mk .jObject raw (pre ++ jSerFields ((f, t) :: fs) (v :: vs)) arr)) f
          = some (jSerV t v) := by
        rw [jGetChild_obj raw _ arr f hfne]
        show jlook (pre ++ (f, jSerV t v) :: jSerFields fs vs) f = some (jSerV t v)
        exact jlook_middle pre _ f _ (fun kv hkv =>
          hpre kv hkv f t (List.mem_cons_self _ _))
      have hV := jDes_correct t v o fuel
        (some (Jv.mk .jObject raw (pre ++ jSerFields ((f, t) :: fs) (v :: vs)) arr)) f
        hwf3.1.2 hwt2.1 hwto2.1 hget (by omega)
      rw [hV]
      have hnode : pre ++ jSerFields ((f, t) :: fs) (v :: vs)
          = (pre ++ [(f, jSerV t v)]) ++ jSerFields fs vs := by
        show pre ++ (f, jSerV t v) :: jSerFields fs vs = _
        simp
      rw [hnode]
      have hpre2 : ∀ kv ∈ pre ++ [(f, jSerV t v)], ∀ g tg, (g, tg) ∈ fs → kv.1 ≠ g := by
        intro kv hkv g tg hg
        rcases List.mem_append.mp hkv with h | h
        · exact hpre kv h g tg (List.mem_cons_of_mem _ hg)
        · rcases List.mem_singleton.mp h with rfl
          show f ≠ g
          exact fun hc3 => hfresh (g, tg) hg hc3.symm
      rw [jDesFields_correct fs vs os fuel raw (pre ++ [(f, jSerV t v)]) arr
        hnd2 hwf3.2 hwt2.2 hwto2.2 hpre2 (by omega)]
      rfl

theorem jDesElems_correct : ∀ (te : Ty) (es : List Value) (fuel : Nat) (raw : Bytes)
    (obj : List (Bytes × Jv)) (arr : List Jv) (i : Nat),
    wfTy te = true → wtElems te es = true →
    arr.drop i = jSerElems te es →
    costElems te es ≤ fuel →
    jDesElems fuel false (.mk .jArray raw obj arr) te es.length i = some es
  | te, [], fuel, raw, obj, arr, i, hwf, hwt, harr, hc => by
    match fuel, hc with
    | fuel + 1, _ => rfl
  | te, e :: es, fuel, raw, obj, arr, i, hwf, hwt, harr, hc => by
    have hwt2 : (wtV te e && wtElems te es) = true := hwt
    rw [Bool.and_eq_true] at hwt2
    match fuel, (by unfold costElems at hc; omega :
        costV te e + costElems te es + 1 ≤ fuel) with
    | fuel + 1, hc2 =>
      show jDesElems (fuel + 1) false (.mk .jArray raw obj arr) te (es.length + 1) i
        = some (e :: es)
      rw [jDesElems_step]
      have hgetel : jGetArrayElement false (some (Jv.mk .jArray raw obj arr)) i
          = some (jSerV te e) := by
        show arr.get? i = some (jSerV te e)
        rw [List.get?_eq_getElem?, ← List.head?_drop, harr]
        rfl
      rw [hgetel]
      rw [jDes_correct te e (defaultV te) fuel (some (jSerV te e)) [] hwf hwt2.1
        (wtV_defaultV te) rfl (by omega)]
      have harr2 : arr.drop (i + 1) = jSerElems te es := by
        rw [← List.tail_drop, harr]
        rfl
      rw [jDesElems_correct te es fuel raw obj arr (i + 1) hwf hwt2.2 harr2 (by omega)]
      rfl
end

/-! Parse inversion: running the parser on rendered output recovers the
serialized tree.  restStop captures the characters that can legally follow a
value in a rendered document (a separator, a closer, or the end). -/

def restStop : Bytes → Prop
  | [] => True
  | b :: _ => b = 44 ∨ b = 93 ∨ b = 125

theorem headBeq_false {d c : Nat} (s : Bytes) (h : d ≠ c) :
    ((d :: s).head? == some c) = false := by
  rw [List.head?_cons]
  exact beq_eq_false_iff_ne.mpr (by simp [h])

theorem skipWs_cons {b : Nat} (h : isSpaceB b = false) (l : Bytes) :
    skipWs (b :: l) = b :: l := by
  unfold skipWs
  rw [List.dropWhile_cons, h]
  rfl

theorem takeWhile_all_append {p : Nat → Bool} :
    ∀ {l : Bytes}, (∀ b ∈ l, p b = true) → ∀ rest : Bytes,
      (l ++ rest).takeWhile p = l ++ rest.takeWhile p
  | [], _, rest => rfl
  | b :: l, h, rest => by
    show ((b :: (l ++ rest)).takeWhile p) = b :: (l ++ rest.takeWhile p)
    rw [List.takeWhile_cons, h b (List.mem_cons_self _ _)]
    rw [takeWhile_all_append (fun x hx => h x (List.mem_cons_of_mem _ hx)) rest]
    rfl

theorem dropWhile_all_append {p : Nat → Bool} :
    ∀ {l : Bytes}, (∀ b ∈ l, p b = true) → ∀ rest : Bytes,
      (l ++ rest).dropWhile p = rest.dropWhile p
  | [], _, rest => rfl
  | b :: l, h, rest => by
    show ((b :: (l ++ rest)).dropWhile p) = rest.dropWhile p
    rw [List.dropWhile_cons, h b (List.mem_cons_self _ _)]
    exact dropWhile_all_append (fun x hx => h x (List.mem_cons_of_mem _ hx)) rest

theorem restStop_take_digits : ∀ (rest : Bytes), restStop rest →
    rest.takeWhile isDigitB = []
  | [], _ => rfl
  | b :: l, h => by
    rw [List.takeWhile_cons]
    have hb : isDigitB b = false := by
      unfold isDigitB
      rcases h with h | h | h <;> subst h <;> rfl
    rw [hb]
    rfl

theorem restStop_drop_digits : ∀ (rest : Bytes), restStop rest →
    rest.dropWhile isDigitB = rest
  | [], _ => rfl
  | b :: l, h => by
    rw [List.dropWhile_cons]
    have hb : isDigitB b = false := by
      unfold isDigitB
      rcases h with h | h | h <;> subst h <;> rfl
    rw [hb]
    rfl

theorem restStop_head_ne : ∀ (rest : Bytes), restStop rest → ∀ (c : Nat),
    c ≠ 44 → c ≠ 93 → c ≠ 125 → (rest.head? == some c) = false
  | [], _, c, _, _, _ => rfl
  | b :: l, h, c, h1, h2, h3 => by
    apply headBeq_false
    rcases h with h | h | h <;> subst h <;> omega

theorem natToDec_isDigit (m : Nat) : ∀ b ∈ natToDec m, isDigitB b = true := by
  intro b hb
  have := natToDec_digits m b hb
  exact isDigitB_true b this.1 this.2

theorem parseNumAfterSign_dec (sgn : Bytes) (m : Nat) (rest : Bytes) (hrest : restStop rest) :
    parseNumAfterSign sgn (natToDec m ++ rest)
      = (.mk .jNumber (sgn ++ natToDec m) [] [], rest) := by
  obtain ⟨d, ds, hdds⟩ : ∃ d ds, natToDec m = d :: ds := by
    cases hh : natToDec m with
    | nil => exact absurd hh (natToDec_ne_nil m)
    | cons a l => exact ⟨a, l, rfl⟩
  have hd : 48 ≤ d ∧ d ≤ 57 := natToDec_head_digit m d (by rw [hdds]; rfl)
  have hdig : isDigitB ((natToDec m ++ rest).head?.getD 0) = true := by
    rw [hdds]
    show isDigitB d = true
    exact isDigitB_true d hd.1 hd.2
  unfold parseNumAfterSign
  rw [if_neg (by rw [hdig]; exact fun hcc => Bool.noConfusion hcc)]
  rw [takeWhile_all_append (natToDec_isDigit m) rest,
    dropWhile_all_append (natToDec_isDigit m) rest,
    restStop_take_digits rest hrest, restStop_drop_digits rest hrest]
  unfold parseNumFrac
  rw [ite_cond_false _ _ (restStop_head_ne rest hrest 46 (by omega) (by omega) (by omega))]
  unfold parseNumExp
  rw [ite_cond_false _ _ (show ((rest.head? == some 101) || (rest.head? == some 69)) = false
    by rw [restStop_head_ne rest hrest 101 (by omega) (by omega) (by omega),
      restStop_head_ne rest hrest 69 (by omega) (by omega) (by omega)]; rfl)]
  rw [List.append_nil, List.append_nil]

theorem parseNumber_intToDec (n : Int) (rest : Bytes) (hrest : restStop rest) :
    parseNumber (intToDec n ++ rest) = (.mk .jNumber (intToDec n) [] [], rest) := by
  rcases Int.lt_or_le n 0 with hneg | hpos
  · have hform : intToDec n = 45 :: natToDec n.natAbs := by
      unfold intToDec
      rw [if_pos hneg]
    rw [hform]
    unfold parseNumber
    rw [ite_cond_true _ _ (show (((45 :: natToDec n.natAbs) ++ rest).head? == some 45) = true
      from rfl)]
    show parseNumAfterSign [45] (natToDec n.natAbs ++ rest)
      = (Jv.mk .jNumber (45 :: natToDec n.natAbs) [] [], rest)
    rw [parseNumAfterSign_dec [45] n.natAbs rest hrest]
    rfl
  · have hform : intToDec n = natToDec n.toNat := by
      unfold intToDec
      rw [if_neg (by omega)]
    rw [hform]
    obtain ⟨d, ds, hdds⟩ : ∃ d ds, natToDec n.toNat = d :: ds := by
      cases hh : natToDec n.toNat with
      | nil => exact absurd hh (natToDec_ne_nil _)
      | cons a l => exact ⟨a, l, rfl⟩
    have hd : 48 ≤ d ∧ d ≤ 57 := natToDec_head_digit _ d (by rw [hdds]; rfl)
    unfold parseNumber
    rw [hdds, List.cons_append,
      ite_cond_false _ _ (headBeq_false _ (show d ≠ 45 by omega)), ← List.cons_append,
      ← hdds, parseNumAfterSign_dec [] n.toNat rest hrest, List.nil_append]

theorem strScanF_esc2 (x : Nat) (T : Bytes) (fuel : Nat) :
    strScanF (fuel + 1) (92 :: x :: T)
      = (92 :: x :: (strScanF fuel T).1, (strScanF fuel T).2) := rfl

theorem strScanF_step_plain (fuel : Nat) {c : Nat} (h34 : c ≠ 34) (h92 : c ≠ 92)
    (T : Bytes) :
    strScanF (fuel + 1) (c :: T) = (c :: (strScanF fuel T).1, (strScanF fuel T).2) := by
  cases T with
  | nil =>
    show (if c = 34 then (([] : Bytes), [c])
      else if c = 92 then ([92], ([] : Bytes))
      else (c :: (strScanF fuel []).1, (strScanF fuel []).2))
      = (c :: (strScanF fuel []).1, (strScanF fuel []).2)
    rw [if_neg h34, if_neg h92]
  | cons c2 r2 =>
    show (if c = 34 then (([] : Bytes), c :: c2 :: r2)
      else if c = 92 then
        (92 :: c2 :: (strScanF fuel r2).1, (strScanF fuel r2).2)
      else (c :: (strScanF fuel (c2 :: r2)).1, (strScanF fuel (c2 :: r2)).2))
      = (c :: (strScanF fuel (c2 :: r2)).1, (strScanF fuel (c2 :: r2)).2)
    rw [if_neg h34, if_neg h92]

theorem hexDig_ne (d : Nat) : hexDig d ≠ 34 ∧ hexDig d ≠ 92 := by
  unfold hexDig
  split <;> omega

theorem strScanF_escape : ∀ (s : Bytes) (fuel : Nat) (rest : Bytes),
    (escapeJsonString s).length < fuel →
    strScanF fuel (escapeJsonString s ++ 34 :: rest) = (escapeJsonString s, 34 :: rest)
  | [], fuel, rest, hf => by
    obtain ⟨f, rfl⟩ : ∃ f, fuel = f + 1 := ⟨fuel - 1, by omega⟩
    rfl
  | b :: s2, fuel, rest, hf => by
    have hlen : (escapeJsonString (b :: s2)).length
        = (escChar b).length + (escapeJsonString s2).length := by
      show (escChar b ++ escapeJsonString s2).length = _
      rw [List.length_append]
    rw [show escapeJsonString (b :: s2) = escChar b ++ escapeJsonString s2 from rfl,
      List.append_assoc]
    by_cases hcase : (b = 34 ∨ b = 92 ∨ b = 8 ∨ b = 12 ∨ b = 10 ∨ b = 13 ∨ b = 9)
    · have hesc : ∃ w, escChar b = [92, w] := by
        rcases hcase with h | h | h | h | h | h | h <;> subst h
        · exact ⟨34, rfl⟩
        · exact ⟨92, rfl⟩
        · exact ⟨98, rfl⟩
        · exact ⟨102, rfl⟩
        · exact ⟨110, rfl⟩
        · exact ⟨114, rfl⟩
        · exact ⟨116, rfl⟩
      obtain ⟨w, hw⟩ := hesc
      have hel : (escChar b).length = 2 := by
        rw [hw]
        rfl
      obtain ⟨f, rfl⟩ : ∃ f, fuel = f + 1 := ⟨fuel - 1, by omega⟩
      have hf2 : (escapeJsonString s2).length < f := by
        rw [hlen, hel] at hf
        omega
      have hrec := strScanF_escape s2 f rest hf2
      rw [hw]
      show strScanF (f + 1) (92 :: w :: (escapeJsonString s2 ++ 34 :: rest))
        = ([92, w] ++ escapeJsonString s2, 34 :: rest)
      rw [strScanF_esc2, hrec]
      rfl
    · by_cases hcond : b < 32 ∨ 128 ≤ b
      · have hesc : escChar b = [92, 117, 48, 48, hexDig (b / 16), hexDig (b % 16)] := by
          unfold escChar
          rw [if_neg (by omega : ¬ b = 34), if_neg (by omega : ¬ b = 92),
            if_neg (by omega : ¬ b = 8), if_neg (by omega : ¬ b = 12),
            if_neg (by omega : ¬ b = 10), if_neg (by omega : ¬ b = 13),
            if_neg (by omega : ¬ b = 9), if_pos hcond]
        have hel : (escChar b).length = 6 := by
          rw [hesc]
          rfl
        obtain ⟨g, rfl⟩ : ∃ g, fuel = g + 5 := by
          refine ⟨fuel - 5, ?_⟩
          rw [hlen, hel] at hf
          omega
        have hf2 : (escapeJsonString s2).length < g := by
          rw [hlen, hel] at hf
          omega
        have hrec := strScanF_escape s2 g rest hf2
        rw [hesc]
        show strScanF ((g + 4) + 1)
          (92 :: 117 :: (48 :: 48 :: hexDig (b / 16) :: hexDig (b % 16)
            :: (escapeJsonString s2 ++ 34 :: rest)))
          = ([92, 117, 48, 48, hexDig (b / 16), hexDig (b % 16)] ++ escapeJsonString s2,
            34 :: rest)
        rw [strScanF_esc2]
        rw [show ((g + 4 : Nat)) = (g + 3) + 1 from rfl,
          strScanF_step_plain (g + 3) (by omega) (by omega)]
        rw [show ((g + 3 : Nat)) = (g + 2) + 1 from rfl,
          strScanF_step_plain (g + 2) (by omega) (by omega)]
        rw [show ((g + 2 : Nat)) = (g + 1) + 1 from rfl,
          strScanF_step_plain (g + 1) (hexDig_ne (b / 16)).1 (hexDig_ne (b / 16)).2]
        rw [show ((g + 1 : Nat)) = g + 1 from rfl,
          strScanF_step_plain g (hexDig_ne (b % 16)).1 (hexDig_ne (b % 16)).2]
        rw [hrec]
        rfl
      · have hesc : escChar b = [b] := by
          unfold escChar
          rw [if_neg (by omega : ¬ b = 34), if_neg (by omega : ¬ b = 92),
            if_neg (by omega : ¬ b = 8), if_neg (by omega : ¬ b = 12),
            if_neg (by omega : ¬ b = 10), if_neg (by omega : ¬ b = 13),
            if_neg (by omega : ¬ b = 9), if_neg hcond]
        have hel : (escChar b).length = 1 := by
          rw [hesc]
          rfl
        obtain ⟨f, rfl⟩ : ∃ f, fuel = f + 1 := ⟨fuel - 1, by omega⟩
        have hf2 : (escapeJsonString s2).length < f := by
          rw [hlen, hel] at hf
          omega
        have hrec := strScanF_escape s2 f rest hf2
        rw [hesc]
        show strScanF (f + 1) (b :: (escapeJsonString s2 ++ 34 :: rest))
          = ([b] ++ escapeJsonString s2, 34 :: rest)
        rw [strScanF_step_plain f (by omega) (by omega), hrec]
        rfl

theorem strScan_escape (s : Bytes) (rest : Bytes) :
    strScan (escapeJsonString s ++ 34 :: rest) = (escapeJsonString s, 34 :: rest) := by
  unfold strScan
  apply strScanF_escape
  rw [List.length_append]
  omega

theorem parseString_inv (s : Bytes) (rest : Bytes) :
    parseString (34 :: (escapeJsonString s ++ 34 :: rest))
      = (.mk .jString (34 :: (escapeJsonString s ++ [34])) [] [], rest) := by
  have hscan := strScan_escape s rest
  show (match (strScan (escapeJsonString s ++ 34 :: rest)).2 with
    | 34 :: r2 =>
      (Jv.mk .jString (34 :: ((strScan (escapeJsonString s ++ 34 :: rest)).1 ++ [34])) [] [],
        r2)
    | r2 =>
      (Jv.mk .jString (34 :: (strScan (escapeJsonString s ++ 34 :: rest)).1) [] [], r2))
    = (Jv.mk .jString (34 :: (escapeJsonString s ++ [34])) [] [], rest)
  rw [hscan]

theorem parseBool_inv (b : Bool) (rest : Bytes) :
    parseBool (boolB b ++ rest) = (.mk .jBool (boolB b) [] [], rest) := by
  cases b <;> rfl

theorem isIdentChar_range {b : Nat} (h : isIdentChar b = true) :
    48 ≤ b ∧ b ≤ 122 ∧ b ≠ 92 := by
  unfold isIdentChar at h
  simp only [Bool.or_eq_true, Bool.and_eq_true, decide_eq_true_eq, beq_iff_eq] at h
  refine ⟨?_, ?_, ?_⟩ <;> (rcases h with ((h | h) | h) | h <;> omega)

theorem escChar_ident {b : Nat} (h : isIdentChar b = true) : escChar b = [b] := by
  obtain ⟨hlo, hhi, hbs⟩ := isIdentChar_range h
  have e34 : ¬ b = 34 := by omega
  have e92 : ¬ b = 92 := by omega
  have e8 : ¬ b = 8 := by omega
  have e12 : ¬ b = 12 := by omega
  have e10 : ¬ b = 10 := by omega
  have e13 : ¬ b = 13 := by omega
  have e9 : ¬ b = 9 := by omega
  have ectl : ¬ (b < 32 ∨ 128 ≤ b) := by omega
  unfold escChar
  rw [if_neg e34, if_neg e92, if_neg e8, if_neg e12,
    if_neg e10, if_neg e13, if_neg e9, if_neg ectl]

theorem escape_ident : ∀ {f : Bytes}, (∀ b ∈ f, isIdentChar b = true) →
    escapeJsonString f = f
  | [], _ => rfl
  | b :: f, h => by
    show escChar b ++ escapeJsonString f = b :: f
    rw [escChar_ident (h b (List.mem_cons_self _ _)),
      escape_ident (fun x hx => h x (List.mem_cons_of_mem _ hx))]
    rfl

theorem jKeyOf_quoted (s : Bytes) :
    jKeyOf (.mk .jString (34 :: (s ++ [34])) [] []) = s := by
  show (if (34 :: (s ++ [34])).length ≥ 2 ∧ (34 :: (s ++ [34])).head? = some 34 ∧
      (34 :: (s ++ [34])).getLast? = some 34 then ((34 :: (s ++ [34])).drop 1).dropLast
    else (34 :: (s ++ [34]))) = s
  have hlast : (34 :: (s ++ [34])).getLast? = some 34 := by
    show ((34 :: s) ++ [34]).getLast? = some 34
    exact List.getLast?_concat _
  rw [if_pos ⟨by simp, rfl, hlast⟩]
  show (s ++ [34]).dropLast = s
  exact List.dropLast_concat

theorem jStore_fresh : ∀ (acc : List (Bytes × Jv)) (k : Bytes) (v : Jv),
    (∀ kv ∈ acc, kv.1 ≠ k) → jStore acc k v = acc ++ [(k, v)]
  | [], k, v, _ => rfl
  | (k0, v0) :: r, k, v, h => by
    show (if k0 = k then (k0, v) :: r else (k0, v0) :: jStore r k v) = _
    rw [if_neg (h (k0, v0) (List.mem_cons_self _ _))]
    rw [jStore_fresh r k v (fun kv hkv => h kv (List.mem_cons_of_mem _ hkv))]
    rfl

/-! Parse fuel consumption: parseValue consumes a unit entering a value,
parseObject and parseArray one more, and each loop iteration one per
element. -/
mutual
def jpcostV : Ty → Value → Nat
  | .tObj fs, .vObj vs => jpcostFields fs vs + 2
  | .tArr t, .vArr es => jpcostElems t es + 2
  | _, _ => 1

def jpcostFields : List (Bytes × Ty) → List Value → Nat
  | (_, t) :: fs, v :: vs => jpcostV t v + jpcostFields fs vs + 1
  | _, _ => 1

def jpcostElems : Ty → List Value → Nat
  | t, v :: vs => jpcostV t v + jpcostElems t vs + 1
  | _, _ => 1
end

theorem parseValue_step_true (fuel : Nat) (s : Bytes) :
    parseValue (fuel + 1) (116 :: s) = parseBool (116 :: s) := rfl

theorem parseValue_step_false (fuel : Nat) (s : Bytes) :
    parseValue (fuel + 1) (102 :: s) = parseBool (102 :: s) := rfl

theorem parseValue_step_quote (fuel : Nat) (s : Bytes) :
    parseValue (fuel + 1) (34 :: s) = parseString (34 :: s) := rfl

theorem parseValue_step_lbrack (fuel : Nat) (s : Bytes) :
    parseValue (fuel + 1) (91 :: s) = parseArray fuel (91 :: s) := rfl

theorem parseValue_step_lbrace (fuel : Nat) (s : Bytes) :
    parseValue (fuel + 1) (123 :: s) = parseObject fuel (123 :: s) := rfl

theorem parseValue_step_minus (fuel : Nat) (s : Bytes) :
    parseValue (fuel + 1) (45 :: s) = parseNumber (45 :: s) := rfl

theorem parseValue_step_digit (fuel : Nat) {d : Nat} (h1 : 48 ≤ d) (h2 : d ≤ 57)
    (s : Bytes) : parseValue (fuel + 1) (d :: s) = parseNumber (d :: s) := by
  have hsp : isSpaceB d = false := isSpaceB_false d (by omega) (by omega)
  have hskip : skipWs (d :: s) = d :: s := skipWs_cons hsp s
  show (if (skipWs (d :: s)).head? == some 110 then parseNull (skipWs (d :: s))
    else if ((skipWs (d :: s)).head? == some 116) || ((skipWs (d :: s)).head? == some 102)
      then parseBool (skipWs (d :: s))
    else if (skipWs (d :: s)).head? == some 34 then parseString (skipWs (d :: s))
    else if (skipWs (d :: s)).head? == some 91 then parseArray fuel (skipWs (d :: s))
    else if (skipWs (d :: s)).head? == some 123 then parseObject fuel (skipWs (d :: s))
    else if ((skipWs (d :: s)).head? == some 45)
        || isDigitB ((skipWs (d :: s)).head?.getD 0) then parseNumber (skipWs (d :: s))
    else (.mk .jNull [] [] [], skipWs (d :: s))) = parseNumber (d :: s)
  rw [hskip]
  rw [ite_cond_false _ _ (headBeq_false s (show d ≠ 110 by omega))]
  rw [ite_cond_false _ _ (show (((d :: s).head? == some 116)
      || ((d :: s).head? == some 102)) = false by
    rw [headBeq_false s (show d ≠ 116 by omega), headBeq_false s (show d ≠ 102 by omega)]
    rfl)]
  rw [ite_cond_false _ _ (headBeq_false s (show d ≠ 34 by omega))]
  rw [ite_cond_false _ _ (headBeq_false s (show d ≠ 91 by omega))]
  rw [ite_cond_false _ _ (headBeq_false s (show d ≠ 123 by omega))]
  rw [ite_cond_true _ _ (show (((d :: s).head? == some 45)
      || isDigitB ((d :: s).head?.getD 0)) = true by
    rw [headBeq_false s (show d ≠ 45 by omega)]
    show (false || isDigitB d) = true
    rw [Bool.false_or]
    exact isDigitB_true d h1 h2)]

theorem parseObject_step (fuel : Nat) (s : Bytes) :
    parseObject (fuel + 1) s =
      if s.head? == some 123 then
        if (skipWs s.tail).head? == some 125 then
          (.mk .jObject [] [] [], (skipWs s.tail).tail)
        else parseObjLoop fuel (skipWs s.tail) []
      else (.mk .jObject [] [] [], s) := rfl

theorem parseArray_step (fuel : Nat) (s : Bytes) :
    parseArray (fuel + 1) s =
      if s.head? == some 91 then
        if (skipWs s.tail).head? == some 93 then
          (.mk .jArray [] [] [], (skipWs s.tail).tail)
        else parseArrayLoop fuel (skipWs s.tail) []
      else (.mk .jArray [] [] [], s) := rfl

theorem parseObjLoop_step (fuel : Nat) (s : Bytes) (acc : List (Bytes × Jv)) :
    parseObjLoop (fuel + 1) s acc =
      if (skipWs (parseString (skipWs s)).2).head? == some 58 then
        if (skipWs (parseValue fuel (skipWs (parseString (skipWs s)).2).tail).2).head?
            == some 125 then
          (.mk .jObject [] (jStore acc (jKeyOf (parseString (skipWs s)).1)
              (parseValue fuel (skipWs (parseString (skipWs s)).2).tail).1) [],
            (skipWs (parseValue fuel (skipWs (parseString (skipWs s)).2).tail).2).tail)
        else if (skipWs (parseValue fuel (skipWs (parseString (skipWs s)).2).tail).2).head?
            == some 44 then
          parseObjLoop fuel
            (skipWs (parseValue fuel (skipWs (parseString (skipWs s)).2).tail).2).tail
            (jStore acc (jKeyOf (parseString (skipWs s)).1)
              (parseValue fuel (skipWs (parseString (skipWs s)).2).tail).1)
        else
          (.mk .jObject [] (jStore acc (jKeyOf (parseString (skipWs s)).1)
              (parseValue fuel (skipWs (parseString (skipWs s)).2).tail).1) [],
            skipWs (parseValue fuel (skipWs (parseString (skipWs s)).2).tail).2)
      else (.mk .jObject [] acc [], skipWs (parseString (skipWs s)).2) := rfl

theorem parseArrayLoop_step (fuel : Nat) (s : Bytes) (acc : List Jv) :
    parseArrayLoop (fuel + 1) s acc =
      if (skipWs (parseValue fuel s).2).head? == some 93 then
        (.mk .jArray [] [] (acc ++ [(parseValue fuel s).1]),
          (skipWs (parseValue fuel s).2).tail)
      else if (skipWs (parseValue fuel s).2).head? == some 44 then
        parseArrayLoop fuel (skipWs (skipWs (parseValue fuel s).2).tail)
          (acc ++ [(parseValue fuel s).1])
      else (.mk .jArray [] [] (acc ++ [(parseValue fuel s).1]),
        skipWs (parseValue fuel s).2) := rfl

theorem jObjBody_head : ∀ (kv : Bytes × Jv) (kvs : List (Bytes × Jv)),
    ∃ tl, jObjBody (kv :: kvs) = 34 :: tl
  | (k, v), [] => ⟨escapeJsonString k ++ 34 :: 58 :: valueToJsonString v, rfl⟩
  | (k, v), kv2 :: kvs => by
    refine ⟨(escapeJsonString k ++ 34 :: 58 :: valueToJsonString v)
      ++ 44 :: jObjBody (kv2 :: kvs), ?_⟩
    rfl

theorem jArrBody_head : ∀ (x : Jv) (xs : List Jv),
    ∃ tl, jArrBody (x :: xs) = valueToJsonString x ++ tl
  | x, [] => ⟨[], by rw [List.append_nil]; rfl⟩
  | x, x2 :: xs => ⟨44 :: jArrBody (x2 :: xs), rfl⟩

theorem vjs_head : ∀ (t : Ty) (v : Value), wtV t v = true →
    ∃ h tl, valueToJsonString (jSerV t v) = h :: tl ∧ isSpaceB h = false ∧ h ≠ 93 ∧
      h ≠ 125 ∧ h ≠ 44
  | .tInt, .vInt n, hwt => by
    show ∃ h tl, intToDec n = h :: tl ∧ _
    unfold intToDec
    rcases Int.lt_or_le n 0 with hneg | hpos
    · rw [if_pos hneg]
      exact ⟨45, natToDec n.natAbs, rfl, rfl, by omega, by omega, by omega⟩
    · rw [if_neg (by omega)]
      obtain ⟨d, ds, hdds⟩ : ∃ d ds, natToDec n.toNat = d :: ds := by
        cases hh : natToDec n.toNat with
        | nil => exact absurd hh (natToDec_ne_nil _)
        | cons a l => exact ⟨a, l, rfl⟩
      have hd := natToDec_head_digit _ d (by rw [hdds]; rfl)
      exact ⟨d, ds, hdds, isSpaceB_false d (by omega) (by omega), by omega, by omega,
        by omega⟩
  | .tBool, .vBool b, hwt => by
    cases b
    · exact ⟨102, [97, 108, 115, 101], rfl, rfl, by omega, by omega, by omega⟩
    · exact ⟨116, [114, 117, 101], rfl, rfl, by omega, by omega, by omega⟩
  | .tStr, .vStr s, hwt =>
    ⟨34, escapeJsonString s ++ [34], rfl, rfl, by omega, by omega, by omega⟩
  | .tObj fs, .vObj vs, hwt =>
    ⟨123, jObjBody (jSerFields fs vs) ++ [125], rfl, rfl, by omega, by omega, by omega⟩
  | .tArr te, .vArr es, hwt =>
    ⟨91, jArrBody (jSerElems te es) ++ [93], rfl, rfl, by omega, by omega, by omega⟩
  | .tInt, .vBool b, hwt => Bool.noConfusion hwt
  | .tInt, .vStr s, hwt => Bool.noConfusion hwt
  | .tInt, .vObj vs, hwt => Bool.noConfusion hwt
  | .tInt, .vArr es, hwt => Bool.noConfusion hwt
  | .tBool, .vInt n, hwt => Bool.noConfusion hwt
  | .tBool, .vStr s, hwt => Bool.noConfusion hwt
  | .tBool, .vObj vs, hwt => Bool.noConfusion hwt
  | .tBool, .vArr es, hwt => Bool.noConfusion hwt
  | .tStr, .vInt n, hwt => Bool.noConfusion hwt
  | .tStr, .vBool b, hwt => Bool.noConfusion hwt
  | .tStr, .vObj vs, hwt => Bool.noConfusion hwt
  | .tStr, .vArr es, hwt => Bool.noConfusion hwt
  | .tObj fs, .vInt n, hwt => Bool.noConfusion hwt
  | .tObj fs, .vBool b, hwt => Bool.noConfusion hwt
  | .tObj fs, .vStr s, hwt => Bool.noConfusion hwt
  | .tObj fs, .vArr es, hwt => Bool.noConfusion hwt
  | .tArr te, .vInt n, hwt => Bool.noConfusion hwt
  | .tArr te, .vBool b, hwt => Bool.noConfusion hwt
  | .tArr te, .vStr s, hwt => Bool.noConfusion hwt
  | .tArr te, .vObj vs, hwt => Bool.noConfusion hwt

theorem prodFst {α β : Type} {p : α × β} {a : α} {b : β} (h : p = (a, b)) : p.1 = a := by
  rw [h]

theorem prodSnd {α β : Type} {p : α × β} {a : α} {b : β} (h : p = (a, b)) : p.2 = b := by
  rw [h]

/-! Parse inversion proper: the parser recovers the serialized tree from the
rendered document, value by value, the loops threaded through the
accumulated children. -/
mutual
theorem parseV_inv : ∀ (t : Ty) (v : Value) (fuel : Nat) (rest : Bytes),
    wfTy t = true → wtV t v = true → restStop rest → jpcostV t v ≤ fuel →
    parseValue fuel (valueToJsonString (jSerV t v) ++ rest) = (jSerV t v, rest)
  | .tInt, .vInt n, fuel, rest, hwf, hwt, hrest, hc => by
    match fuel, hc with
    | fuel + 1, _ =>
      show parseValue (fuel + 1) (intToDec n ++ rest)
        = (Jv.mk .jNumber (intToDec n) [] [], rest)
      rcases Int.lt_or_le n 0 with hneg | hpos
      · have hform : intToDec n = 45 :: natToDec n.natAbs := by
          unfold intToDec
          rw [if_pos hneg]
        rw [hform, List.cons_append, parseValue_step_minus, ← List.cons_append, ← hform,
          parseNumber_intToDec n rest hrest]
      · have hform : intToDec n = natToDec n.toNat := by
          unfold intToDec
          rw [if_neg (by omega)]
        obtain ⟨d, ds, hdds⟩ : ∃ d ds, natToDec n.toNat = d :: ds := by
          cases hh : natToDec n.toNat with
          | nil => exact absurd hh (natToDec_ne_nil _)
          | cons a l => exact ⟨a, l, rfl⟩
        have hd := natToDec_head_digit _ d (by rw [hdds]; rfl)
        rw [hform, hdds, List.cons_append, parseValue_step_digit fuel hd.1 hd.2,
          ← List.cons_append, ← hdds, ← hform, parseNumber_intToDec n rest hrest]
  | .tBool, .vBool b, fuel, rest, hwf, hwt, hrest, hc => by
    match fuel, hc with
    | fuel + 1, _ =>
      cases b
      · show parseValue (fuel + 1) (102 :: (97 :: 108 :: 115 :: 101 :: rest))
          = (Jv.mk .jBool (boolB false) [] [], rest)
        rw [parseValue_step_false]
        exact parseBool_inv false rest
      · show parseValue (fuel + 1) (116 :: (114 :: 117 :: 101 :: rest))
          = (Jv.mk .jBool (boolB true) [] [], rest)
        rw [parseValue_step_true]
        exact parseBool_inv true rest
  | .tStr, .vStr s, fuel, rest, hwf, hwt, hrest, hc => by
    match fuel, hc with
    | fuel + 1, _ =>
      show parseValue (fuel + 1) (34 :: ((escapeJsonString s ++ [34]) ++ rest))
        = (Jv.mk .jString (34 :: (escapeJsonString s ++ [34])) [] [], rest)
      rw [parseValue_step_quote, List.append_assoc, List.singleton_append]
      exact parseString_inv s rest
  | .tObj fs, .vObj vs, fuel, rest, hwf, hwt, hrest, hc => by
    have hwf2 : (nodupNames fs && wfFieldTys fs) = true := hwf
    rw [Bool.and_eq_true] at hwf2
    have hcform : jpcostV (.tObj fs) (.vObj vs) = jpcostFields fs vs + 2 := rfl
    match fuel, (by rw [hcform] at hc; omega : jpcostFields fs vs + 2 ≤ fuel) with
    | fuel + 1, hc2 =>
      show parseValue (fuel + 1) (123 :: ((jObjBody (jSerFields fs vs) ++ [125]) ++ rest))
        = (Jv.mk .jObject [] (jSerFields fs vs) [], rest)
      rw [parseValue_step_lbrace]
      obtain ⟨g, rfl⟩ : ∃ g, fuel = g + 1 := ⟨fuel - 1, by omega⟩
      rw [parseObject_step,
        ite_cond_true _ _
          (show ((123 :: ((jObjBody (jSerFields fs vs) ++ [125]) ++ rest)).head?
            == some 123) = true from rfl),
        List.tail_cons, List.append_assoc, List.singleton_append]
      rcases fs with _ | ⟨⟨f, t⟩, fs2⟩
      · rcases vs with _ | ⟨v, vs2⟩
        · show (if (skipWs (125 :: rest)).head? == some 125 then
              (Jv.mk .jObject [] [] [], (skipWs (125 :: rest)).tail)
            else parseObjLoop g (skipWs (125 :: rest)) [])
            = (Jv.mk .jObject [] (jSerFields [] []) [], rest)
          rw [skipWs_cons (show isSpaceB 125 = false from rfl),
            ite_cond_true _ _ (show ((125 :: rest).head? == some 125) = true from rfl),
            List.tail_cons]
          rfl
        · exact Bool.noConfusion hwt
      · rcases vs with _ | ⟨v, vs2⟩
        · exact Bool.noConfusion hwt
        · obtain ⟨tl, htl⟩ := jObjBody_head (f, jSerV t v) (jSerFields fs2 vs2)
          have htl2 : jObjBody (jSerFields ((f, t) :: fs2) (v :: vs2)) = 34 :: tl := htl
          have hskipB : skipWs (jObjBody (jSerFields ((f, t) :: fs2) (v :: vs2))
              ++ 125 :: rest)
              = jObjBody (jSerFields ((f, t) :: fs2) (v :: vs2)) ++ 125 :: rest := by
            rw [htl2, List.cons_append]
            exact skipWs_cons (show isSpaceB 34 = false from rfl) _
          have hcond : ((jObjBody (jSerFields ((f, t) :: fs2) (v :: vs2))
              ++ 125 :: rest).head? == some 125) = false := by
            rw [htl2, List.cons_append]
            exact headBeq_false _ (by omega)
          rw [hskipB, ite_cond_false _ _ hcond]
          rw [parseObjLoop_inv ((f, t) :: fs2) (v :: vs2) [] g rest hwf2.1 hwf2.2 hwt
            (List.cons_ne_nil _ _) (fun kv hkv => absurd hkv (List.not_mem_nil kv)) hrest
            (by omega)]
          rw [List.nil_append]
  | .tArr te, .vArr es, fuel, rest, hwf, hwt, hrest, hc => by
    have hcform : jpcostV (.tArr te) (.vArr es) = jpcostElems te es + 2 := rfl
    match fuel, (by rw [hcform] at hc; omega : jpcostElems te es + 2 ≤ fuel) with
    | fuel + 1, hc2 =>
      show parseValue (fuel + 1) (91 :: ((jArrBody (jSerElems te es) ++ [93]) ++ rest))
        = (Jv.mk .jArray [] [] (jSerElems te es), rest)
      rw [parseValue_step_lbrack]
      obtain ⟨g, rfl⟩ : ∃ g, fuel = g + 1 := ⟨fuel - 1, by omega⟩
      rw [parseArray_step,
        ite_cond_true _ _
          (show ((91 :: ((jArrBody (jSerElems te es) ++ [93]) ++ rest)).head?
            == some 91) = true from rfl),
        List.tail_cons, List.append_assoc, List.singleton_append]
      rcases es with _ | ⟨e, es2⟩
      · show (if (skipWs (93 :: rest)).head? == some 93 then
            (Jv.mk .jArray [] [] [], (skipWs (93 :: rest)).tail)
          else parseArrayLoop g (skipWs (93 :: rest)) [])
          = (Jv.mk .jArray [] [] (jSerElems te []), rest)
        rw [skipWs_cons (show isSpaceB 93 = false from rfl),
          ite_cond_true _ _ (show ((93 :: rest).head? == some 93) = true from rfl),
          List.tail_cons]
        rfl
      · have hwtp : (wtV te e && wtElems te es2) = true := hwt
        rw [Bool.and_eq_true] at hwtp
        obtain ⟨tl, htl⟩ := jArrBody_head (jSerV te e) (jSerElems te es2)
        have htl2 : jArrBody (jSerElems te (e :: es2))
            = valueToJsonString (jSerV te e) ++ tl := htl
        obtain ⟨h0, tl0, hvh, hsp, h93, _, _⟩ := vjs_head te e hwtp.1
        have hexp : jArrBody (jSerElems te (e :: es2)) ++ 93 :: rest
            = h0 :: (tl0 ++ (tl ++ 93 :: rest)) := by
          rw [htl2, hvh]
          simp only [List.cons_append, List.append_assoc]
        have hskipB : skipWs (jArrBody (jSerElems te (e :: es2)) ++ 93 :: rest)
            = jArrBody (jSerElems te (e :: es2)) ++ 93 :: rest := by
          rw [hexp]
          exact skipWs_cons hsp _
        have hcond : ((jArrBody (jSerElems te (e :: es2)) ++ 93 :: rest).head?
            == some 93) = false := by
          rw [hexp]
          exact headBeq_false _ h93
        rw [hskipB, ite_cond_false _ _ hcond]
        rw [parseArrayLoop_inv te (e :: es2) [] g rest hwf hwt
          (List.cons_ne_nil _ _) hrest (by omega)]
        rw [List.nil_append]
  | .tInt, .vBool b, fuel, rest, hwf, hwt, hrest, hc => Bool.noConfusion hwt
  | .tInt, .vStr s, fuel, rest, hwf, hwt, hrest, hc => Bool.noConfusion hwt
  | .tInt, .vObj vs, fuel, rest, hwf, hwt, hrest, hc => Bool.noConfusion hwt
  | .tInt, .vArr es, fuel, rest, hwf, hwt, hrest, hc => Bool.noConfusion hwt
  | .tBool, .vInt n, fuel, rest, hwf, hwt, hrest, hc => Bool.noConfusion hwt
  | .tBool, .vStr s, fuel, rest, hwf, hwt, hrest, hc => Bool.noConfusion hwt
  | .tBool, .vObj vs, fuel, rest, hwf, hwt, hrest, hc => Bool.noConfusion hwt
  | .tBool, .vArr es, fuel, rest, hwf, hwt, hrest, hc => Bool.noConfusion hwt
  | .tStr, .vInt n, fuel, rest, hwf, hwt, hrest, hc => Bool.noConfusion hwt
  | .tStr, .vBool b, fuel, rest, hwf, hwt, hrest, hc => Bool.noConfusion hwt
  | .tStr, .vObj vs, fuel, rest, hwf, hwt, hrest, hc => Bool.noConfusion hwt
  | .tStr, .vArr es, fuel, rest, hwf, hwt, hrest, hc => Bool.noConfusion hwt
  | .tObj fs, .vInt n, fuel, rest, hwf, hwt, hrest, hc => Bool.noConfusion hwt
  | .tObj fs, .vBool b, fuel, rest, hwf, hwt, hrest, hc => Bool.noConfusion hwt
  | .tObj fs, .vStr s, fuel, rest, hwf, hwt, hrest, hc => Bool.noConfusion hwt
  | .tObj fs, .vArr es, fuel, rest, hwf, hwt, hrest, hc => Bool.noConfusion hwt
  | .tArr te, .vInt n, fuel, rest, hwf, hwt, hrest, hc => Bool.noConfusion hwt
  | .tArr te, .vBool b, fuel, rest, hwf, hwt, hrest, hc => Bool.noConfusion hwt
  | .tArr te, .vStr s, fuel, rest, hwf, hwt, hrest, hc => Bool.noConfusion hwt
  | .tArr te, .vObj vs, fuel, rest, hwf, hwt, hrest, hc => Bool.noConfusion hwt

theorem parseObjLoop_inv : ∀ (fs : List (Bytes × Ty)) (vs : List Value)
    (acc : List (Bytes × Jv)) (fuel : Nat) (rest : Bytes),
    nodupNames fs = true → wfFieldTys fs = true → wtFields fs vs = true → fs ≠ [] →
    (∀ kv ∈ acc, ∀ f t, (f, t) ∈ fs → kv.1 ≠ f) →
    restStop rest → jpcostFields fs vs ≤ fuel →
    parseObjLoop fuel (jObjBody (jSerFields fs vs) ++ 125 :: rest) acc
      = (.mk .jObject [] (acc ++ jSerFields fs vs) [], rest)
  | [], vs, acc, fuel, rest, hnd, hwf, hwt, hne, hacc, hrest, hc => absurd rfl hne
  | (f, t) :: fs, [], acc, fuel, rest, hnd, hwf, hwt, hne, hacc, hrest, hc =>
    Bool.noConfusion hwt
  | (f, t) :: fs, v :: vs, acc, fuel, rest, hnd, hwf, hwt, hne, hacc, hrest, hc => by
    have hwf3 : (isIdent f && wfTy t && wfFieldTys fs) = true := hwf
    rw [Bool.and_eq_true, Bool.and_eq_true] at hwf3
    obtain ⟨hfresh, hnd2⟩ := nodupNames_head hnd
    have hwt2 : (wtV t v && wtFields fs vs) = true := hwt
    rw [Bool.and_eq_true] at hwt2
    have hident : ∀ b ∈ f, isIdentChar b = true := by
      have h2 : isIdent f = true := hwf3.1.1
      match f, h2 with
      | c :: f2, h2 =>
        have h3 : ((c :: f2).all isIdentChar && !(isDigitB c)) = true := h2
        rw [Bool.and_eq_true] at h3
        exact fun b hb => List.all_eq_true.mp h3.1 b hb
    have hcform : jpcostFields ((f, t) :: fs) (v :: vs)
        = jpcostV t v + jpcostFields fs vs + 1 := rfl
    obtain ⟨g, rfl⟩ : ∃ g, fuel = g + 1 := ⟨fuel - 1, by rw [hcform] at hc; omega⟩
    have hgV : jpcostV t v ≤ g := by rw [hcform] at hc; omega
    rcases fs with _ | ⟨⟨f2, t2⟩, fs2⟩
    · rcases vs with _ | ⟨v2, vs2⟩
      · have hform : jObjBody (jSerFields [(f, t)] [v]) ++ 125 :: rest
            = 34 :: (escapeJsonString f ++ 34 :: (58 :: (valueToJsonString (jSerV t v)
              ++ 125 :: rest))) := by
          show (34 :: (escapeJsonString f ++ 34 :: 58 :: valueToJsonString (jSerV t v)))
            ++ 125 :: rest = _
          simp only [List.cons_append, List.append_assoc]
        rw [hform, parseObjLoop_step]
        rw [skipWs_cons (show isSpaceB 34 = false from rfl)]
        have hPS := parseString_inv f (58 :: (valueToJsonString (jSerV t v) ++ 125 :: rest))
        rw [prodSnd hPS, prodFst hPS]
        rw [skipWs_cons (show isSpaceB 58 = false from rfl)]
        rw [ite_cond_true _ _
          (show ((58 :: (valueToJsonString (jSerV t v) ++ 125 :: rest)).head?
            == some 58) = true from rfl)]
        rw [List.tail_cons]
        have hPV := parseV_inv t v g (125 :: rest) hwf3.1.2 hwt2.1
          (Or.inr (Or.inr rfl)) hgV
        rw [prodSnd hPV, prodFst hPV]
        rw [skipWs_cons (show isSpaceB 125 = false from rfl)]
        rw [ite_cond_true _ _ (show ((125 :: rest).head? == some 125) = true from rfl)]
        rw [List.tail_cons, jKeyOf_quoted, escape_ident hident,
          jStore_fresh acc f (jSerV t v)
            (fun kv hkv => hacc kv hkv f t (List.mem_cons_self _ _))]
        rfl
      · exact Bool.noConfusion hwt2.2
    · rcases vs with _ | ⟨v2, vs2⟩
      · exact Bool.noConfusion hwt2.2
      · have hform : jObjBody (jSerFields ((f, t) :: (f2, t2) :: fs2) (v :: v2 :: vs2))
            ++ 125 :: rest
            = 34 :: (escapeJsonString f ++ 34 :: (58 :: (valueToJsonString (jSerV t v)
              ++ 44 :: (jObjBody (jSerFields ((f2, t2) :: fs2) (v2 :: vs2))
                ++ 125 :: rest)))) := by
          show ((34 :: (escapeJsonString f ++ 34 :: 58 :: valueToJsonString (jSerV t v)))
            ++ 44 :: jObjBody ((f2, jSerV t2 v2) :: jSerFields fs2 vs2)) ++ 125 :: rest = _
          simp only [List.cons_append, List.append_assoc]
          rfl
        rw [hform, parseObjLoop_step]
        rw [skipWs_cons (show isSpaceB 34 = false from rfl)]
        have hPS := parseString_inv f (58 :: (valueToJsonString (jSerV t v)
          ++ 44 :: (jObjBody (jSerFields ((f2, t2) :: fs2) (v2 :: vs2)) ++ 125 :: rest)))
        rw [prodSnd hPS, prodFst hPS]
        rw [skipWs_cons (show isSpaceB 58 = false from rfl)]
        rw [ite_cond_true _ _
          (show ((58 :: (valueToJsonString (jSerV t v)
            ++ 44 :: (jObjBody (jSerFields ((f2, t2) :: fs2) (v2 :: vs2))
              ++ 125 :: rest))).head? == some 58) = true from rfl)]
        rw [List.tail_cons]
        have hPV := parseV_inv t v g
          (44 :: (jObjBody (jSerFields ((f2, t2) :: fs2) (v2 :: vs2)) ++ 125 :: rest))
          hwf3.1.2 hwt2.1 (Or.inl rfl) hgV
        rw [prodSnd hPV, prodFst hPV]
        rw [skipWs_cons (show isSpaceB 44 = false from rfl)]
        rw [ite_cond_false _ _
          (show ((44 :: (jObjBody (jSerFields ((f2, t2) :: fs2) (v2 :: vs2))
            ++ 125 :: rest)).head? == some 125) = false from rfl)]
        rw [ite_cond_true _ _
          (show ((44 :: (jObjBody (jSerFields ((f2, t2) :: fs2) (v2 :: vs2))
            ++ 125 :: rest)).head? == some 44) = true from rfl)]
        rw [List.tail_cons, jKeyOf_quoted, escape_ident hident,
          jStore_fresh acc f (jSerV t v)
            (fun kv hkv => hacc kv hkv f t (List.mem_cons_self _ _))]
        have hacc2 : ∀ kv ∈ acc ++ [(f, jSerV t v)], ∀ g2 tg,
            (g2, tg) ∈ (f2, t2) :: fs2 → kv.1 ≠ g2 := by
          intro kv hkv g2 tg hg
          rcases List.mem_append.mp hkv with h | h
          · exact hacc kv h g2 tg (List.mem_cons_of_mem _ hg)
          · rcases List.mem_singleton.mp h with rfl
            show f ≠ g2
            exact fun hcc => hfresh (g2, tg) hg hcc.symm
        rw [parseObjLoop_inv ((f2, t2) :: fs2) (v2 :: vs2) (acc ++ [(f, jSerV t v)]) g
          rest hnd2 hwf3.2 hwt2.2 (List.cons_ne_nil _ _) hacc2 hrest
          (by rw [hcform] at hc; omega)]
        simp only [List.append_assoc, List.singleton_append]
        rfl

theorem parseArrayLoop_inv : ∀ (te : Ty) (es : List Value) (acc : List Jv) (fuel : Nat)
    (rest : Bytes),
    wfTy te = true → wtElems te es = true → es ≠ [] →
    restStop rest → jpcostElems te es ≤ fuel →
    parseArrayLoop fuel (jArrBody (jSerElems te es) ++ 93 :: rest) acc
      = (.mk .jArray [] [] (acc ++ jSerElems te es), rest)
  | te, [], acc, fuel, rest, hwf, hwt, hne, hrest, hc => absurd rfl hne
  | te, [e], acc, fuel, rest, hwf, hwt, hne, hrest, hc => by
    have hwt2 : (wtV te e && wtElems te []) = true := hwt
    rw [Bool.and_eq_true] at hwt2
    have hcform : jpcostElems te [e] = jpcostV te e + jpcostElems te [] + 1 := rfl
    obtain ⟨g, rfl⟩ : ∃ g, fuel = g + 1 := ⟨fuel - 1, by rw [hcform] at hc; omega⟩
    have hgV : jpcostV te e ≤ g := by rw [hcform] at hc; omega
    have hform : jArrBody (jSerElems te [e]) ++ 93 :: rest
        = valueToJsonString (jSerV te e) ++ 93 :: rest := rfl
    rw [hform, parseArrayLoop_step]
    have hPV := parseV_inv te e g (93 :: rest) hwf hwt2.1 (Or.inr (Or.inl rfl)) hgV
    rw [prodSnd hPV, prodFst hPV]
    rw [skipWs_cons (show isSpaceB 93 = false from rfl)]
    rw [ite_cond_true _ _ (show ((93 :: rest).head? == some 93) = true from rfl)]
    rw [List.tail_cons]
    rfl
  | te, e :: e2 :: es2, acc, fuel, rest, hwf, hwt, hne, hrest, hc => by
    have hwt2 : (wtV te e && wtElems te (e2 :: es2)) = true := hwt
    rw [Bool.and_eq_true] at hwt2
    have hwtp2 : (wtV te e2 && wtElems te es2) = true := hwt2.2
    rw [Bool.and_eq_true] at hwtp2
    have hcform : jpcostElems te (e :: e2 :: es2)
        = jpcostV te e + jpcostElems te (e2 :: es2) + 1 := rfl
    obtain ⟨g, rfl⟩ : ∃ g, fuel = g + 1 := ⟨fuel - 1, by rw [hcform] at hc; omega⟩
    have hgV : jpcostV te e ≤ g := by rw [hcform] at hc; omega
    have hform : jArrBody (jSerElems te (e :: e2 :: es2)) ++ 93 :: rest
        = valueToJsonString (jSerV te e)
          ++ 44 :: (jArrBody (jSerElems te (e2 :: es2)) ++ 93 :: rest) := by
      show (valueToJsonString (jSerV te e)
        ++ 44 :: jArrBody (jSerV te e2 :: jSerElems te es2)) ++ 93 :: rest = _
      simp only [List.cons_append, List.append_assoc]
      rfl
    rw [hform, parseArrayLoop_step]
    have hPV := parseV_inv te e g
      (44 :: (jArrBody (jSerElems te (e2 :: es2)) ++ 93 :: rest)) hwf hwt2.1
      (Or.inl rfl) hgV
    rw [prodSnd hPV, prodFst hPV]
    rw [skipWs_cons (show isSpaceB 44 = false from rfl)]
    rw [ite_cond_false _ _
      (show ((44 :: (jArrBody (jSerElems te (e2 :: es2)) ++ 93 :: rest)).head?
        == some 93) = false from rfl)]
    rw [ite_cond_true _ _
      (show ((44 :: (jArrBody (jSerElems te (e2 :: es2)) ++ 93 :: rest)).head?
        == some 44) = true from rfl)]
    rw [List.tail_cons]
    obtain ⟨tl, htl⟩ := jArrBody_head (jSerV te e2) (jSerElems te es2)
    have htl2 : jArrBody (jSerElems te (e2 :: es2))
        = valueToJsonString (jSerV te e2) ++ tl := htl
    obtain ⟨h0, tl0, hvh, hsp, h93x, _, _⟩ := vjs_head te e2 hwtp2.1
    have hexp : jArrBody (jSerElems te (e2 :: es2)) ++ 93 :: rest
        = h0 :: (tl0 ++ (tl ++ 93 :: rest)) := by
      rw [htl2, hvh]
      simp only [List.cons_append, List.append_assoc]
    have hskipN : skipWs (jArrBody (jSerElems te (e2 :: es2)) ++ 93 :: rest)
        = jArrBody (jSerElems te (e2 :: es2)) ++ 93 :: rest := by
      rw [hexp]
      exact skipWs_cons hsp _
    rw [hskipN]
    rw [parseArrayLoop_inv te (e2 :: es2) (acc ++ [jSerV te e]) g rest hwf hwt2.2
      (List.cons_ne_nil _ _) hrest (by rw [hcform] at hc; omega)]
    simp only [List.append_assoc, List.singleton_append]
    rfl
end

/-- End-to-end lazy-JSON round trip: streaming a serialized document and
deserializing it over any well-typed prior instance recovers every field of
the original value. -/
theorem jsonRoundTrip (fs : List (Bytes × Ty)) (vs olds : List Value) (fuel : Nat)
    (hnd : nodupNames fs = true) (hwf : wfFieldTys fs = true)
    (hwt : wtFields fs vs = true) (hwto : wtFields fs olds = true)
    (hc1 : jpcostFields fs vs + 2 ≤ fuel) (hc2 : costFields fs vs ≤ fuel) :
    jDesTop fuel fs olds (valueToJsonString (jSerTop fs vs)) = some vs := by
  have hwfT : wfTy (.tObj fs) = true := by
    show (nodupNames fs && wfFieldTys fs) = true
    rw [hnd, hwf]
    rfl
  have hparse := parseV_inv (.tObj fs) (.vObj vs) fuel [] hwfT hwt True.intro hc1
  rw [List.append_nil] at hparse
  show jDesFields fuel false
    ((parseValue fuel (valueToJsonString (jSerV (.tObj fs) (.vObj vs)))).1) fs olds
    = some vs
  rw [prodFst hparse]
  have hF := jDesFields_correct fs vs olds fuel [] [] [] hnd hwf hwt hwto
    (fun kv hkv => absurd hkv (List.not_mem_nil kv)) hc2
  have hnode : jSerV (.tObj fs) (.vObj vs)
      = Jv.mk .jObject [] ([] ++ jSerFields fs vs) [] := by
    show Jv.mk .jObject [] (jSerFields fs vs) [] = _
    rw [List.nil_append]
  rw [hnode, hF]

/-! ### Part F: field registration (REGISTER_SERIALIZABLE_FIELD) and the
runtime type-dispatch registry (multi_serializable.h). -/

/-! Registration model.  A concrete type declares n fields; constructing an
instance runs the per-field helper constructors in declaration order 0..n-1.
Each helper guards its emplace_back with a per-field static once_flag, and
std::call_once blocks concurrent callers until the winning execution
completes, so each guarded registration is one atomic step and a thread only
moves past field i once flag i is consumed.  The flag of field i being
consumed coincides with i having been appended to serializationFields_, so
the flag state is represented by membership in the fields list.  pcs holds
one program counter per constructing thread. -/
structure RegState where
  fields : List Nat
  pcs : List Nat

inductive RegStep (n : Nat) : RegState → RegState → Prop
  | register (t : Nat) (st : RegState) (ht : t < st.pcs.length)
      (hpc : st.pcs.getD t 0 < n) (hnew : ¬ st.pcs.getD t 0 ∈ st.fields) :
      RegStep n st ⟨st.fields ++ [st.pcs.getD t 0], st.pcs.set t (st.pcs.getD t 0 + 1)⟩
  | skip (t : Nat) (st : RegState) (ht : t < st.pcs.length)
      (hpc : st.pcs.getD t 0 < n) (hold : st.pcs.getD t 0 ∈ st.fields) :
      RegStep n st ⟨st.fields, st.pcs.set t (st.pcs.getD t 0 + 1)⟩

/-- States reachable from T fresh threads and an empty field list. -/
inductive RegReach (n T : Nat) : RegState → Prop
  | init : RegReach n T ⟨[], List.replicate T 0⟩
  | step {st st2 : RegState} : RegReach n T st → RegStep n st st2 → RegReach n T st2

def RegInv (n : Nat) (st : RegState) : Prop :=
  st.fields = List.range st.fields.length ∧ st.fields.length ≤ n ∧
    ∀ t, ∀ j < st.pcs.getD t 0, j ∈ st.fields

theorem getD_set_self (l : List Nat) (t v : Nat) (h : t < l.length) :
    (l.set t v).getD t 0 = v := by
  induction l generalizing t with
  | nil => simp at h
  | cons a l ih =>
    cases t with
    | zero => rfl
    | succ t2 =>
      show (l.set t2 v).getD t2 0 = v
      exact ih t2 (by simpa using h)

theorem getD_set_ne (l : List Nat) (t u v : Nat) (h : u ≠ t) :
    (l.set t v).getD u 0 = l.getD u 0 := by
  induction l generalizing t u with
  | nil => rfl
  | cons a l ih =>
    cases t with
    | zero =>
      cases u with
      | zero => exact absurd rfl h
      | succ u2 => rfl
    | succ t2 =>
      cases u with
      | zero => rfl
      | succ u2 =>
        show (l.set t2 v).getD u2 0 = l.getD u2 0
        exact ih t2 u2 (fun hc => h (by rw [hc]))

theorem regInv_init (n T : Nat) : RegInv n ⟨[], List.replicate T 0⟩ := by
  refine ⟨rfl, by simp, ?_⟩
  intro t j hj
  have : (List.replicate T 0).getD t 0 = 0 := by
    rcases Nat.lt_or_ge t T with h | h
    · rw [List.getD_eq_getElem?_getD, List.getElem?_replicate, if_pos h]
      rfl
    · rw [List.getD_eq_getElem?_getD, List.getElem?_replicate, if_neg (by omega)]
      rfl
  rw [this] at hj
  omega

theorem regInv_step {n : Nat} {st st2 : RegState} (hinv : RegInv n st)
    (hstep : RegStep n st st2) : RegInv n st2 := by
  obtain ⟨hfields, hlen, hpcs⟩ := hinv
  cases hstep with
  | register t st ht hpc hnew =>
    have hmemlt : ∀ x ∈ st.fields, x < st.fields.length := by
      intro x hx
      rw [hfields] at hx
      exact List.mem_range.mp hx
    have hple : st.pcs.getD t 0 ≤ st.fields.length := by
      by_contra hgt
      have hmem : st.fields.length ∈ st.fields := hpcs t st.fields.length (by omega)
      have := hmemlt _ hmem
      omega
    have hpge : st.pcs.getD t 0 ≥ st.fields.length := by
      by_contra hlt
      exact hnew (by rw [hfields]; exact List.mem_range.mpr (by omega))
    have hpe : st.pcs.getD t 0 = st.fields.length := by omega
    refine ⟨?_, ?_, ?_⟩
    · show st.fields ++ [st.pcs.getD t 0] = List.range (st.fields ++ [st.pcs.getD t 0]).length
      rw [hpe, List.length_append, List.length_singleton, List.range_succ]
      rw [← hfields]
    · show (st.fields ++ [st.pcs.getD t 0]).length ≤ n
      rw [List.length_append, List.length_singleton]
      omega
    · intro u j hj
      by_cases hut : u = t
      · subst hut
        rw [getD_set_self _ _ _ ht] at hj
        rcases Nat.lt_or_ge j (st.pcs.getD u 0) with h2 | h2
        · exact List.mem_append_left _ (hpcs u j h2)
        · have : j = st.pcs.getD u 0 := by omega
          rw [this]
          exact List.mem_append_right _ (List.mem_singleton.mpr rfl)
      · rw [getD_set_ne _ _ _ _ hut] at hj
        exact List.mem_append_left _ (hpcs u j hj)
  | skip t st ht hpc hold =>
    refine ⟨hfields, hlen, ?_⟩
    intro u j hj
    by_cases hut : u = t
    · subst hut
      rw [getD_set_self _ _ _ ht] at hj
      rcases Nat.lt_or_ge j (st.pcs.getD u 0) with h2 | h2
      · exact hpcs u j h2
      · have : j = st.pcs.getD u 0 := by omega
        rw [this]
        exact hold
    · rw [getD_set_ne _ _ _ _ hut] at hj
      exact hpcs u j hj

theorem regInv_reach {n T : Nat} {st : RegState} (h : RegReach n T st) : RegInv n st := by
  induction h with
  | init => exact regInv_init n T
  | step hr hs ih => exact regInv_step ih hs

/-- Once every field is registered the list never changes again. -/
theorem regStable {n : Nat} {st st2 : RegState} (hfull : st.fields = List.range n)
    (hstep : RegStep n st st2) : st2.fields = List.range n := by
  cases hstep with
  | register t st ht hpc hnew =>
    exact absurd (by rw [hfull]; exact List.mem_range.mpr hpc) hnew
  | skip t st ht hpc hold => exact hfull

/-- A thread that has finished constructing an instance has passed every
field, so the registry holds exactly the n declared descriptors in
declaration order. -/
theorem regComplete {n T : Nat} {st : RegState} (h : RegReach n T st) (t : Nat)
    (hfin : st.pcs.getD t 0 = n) : st.fields = List.range n := by
  obtain ⟨hfields, hlen, hpcs⟩ := regInv_reach h
  have hsub : ∀ j < n, j ∈ st.fields := by
    intro j hj
    exact hpcs t j (by omega)
  have hmemlt : ∀ x ∈ st.fields, x < st.fields.length := by
    intro x hx
    rw [hfields] at hx
    exact List.mem_range.mp hx
  have hge : n ≤ st.fields.length := by
    by_contra hlt
    have := hmemlt _ (hsub st.fields.length (by omega))
    omega
  have : st.fields.length = n := by omega
  rw [hfields, this]

/-! Type-dispatch registry model.  The unordered_map from type_index to the
type-erased codec is an association list keyed by a numeric type index; the
mapped functions act on a state σ standing for the destination value
together with the adapter document (serializers and deserializers have the
same dispatch structure, so one definition covers both maps). -/
abbrev TypeRegistry (σ : Type) : Type := List (Nat × (σ → σ))

def regLookup {σ : Type} : TypeRegistry σ → Nat → Option (σ → σ)
  | [], _ => none
  | (k, f) :: r, q => if k = q then some f else regLookup r q

/-- TypeDispatchRegistry::serialize / deserialize: find the codec for the
type index and invoke it; when the find fails nothing is called and the
function returns normally. -/
def registryDispatch {σ : Type} (reg : TypeRegistry σ) (ti : Nat) (st : σ) : σ :=
  match regLookup reg ti with
  | some f => f st
  | none => st

theorem regLookup_none {σ : Type} : ∀ (reg : TypeRegistry σ) (ti : Nat),
    (∀ e ∈ reg, e.1 ≠ ti) → regLookup reg ti = none
  | [], ti, _ => rfl
  | (k, f) :: r, ti, h => by
    show (if k = ti then some f else regLookup r ti) = none
    rw [if_neg (h (k, f) (List.mem_cons_self _ _))]
    exact regLookup_none r ti (fun e he => h e (List.mem_cons_of_mem _ he))

/-! Support lemmas for the missing-child and empty-stream behaviors. -/

theorem textDesV_absent (fuel : Nat) (d : TextData) (node key : Bytes) (t : Ty)
    (old : Value) (h : textGetChild d node key = none) :
    textDesV (fuel + 1) d node key t old = some old := by
  cases t with
  | tInt => rw [textDesV_step_int, h]
  | tBool => rw [textDesV_step_bool, h]
  | tStr => rw [textDesV_step_str, h]
  | tObj fs => exact textDesV_obj_none fuel d node key fs old h
  | tArr te => rw [textDesV_step_arr, h]

theorem jDesV_absent (fuel : Nat) (se : Bool) (node : Option Jv) (key : Bytes) (t : Ty)
    (old : Value) (h : jGetChild se node key = none) :
    jDesV (fuel + 1) se node key t old = some old := by
  cases t with
  | tInt => rw [jDesV_step_int, h]
  | tBool => rw [jDesV_step_bool, h]
  | tStr => rw [jDesV_step_str, h]
  | tObj fs => cases old <;> rw [jDesV_step_obj, h]
  | tArr te => rw [jDesV_step_arr, h]

theorem jGetChild_serializing (nd : Jv) (key : Bytes) (hk : key ≠ []) :
    jGetChild true (some nd) key = none := by
  unfold jGetChild
  rw [if_neg hk]
  rfl

theorem jDesFields_empty : ∀ (fs : List (Bytes × Ty)) (olds : List Value) (fuel : Nat)
    (nd : Jv), wfFieldTys fs = true → wtFields fs olds = true →
    costFields fs olds ≤ fuel → jDesFields fuel true nd fs olds = some olds
  | [], [], fuel, nd, hwf, hwto, hc => by
    match fuel, hc with
    | fuel + 1, _ => rfl
  | [], o :: os, fuel, nd, hwf, hwto, hc => Bool.noConfusion hwto
  | (f, t) :: fs, [], fuel, nd, hwf, hwto, hc => Bool.noConfusion hwto
  | (f, t) :: fs, o :: os, fuel, nd, hwf, hwto, hc => by
    have hwf3 : (isIdent f && wfTy t && wfFieldTys fs) = true := hwf
    rw [Bool.and_eq_true, Bool.and_eq_true] at hwf3
    have hwto2 : (wtV t o && wtFields fs os) = true := hwto
    rw [Bool.and_eq_true] at hwto2
    have hcform : costFields ((f, t) :: fs) (o :: os)
        = costV t o + costFields fs os + 1 := rfl
    match fuel, (by rw [hcform] at hc; omega : costV t o + costFields fs os + 1 ≤ fuel) with
    | fuel + 1, hc2 =>
      rw [jDesFields_step]
      obtain ⟨g, rfl⟩ : ∃ g, fuel = g + 1 := by
        refine ⟨fuel - 1, ?_⟩
        have : 1 ≤ costV t o := by cases t <;> cases o <;> simp [costV]
        omega
      rw [jDesV_absent g true (some nd) f t o
        (jGetChild_serializing nd f (isIdent_ne_nil hwf3.1.1))]
      rw [jDesFields_empty fs os (g + 1) nd hwf3.2 hwto2.2 (by omega)]
      rfl

/-- Zero-count arrays decode to the empty sequence, whatever the prior
value. -/
theorem jDesV_zero_array (fuel : Nat) (node : Option Jv) (key : Bytes) (te : Ty)
    (old : Value) (raw : Bytes) (obj : List (Bytes × Jv))
    (h : jGetChild false node key = some (.mk .jArray raw obj [])) :
    jDesV (fuel + 2) false node key (.tArr te) old = some (.vArr []) := by
  rw [jDesV_step_arr, h]
  rfl

/-- Zero-count arrays decode to the empty sequence in the text adapter,
whatever the prior value. -/
theorem textDesV_zero_array (fuel : Nat) (d : TextData) (node key p : Bytes) (te : Ty)
    (old : Value) (hch : textGetChild d node key = some p) (harr : isArrayT d p = true)
    (hsz : getArraySizeT d p = some 0) :
    textDesV (fuel + 2) d node key (.tArr te) old = some (.vArr []) := by
  rw [textDesV_step_arr, hch]
  show (if isArrayT d p then
      (getArraySizeT d p).bind (fun n =>
        (textDesElems (fuel + 1) d p te n 0).map Value.vArr)
    else some old) = some (.vArr [])
  rw [ite_cond_true _ _ harr, hsz]
  rfl

/-- A zero count prefix decodes to the empty sequence in the binary adapter,
consuming only the four count bytes. -/
theorem binDesV_zero_array (fuel : Nat) (te : Ty) (rest : Bytes) :
    binDesV (fuel + 2) (.tArr te) ([0, 0, 0, 0] ++ rest) = some (.vArr [], rest) := rfl

/-- Binary length-prefix truncation: a string whose length is a nonzero
multiple of 2^32 writes a zero length prefix (the length is cast to uint32),
so decoding yields the empty string and leaves the string bytes unread. -/
theorem binSer_overflow (s : Bytes) (h : s.length % 4294967296 = 0) (fuel : Nat) :
    binDesFields (fuel + 2) [([115], Ty.tStr)]
      (binSerFields [([115], Ty.tStr)] [Value.vStr s]) = some ([Value.vStr []], s) := by
  have hdoc : binSerFields [([115], Ty.tStr)] [Value.vStr s]
      = (le32 (s.length % 4294967296) ++ s) ++ [] := rfl
  rw [hdoc, h, List.append_nil]
  have h2 : read32 (le32 0 ++ s) = some (0, s) := rfl
  have h3 : binDesV (fuel + 1) .tStr (le32 0 ++ s) = some (.vStr [], s) := by
    show (read32 (le32 0 ++ s)).bind (fun p =>
        if p.1 ≤ p.2.length then some (Value.vStr (p.2.take p.1), p.2.drop p.1)
        else none) = some (.vStr [], s)
    rw [h2]
    show (if 0 ≤ s.length then some (Value.vStr (s.take 0), s.drop 0) else none)
      = some (.vStr [], s)
    rw [if_pos (Nat.zero_le _)]
    rfl
  show (binDesV (fuel + 1) .tStr (le32 0 ++ s)).bind (fun p =>
      (binDesFields (fuel + 1) [] p.2).map (fun q => (p.1 :: q.1, q.2)))
    = some ([Value.vStr []], s)
  rw [h3]
  rfl

/-! ### Part G: the claims. -/

/-- C1 (amended): for every adapter (binary, text, lazy-JSON) and every
well-typed document of scalar, nested-aggregate, externally-registered and
sequence fields, deserializing the output of serialize yields the original
value field by field, for any prior field values — where for the binary
adapter the string and sequence lengths are below 2^32 (its 4-byte length
prefixes truncate longer lengths) and for the text adapter the strings
contain no newline byte (its line framing splits on embedded newlines); the
lazy-JSON conjunct is unconditional.  Both restrictions of the original
claim are forced by the counterexample theorem. -/
theorem claim_C1 (fs : List (Bytes × Ty)) (vs olds : List Value) (fuel : Nat)
    (hnd : nodupNames fs = true) (hwf : wfFieldTys fs = true)
    (hwt : wtFields fs vs = true) (hwto : wtFields fs olds = true)
    (hc : costFields fs vs ≤ fuel) (hcj : jpcostFields fs vs + 2 ≤ fuel) :
    (smallL vs = true → binDesFields fuel fs (binSerFields fs vs) = some (vs, [])) ∧
    (nlFreeL vs = true →
      textDesTop fuel fs olds (flattenLines (textSerTop fs vs).lines) = some vs) ∧
    jDesTop fuel fs olds (valueToJsonString (jSerTop fs vs)) = some vs := by
  refine ⟨?_, fun hnl => textRoundTrip fs vs olds fuel hnd hwf hwt hwto hnl hc,
    jsonRoundTrip fs vs olds fuel hnd hwf hwt hwto hcj hc⟩
  intro hsmall
  have h := binDesF_binSerF fs vs fuel [] hwt hsmall hc
  rw [List.append_nil] at h
  exact h

/-- C1 counterexample for the unamended claim, one conjunct per forced
restriction.  Text: a single string field holding the three bytes a,
newline, b serializes to a document that deserializes to the single byte
string quote-a, not the original.  Binary: a string field of 2^32 bytes
serializes with a zero length prefix (the length truncated to uint32), so
for every fuel it deserializes to the empty string, not the original. -/
theorem claim_C1_counterexample :
    (textDesTop 10 [([115], Ty.tStr)] [Value.vStr []]
        (flattenLines (textSerTop [([115], Ty.tStr)] [Value.vStr [97, 10, 98]]).lines)
        = some [Value.vStr [34, 97]] ∧
      some [Value.vStr [34, 97]] ≠ some [Value.vStr [97, 10, 98]]) ∧
    ((∀ fuel : Nat, binDesFields (fuel + 2) [([115], Ty.tStr)]
        (binSerFields [([115], Ty.tStr)] [Value.vStr (List.replicate 4294967296 97)])
        = some ([Value.vStr []], List.replicate 4294967296 97)) ∧
      Value.vStr ([] : Bytes) ≠ Value.vStr (List.replicate 4294967296 97)) := by
  refine ⟨⟨rfl, by simp⟩,
    ⟨fun fuel => binSer_overflow _ (by rw [List.length_replicate, Nat.mod_self]) fuel, ?_⟩⟩
  intro h
  have h2 := congrArg List.length (Value.vStr.inj h)
  rw [List.length_nil, List.length_replicate] at h2
  exact absurd h2 (by decide)

theorem claim_C1_witness :
    (nodupNames [([118, 97, 108, 117, 101], Ty.tInt), ([110, 97, 109, 101], Ty.tStr)]
        = true ∧
      wfFieldTys [([118, 97, 108, 117, 101], Ty.tInt), ([110, 97, 109, 101], Ty.tStr)]
        = true ∧
      wtFields [([118, 97, 108, 117, 101], Ty.tInt), ([110, 97, 109, 101], Ty.tStr)]
        [Value.vInt 42, Value.vStr [104, 105]] = true ∧
      wtFields [([118, 97, 108, 117, 101], Ty.tInt), ([110, 97, 109, 101], Ty.tStr)]
        [Value.vInt 0, Value.vStr []] = true ∧
      smallL [Value.vInt 42, Value.vStr [104, 105]] = true ∧
      nlFreeL [Value.vInt 42, Value.vStr [104, 105]] = true ∧
      costFields [([118, 97, 108, 117, 101], Ty.tInt), ([110, 97, 109, 101], Ty.tStr)]
        [Value.vInt 42, Value.vStr [104, 105]] ≤ 40 ∧
      jpcostFields [([118, 97, 108, 117, 101], Ty.tInt), ([110, 97, 109, 101], Ty.tStr)]
        [Value.vInt 42, Value.vStr [104, 105]] + 2 ≤ 40) ∧
    (binDesFields 40 [([118, 97, 108, 117, 101], Ty.tInt), ([110, 97, 109, 101], Ty.tStr)]
      (binSerFields [([118, 97, 108, 117, 101], Ty.tInt), ([110, 97, 109, 101], Ty.tStr)]
        [Value.vInt 42, Value.vStr [104, 105]])
      = some ([Value.vInt 42, Value.vStr [104, 105]], []) ∧
    textDesTop 40 [([118, 97, 108, 117, 101], Ty.tInt), ([110, 97, 109, 101], Ty.tStr)]
      [Value.vInt 0, Value.vStr []]
      (flattenLines (textSerTop
        [([118, 97, 108, 117, 101], Ty.tInt), ([110, 97, 109, 101], Ty.tStr)]
        [Value.vInt 42, Value.vStr [104, 105]]).lines)
      = some [Value.vInt 42, Value.vStr [104, 105]] ∧
    jDesTop 40 [([118, 97, 108, 117, 101], Ty.tInt), ([110, 97, 109, 101], Ty.tStr)]
      [Value.vInt 0, Value.vStr []]
      (valueToJsonString (jSerTop
        [([118, 97, 108, 117, 101], Ty.tInt), ([110, 97, 109, 101], Ty.tStr)]
        [Value.vInt 42, Value.vStr [104, 105]]))
      = some [Value.vInt 42, Value.vStr [104, 105]]) :=
  ⟨⟨by decide, by decide, by decide, by decide, by decide, by decide, by decide, by decide⟩,
    ⟨(claim_C1 [([118, 97, 108, 117, 101], Ty.tInt), ([110, 97, 109, 101], Ty.tStr)]
        [Value.vInt 42, Value.vStr [104, 105]] [Value.vInt 0, Value.vStr []] 40
        (by decide) (by decide) (by decide) (by decide) (by decide) (by decide)).1
      (by decide),
    (claim_C1 [([118, 97, 108, 117, 101], Ty.tInt), ([110, 97, 109, 101], Ty.tStr)]
        [Value.vInt 42, Value.vStr [104, 105]] [Value.vInt 0, Value.vStr []] 40
        (by decide) (by decide) (by decide) (by decide) (by decide) (by decide)).2.1
      (by decide),
    (claim_C1 [([118, 97, 108, 117, 101], Ty.tInt), ([110, 97, 109, 101], Ty.tStr)]
        [Value.vInt 42, Value.vStr [104, 105]] [Value.vInt 0, Value.vStr []] 40
        (by decide) (by decide) (by decide) (by decide) (by decide) (by decide)).2.2⟩⟩

/-- C2: in the adapter-generic field deserializer, a child reported absent
by getChild leaves the field value untouched and produces no error, for the
text and lazy-JSON adapters (binary getChild never reports absence). -/
theorem claim_C2 : ∀ (t : Ty) (old : Value) (fuel : Nat) (d : TextData)
    (node key : Bytes) (se : Bool) (jnode : Option Jv) (jkey : Bytes),
    (textGetChild d node key = none → textDesV (fuel + 1) d node key t old = some old) ∧
    (jGetChild se jnode jkey = none → jDesV (fuel + 1) se jnode jkey t old = some old) :=
  fun t old fuel d node key se jnode jkey =>
    ⟨textDesV_absent fuel d node key t old, jDesV_absent fuel se jnode jkey t old⟩

theorem claim_C2_witness :
    (textGetChild [] [110] [107] = none ∧
      textDesV 4 [] [110] [107] Ty.tInt (Value.vInt 7) = some (Value.vInt 7)) ∧
    (jGetChild false none [107] = none ∧
      jDesV 4 false none [107] Ty.tInt (Value.vInt 7) = some (Value.vInt 7)) :=
  ⟨⟨rfl, (claim_C2 Ty.tInt (Value.vInt 7) 3 [] [110] [107] false none [107]).1 rfl⟩,
    ⟨rfl, (claim_C2 Ty.tInt (Value.vInt 7) 3 [] [110] [107] false none [107]).2 rfl⟩⟩

/-- C3: REFUTED (code bug).  getValue of std::string calls
unescapeJsonString, whose \\u branch converts the four following characters
with std::stoul outside any try block; on a stored string such as
backslash-uZZZZ the conversion finds no hexadecimal digit and
std::stoul throws std::invalid_argument, which escapes getValue.  The none
below is exactly that exception path (the first conjunct shows it for every
fuel, so it is not a fuel artifact), reached from the public API by
deserializing the well-formed document containing the string, contradicting
the claim that a default value is returned and no exception is raised.  The
intent is documented by the spec and by the tests that expect no throw on
malformed content. -/
theorem claim_C3 :
    (∀ fuel : Nat, unescF (fuel + 1) [92, 117, 90, 90, 90, 90] = none) ∧
    jDesTop 20 [([115], Ty.tStr)] [Value.vStr []]
      [123, 34, 115, 34, 58, 34, 92, 117, 90, 90, 90, 90, 34, 125] = none :=
  ⟨fun fuel => rfl, rfl⟩

/-- C4: in any interleaved execution of any number of constructing threads,
once some thread has finished constructing an instance, the field registry
of the type holds exactly one descriptor per declared field, in declaration
order, and no later step changes it. -/
theorem claim_C4 {n T : Nat} {st : RegState} (h : RegReach n T st) (t : Nat)
    (hfin : st.pcs.getD t 0 = n) :
    st.fields = List.range n ∧ ∀ st2, RegStep n st st2 → st2.fields = List.range n :=
  ⟨regComplete h t hfin, fun st2 hs => regStable (regComplete h t hfin) hs⟩

theorem claim_C4_witness :
    RegReach 2 2 ⟨[0, 1], [2, 0]⟩ ∧ (RegState.mk [0, 1] [2, 0]).fields = List.range 2 := by
  have h0 : RegReach 2 2 ⟨[], [0, 0]⟩ := RegReach.init
  have h1 : RegReach 2 2 ⟨[0], [1, 0]⟩ :=
    RegReach.step h0 (RegStep.register 0 ⟨[], [0, 0]⟩ (by decide) (by decide) (by decide))
  have h2 : RegReach 2 2 ⟨[0, 1], [2, 0]⟩ :=
    RegReach.step h1 (RegStep.register 0 ⟨[0], [1, 0]⟩ (by decide) (by decide) (by decide))
  exact ⟨h2, (claim_C4 h2 0 rfl).1⟩

/-- C5: serializing an int field value=42 followed by a string field
name="hi" with the binary adapter produces exactly the ten bytes
2A 00 00 00 02 00 00 00 68 69. -/
theorem claim_C5 :
    binSerFields [([118, 97, 108, 117, 101], Ty.tInt), ([110, 97, 109, 101], Ty.tStr)]
      [Value.vInt 42, Value.vStr [104, 105]]
      = [42, 0, 0, 0, 2, 0, 0, 0, 104, 105] := rfl

/-- C6: in each of the three adapters, sequence deserialization sizes the
destination to the adapter-reported array length, discarding any prior
contents, and fills each slot positionally from the serialized elements
(lazy-JSON from the parsed child tree, text from the count entry and the
dotted element paths, binary from the count prefix and the element
encodings); a zero-count array yields the empty sequence in each adapter;
and an empty sequence serializes as a zero count with no element entries
(lazy-JSON tree, binary bytes, and text lines). -/
theorem claim_C6 :
    (∀ (te : Ty) (es : List Value) (old : Value) (fuel : Nat) (node : Option Jv)
      (key : Bytes), wfTy te = true → wtElems te es = true →
      wtV (.tArr te) old = true →
      jGetChild false node key = some (jSerV (.tArr te) (.vArr es)) →
      costV (.tArr te) (.vArr es) ≤ fuel →
      jDesV fuel false node key (.tArr te) old = some (.vArr es)) ∧
    (∀ (te : Ty) (old : Value) (fuel : Nat) (node : Option Jv) (key raw : Bytes)
      (obj : List (Bytes × Jv)),
      jGetChild false node key = some (.mk .jArray raw obj []) →
      jDesV (fuel + 2) false node key (.tArr te) old = some (.vArr [])) ∧
    (∀ (te : Ty) (es : List Value) (old : Value) (fuel : Nat) (node key : Bytes)
      (pre post : TextData), wfTy (.tArr te) = true → wtV (.tArr te) (.vArr es) = true →
      wtV (.tArr te) old = true → nlFreeV (.vArr es) = true →
      childPath node key ≠ [] →
      (∀ kv ∈ pre, ¬ below (childPath node key) kv.1) →
      (∀ kv ∈ post, ¬ below (childPath node key) kv.1) →
      costV (.tArr te) (.vArr es) ≤ fuel →
      textDesV fuel (pre ++ pairsV (childPath node key) (.tArr te) (.vArr es) ++ post)
        node key (.tArr te) old = some (.vArr es)) ∧
    (∀ (te : Ty) (old : Value) (fuel : Nat) (d : TextData) (node key p : Bytes),
      textGetChild d node key = some p → isArrayT d p = true →
      getArraySizeT d p = some 0 →
      textDesV (fuel + 2) d node key (.tArr te) old = some (.vArr [])) ∧
    (∀ (te : Ty) (es : List Value) (fuel : Nat) (rest : Bytes),
      wtV (.tArr te) (.vArr es) = true → smallV (.vArr es) = true →
      costV (.tArr te) (.vArr es) ≤ fuel →
      binDesV fuel (.tArr te) (binSerV (.tArr te) (.vArr es) ++ rest)
        = some (.vArr es, rest)) ∧
    (∀ (te : Ty) (fuel : Nat) (rest : Bytes),
      binDesV (fuel + 2) (.tArr te) ([0, 0, 0, 0] ++ rest) = some (.vArr [], rest)) ∧
    (∀ te : Ty, jSerV (.tArr te) (.vArr []) = .mk .jArray [] [] []) ∧
    (∀ te : Ty, binSerV (.tArr te) (.vArr []) = [0, 0, 0, 0]) ∧
    (∀ (te : Ty) (P : Bytes), pairsV P (.tArr te) (.vArr [])
      = [(countKey P, natToDec 0)]) := by
  refine ⟨?_, ?_, ?_, ?_, ?_, ?_, ?_, ?_, ?_⟩
  · intro te es old fuel node key hwf hwt hwto hget hc
    exact jDes_correct (.tArr te) (.vArr es) old fuel node key hwf hwt hwto hget hc
  · intro te old fuel node key raw obj hget
    exact jDesV_zero_array fuel node key te old raw obj hget
  · intro te es old fuel node key pre post hwf hwt hwto hnl hne hpre hpost hc
    exact textDes_correct (.tArr te) (.vArr es) old fuel node key pre post
      hwf hwt hwto hnl hne hpre hpost hc
  · intro te old fuel d node key p hch harr hsz
    exact textDesV_zero_array fuel d node key p te old hch harr hsz
  · intro te es fuel rest hwt hsmall hc
    exact binDes_binSer (.tArr te) (.vArr es) fuel rest hwt hsmall hc
  · intro te fuel rest
    exact binDesV_zero_array fuel te rest
  · intro te
    rfl
  · intro te
    rfl
  · intro te P
    rfl

theorem claim_C6_witness :
    (wfTy Ty.tInt = true ∧ wtElems Ty.tInt [Value.vInt 5] = true ∧
      wtV (Ty.tArr Ty.tInt) (Value.vArr [Value.vInt 9, Value.vInt 8]) = true ∧
      jGetChild false (some (jSerV (Ty.tArr Ty.tInt) (Value.vArr [Value.vInt 5]))) []
        = some (jSerV (Ty.tArr Ty.tInt) (Value.vArr [Value.vInt 5])) ∧
      costV (Ty.tArr Ty.tInt) (Value.vArr [Value.vInt 5]) ≤ 10) ∧
    jDesV 10 false (some (jSerV (Ty.tArr Ty.tInt) (Value.vArr [Value.vInt 5]))) []
      (Ty.tArr Ty.tInt) (Value.vArr [Value.vInt 9, Value.vInt 8])
      = some (Value.vArr [Value.vInt 5]) :=
  ⟨⟨rfl, by decide, by decide, rfl, by decide⟩,
    claim_C6.1 Ty.tInt [Value.vInt 5] (Value.vArr [Value.vInt 9, Value.vInt 8]) 10
      (some (jSerV (Ty.tArr Ty.tInt) (Value.vArr [Value.vInt 5]))) []
      rfl (by decide) (by decide) rfl (by decide)⟩

/-- C7: every byte string, including quotes, backslashes, control characters
and non-ASCII bytes, survives the lazy-JSON escape followed by unescape
unchanged. -/
theorem claim_C7 (s : Bytes) (hs : ∀ b ∈ s, b < 256) :
    unescapeJsonString (escapeJsonString s) = some s := escape_unescape s hs

theorem claim_C7_witness :
    (∀ b ∈ [34, 92, 10, 7, 200], b < 256) ∧
    unescapeJsonString (escapeJsonString [34, 92, 10, 7, 200])
      = some [34, 92, 10, 7, 200] :=
  ⟨by decide, claim_C7 [34, 92, 10, 7, 200] (by decide)⟩

/-- C8: in the text write path, setArray at path P emits the line
P.count = N and resets the per-array running index, and k subsequent
addArrayElement calls on that node yield exactly the element paths
P.0, P.1, ..., P.(k-1) in order. -/
theorem claim_C8 (st : TextWState) (node : Bytes) (size k : Nat) :
    (twSetArray st node size).lines
      = st.lines ++ [lineOf (countKey node) (natToDec size)] ∧
    (twAddElems (twSetArray st node size) node k).2
      = (List.range' 0 k).map (fun j => node ++ 46 :: natToDec j) := by
  constructor
  · rfl
  · have hlook : alook (twSetArray st node size).arrayIndices node = some 0 :=
      alook_aset_self _ _ _
    exact (twAddElems_paths k (twSetArray st node size) node 0 hlook).1

/-- C9: dispatching serialize or deserialize through the runtime type
registry with a type index that was never registered calls no codec and
returns with the state unchanged and no error. -/
theorem claim_C9 {σ : Type} (reg : TypeRegistry σ) (ti : Nat) (st : σ)
    (h : ∀ e ∈ reg, e.1 ≠ ti) : registryDispatch reg ti st = st := by
  unfold registryDispatch
  rw [regLookup_none reg ti h]

theorem claim_C9_witness :
    (∀ e ∈ ([(1, fun x => x + 1)] : TypeRegistry Nat), e.1 ≠ 2) ∧
    registryDispatch ([(1, fun x => x + 1)] : TypeRegistry Nat) 2 5 = 5 :=
  ⟨fun e he => by rw [List.mem_singleton.mp he]; decide,
    claim_C9 ([(1, fun x => x + 1)] : TypeRegistry Nat) 2 5
      (fun e he => by rw [List.mem_singleton.mp he]; decide)⟩

/-- C10: deserializing through the lazy-JSON adapter from an empty stream
leaves every field at its prior value: the adapter is in serializing mode,
so every child request with a nonempty key reports absence and no field is
assigned. -/
theorem claim_C10 (fs : List (Bytes × Ty)) (olds : List Value) (fuel : Nat)
    (hwf : wfFieldTys fs = true) (hwto : wtFields fs olds = true)
    (hc : costFields fs olds ≤ fuel) :
    jDesTop fuel fs olds [] = some olds ∧
    (∀ (nd : Jv) (key : Bytes), key ≠ [] → jGetChild true (some nd) key = none) := by
  constructor
  · show jDesFields fuel true (Jv.mk .jObject [] [] []) fs olds = some olds
    exact jDesFields_empty fs olds fuel _ hwf hwto hc
  · exact fun nd key hk => jGetChild_serializing nd key hk

theorem claim_C10_witness :
    (wfFieldTys [([118], Ty.tInt)] = true ∧
      wtFields [([118], Ty.tInt)] [Value.vInt 7] = true ∧
      costFields [([118], Ty.tInt)] [Value.vInt 7] ≤ 5) ∧
    jDesTop 5 [([118], Ty.tInt)] [Value.vInt 7] [] = some [Value.vInt 7] :=
  ⟨⟨by decide, by decide, by decide⟩,
    (claim_C10 [([118], Ty.tInt)] [Value.vInt 7] 5 (by decide) (by decide) (by decide)).1⟩

end LazyCpp
